import Mathlib

/-!
Verification of the open62541 address-space / node-management core and the
TCP network layer plugin.

The node-management service itself is not part of the covered sources (only
its test suite is), so the address-space model below is modelled from the
specification (data model, type resolver, instantiator, node-management
service, lifecycle registry).  The TCP layer functions (connection_write,
addServerSocket, ServerNetworkLayerTCP_start) are embedded directly from
plugins/ua_network_tcp.c.
-/

set_option maxRecDepth 20000

/-! ## Identifiers -/

/-- Modelled from the spec: the variant payload of a NodeId
(`numeric(u32) | string(bytes) | guid(128-bit) | opaque(bytes)`). -/
inductive NodeIdVariant where
  | numeric (n : Nat)
  | str (s : String)
  | guid (g : Nat)
  | bstr (b : List Nat)
deriving DecidableEq

/-- Modelled from the spec: a namespaced identifier
`(namespaceIndex : u16, variant)`. -/
structure NodeId where
  namespaceIndex : Nat
  variant : NodeIdVariant
deriving DecidableEq

/-- Modelled from the spec: the distinguished NULL NodeId meaning
"server-assigned". -/
def NodeId.null : NodeId := ⟨0, .numeric 0⟩

def NodeId.isNull (i : NodeId) : Bool := i = NodeId.null

/-- Modelled from the spec: `(namespaceIndex : u16, name : text)`. -/
structure QualifiedName where
  namespaceIndex : Nat
  name : String
deriving DecidableEq

/-- Modelled from the spec: the eight node classes. -/
inductive NodeClass where
  | object
  | objectType
  | var
  | varType
  | refType
  | dataType
  | method
  | view
deriving DecidableEq

/-- Modelled from the spec: `(referenceTypeId, isForward, targetId)` as held
in a source node's reference list.  The holding node is the source. -/
structure UAReference where
  referenceTypeId : NodeId
  isForward : Bool
  targetId : NodeId
deriving DecidableEq

/-- The matching opposite half of a reference held by node `id`. -/
def flipRef (id : NodeId) (r : UAReference) : UAReference :=
  ⟨r.referenceTypeId, !r.isForward, id⟩

/-- Modelled from the spec: a node with the common header and the
class-specific attributes that the claims depend on (value for variables,
isAbstract for type nodes). -/
structure Node where
  nodeId : NodeId
  nodeClass : NodeClass
  browseName : QualifiedName
  displayName : String
  description : String
  isAbstract : Bool
  value : Option Int
  references : List UAReference
deriving DecidableEq

/-- Modelled from the spec: status codes from the OPC UA code space. -/
inductive StatusCode where
  | good
  | badNodeIdExists
  | badNodeIdInvalid
  | badParentNodeIdInvalid
  | badReferenceTypeIdInvalid
  | badTypeDefinitionInvalid
  | badBrowseNameDuplicated
  | badNotFound
  | badDuplicateReferenceNotAllowed
  | badOutOfMemory
  | badInternalError
  | badConnectionClosed
  | badCommunicationError
deriving DecidableEq

/-! ## Node store primitives -/

/-- Look a node up by identifier. -/
def getNode (nodes : List Node) (id : NodeId) : Option Node :=
  nodes.find? (fun n => n.nodeId = id)

/-- Apply `f` to the node with identifier `id` (no-op when absent). -/
def updNode (nodes : List Node) (id : NodeId) (f : Node → Node) : List Node :=
  nodes.map (fun n => if n.nodeId = id then f n else n)

/-- Append a reference to a node's reference list. -/
def addRef (r : UAReference) (n : Node) : Node :=
  { n with references := n.references ++ [r] }

/-- Install both halves of a reference pair atomically. -/
def installPair (nodes : List Node) (src rt : NodeId) (fwd : Bool)
    (tgt : NodeId) : List Node :=
  updNode (updNode nodes src (addRef ⟨rt, fwd, tgt⟩)) tgt
    (addRef ⟨rt, !fwd, src⟩)

/-! ## Namespace-0 identifiers (OPC UA Part 6 numeric bindings) -/

def nsZero (n : Nat) : NodeId := ⟨0, .numeric n⟩

def referencesId : NodeId := nsZero 31
def nonHierarchicalReferencesId : NodeId := nsZero 32
def hierarchicalReferencesId : NodeId := nsZero 33
def hasChildId : NodeId := nsZero 34
def organizesId : NodeId := nsZero 35
def hasModellingRuleId : NodeId := nsZero 37
def hasTypeDefinitionId : NodeId := nsZero 40
def aggregatesId : NodeId := nsZero 44
def hasSubtypeId : NodeId := nsZero 45
def hasPropertyId : NodeId := nsZero 46
def hasComponentId : NodeId := nsZero 47
def baseObjectTypeId : NodeId := nsZero 58
def folderTypeId : NodeId := nsZero 61
def baseVariableTypeId : NodeId := nsZero 62
def baseDataVariableTypeId : NodeId := nsZero 63
def propertyTypeId : NodeId := nsZero 68
def mandatoryRuleId : NodeId := nsZero 78
def optionalRuleId : NodeId := nsZero 80
def rootFolderId : NodeId := nsZero 84
def objectsFolderId : NodeId := nsZero 85
def typesFolderId : NodeId := nsZero 86

/-! ## Type resolver -/

/-- Modelled from the spec: `type_children` enumerates children reached by
`HasComponent`/`HasProperty` (hierarchical aggregation). -/
def isAggregationRef (rt : NodeId) : Bool :=
  rt = hasComponentId || rt = hasPropertyId

/-- The target of a node's forward `HasTypeDefinition` reference, when the
node is typed. -/
def typeDefOf (n : Node) : Option NodeId :=
  (n.references.find? (fun r =>
    r.isForward && r.referenceTypeId = hasTypeDefinitionId)).map
    (·.targetId)

/-- The modelling rule of a child template, read from its outgoing
`HasModellingRule` reference. -/
def modellingRuleOf (n : Node) : Option NodeId :=
  (n.references.find? (fun r =>
    r.isForward && r.referenceTypeId = hasModellingRuleId)).map
    (·.targetId)

/-- The immediate subtypes of a type: targets of its forward `HasSubtype`
references. -/
def subtypeSucc (nodes : List Node) (t : NodeId) : List NodeId :=
  match getNode nodes t with
  | none => []
  | some n =>
    (n.references.filter (fun r =>
      r.isForward && r.referenceTypeId = hasSubtypeId)).map (·.targetId)

/-- Modelled from the spec: `is_subtype_of(a, b)` is true iff a chain of
`HasSubtype` forward references leads from `b` down to `a`.  Fuel-bounded
walk from `b`. -/
def isSubtypeOfFuel (nodes : List Node) (a : NodeId) :
    Nat → NodeId → Bool
  | 0, b => a = b
  | fuel + 1, b =>
    a = b || (subtypeSucc nodes b).any (fun c =>
      isSubtypeOfFuel nodes a fuel c)

def isSubtypeOf (nodes : List Node) (a b : NodeId) : Bool :=
  isSubtypeOfFuel nodes a nodes.length b

/-- The supertype of a type: the target of its inverse `HasSubtype`
reference (the subtype relation is a forest, so it is unique). -/
def superTypeOf (nodes : List Node) (t : NodeId) : Option NodeId :=
  match getNode nodes t with
  | none => none
  | some n =>
    ((n.references.filter (fun r =>
      !r.isForward && r.referenceTypeId = hasSubtypeId)).map
      (·.targetId)).head?

/-- The subtype chain from a type up to its root, most-derived first.
Fuel-bounded against invariant-prohibited cycles. -/
def typeChain (nodes : List Node) : Nat → NodeId → List NodeId
  | 0, t => [t]
  | fuel + 1, t =>
    t :: (match superTypeOf nodes t with
      | none => []
      | some p => typeChain nodes fuel p)

/-- A child template of a type: the template node, its identifier, and the
aggregation reference type linking the type to the child. -/
structure ChildTemplate where
  templateId : NodeId
  refTypeId : NodeId
  node : Node
deriving DecidableEq

/-- The direct aggregation children of a type node. -/
def directChildren (nodes : List Node) (t : NodeId) : List ChildTemplate :=
  match getNode nodes t with
  | none => []
  | some n =>
    n.references.filterMap (fun r =>
      if r.isForward && isAggregationRef r.referenceTypeId then
        match getNode nodes r.targetId with
        | some c => some ⟨r.targetId, r.referenceTypeId, c⟩
        | none => none
      else none)

/-- Most-derived-wins accumulation: a template is kept only when no
already-accumulated template carries its BrowseName. -/
def addTemplate (acc : List ChildTemplate) (c : ChildTemplate) :
    List ChildTemplate :=
  if acc.any (fun a => a.node.browseName = c.node.browseName) then acc
  else acc ++ [c]

/-- Modelled from the spec: the Mandatory-modelling-rule children of a
type, accumulated along the subtype chain from the type up to the root,
with a most-derived child suppressing ancestor children of the same
BrowseName. -/
def mandatoryChildren (nodes : List Node) (t : NodeId) :
    List ChildTemplate :=
  (typeChain nodes nodes.length t).foldl (fun acc ty =>
    ((directChildren nodes ty).filter (fun c =>
      modellingRuleOf c.node = some mandatoryRuleId)).foldl addTemplate acc)
    []

example : isAggregationRef hasComponentId = true := by decide
example : isAggregationRef hasTypeDefinitionId = false := by decide

/-! ## Server state, lifecycle registry and events -/

/-- Modelled from the spec: the server value holding the store, the
lifecycle registry (per-type constructor/destructor hooks, represented by
the set of type ids with a registered hook) and the id counter for the
server namespace. -/
structure Server where
  nodes : List Node
  ctorTypes : List NodeId
  dtorTypes : List NodeId
  counter : Nat
deriving DecidableEq

/-- Observable lifecycle and instantiation-callback invocations. -/
inductive Event where
  | ctorCall (typeId : NodeId) (instanceId : NodeId)
  | dtorCall (typeId : NodeId) (instanceId : NodeId)
  | instCallback (newNodeId : NodeId) (templateId : NodeId)
deriving DecidableEq

/-- The outcome of a service call: the new server state, the status code,
and the lifecycle/callback events fired during the call. -/
structure OpResult where
  server : Server
  status : StatusCode
  events : List Event
deriving DecidableEq

/-- Modelled from the spec: server-assigned identifiers are monotonically
increasing numerics in a dedicated server namespace (namespace 1). -/
def freshId (ctr : Nat) : NodeId := ⟨1, .numeric ctr⟩

/-- Keep the id counter strictly above every numeric identifier inserted
in the server namespace. -/
def bumpFor (ctr : Nat) (id : NodeId) : Nat :=
  match id with
  | ⟨1, .numeric k⟩ => max ctr (k + 1)
  | _ => ctr

/-- Modelled from the spec: the most-derived type with a registered
constructor along the subtype chain. -/
def pickCtorType (s : Server) (typeId : NodeId) : Option NodeId :=
  (typeChain s.nodes s.nodes.length typeId).find? (fun t =>
    s.ctorTypes.contains t)

/-- Modelled from the spec: the most-derived type with a registered
destructor along the subtype chain (destructors are chosen symmetrically
to constructors). -/
def pickDtorType (s : Server) (typeId : NodeId) : Option NodeId :=
  (typeChain s.nodes s.nodes.length typeId).find? (fun t =>
    s.dtorTypes.contains t)

/-- Modelled from the spec: `set_lifecycle(typeId, constructor?,
destructor?)` registers per-type hooks. -/
def set_lifecycle (s : Server) (typeId : NodeId) (hasCtor hasDtor : Bool) :
    Server :=
  { s with
    ctorTypes := if hasCtor then s.ctorTypes ++ [typeId] else s.ctorTypes
    dtorTypes := if hasDtor then s.dtorTypes ++ [typeId] else s.dtorTypes }

/-! ## Instantiator

Modelled from the spec, section 4.5: the instantiator enumerates the
Mandatory children of the type definition, materializes one fresh child
per template (copying NodeClass, attributes and value but no
modelling-rule references), installs it under the instance with the
template's aggregation reference type, recurses into the child's own type
definition, fires the most-derived registered constructor for typed
children, and reports each materialized child through the instantiation
callback in depth-first order of the template walk.  The subtree is
planned as a unit and committed atomically (spec section 4.8). -/

/-- Constructor events fired for a typed node materialized during
instantiation. -/
def ctorEventsFor (s : Server) (tdef : Option NodeId) (id : NodeId) :
    List Event :=
  match tdef with
  | some τ =>
    match pickCtorType s τ with
    | some t => [Event.ctorCall t id]
    | none => []
  | none => []

/-- The result of planning one template list: the next counter value, the
created nodes paired with their template ids (in depth-first creation
order), the forward child references to install on the instance, and the
callback/constructor events in depth-first order. -/
abbrev PlanResult :=
  Nat × List (Node × NodeId) × List UAReference × List Event

/-- Plan one level of the template walk.  `sub` plans the subtree of a
typed child (it is the recursive call at one less fuel). -/
def planLevel (s : Server) (wcb : Bool)
    (sub : Nat → NodeId → List ChildTemplate → PlanResult) :
    Nat → NodeId → List ChildTemplate → PlanResult
  | ctr, _, [] => (ctr, [], [], [])
  | ctr, instId, c :: rest =>
    let childId := freshId ctr
    let tdef := typeDefOf c.node
    let (ctr1, subCreated, subRefs, subEvs) :=
      match tdef with
      | some τ => sub (ctr + 1) childId (mandatoryChildren s.nodes τ)
      | none => (ctr + 1, [], [], [])
    let childNode : Node :=
      { nodeId := childId
        nodeClass := c.node.nodeClass
        browseName := c.node.browseName
        displayName := c.node.displayName
        description := c.node.description
        isAbstract := c.node.isAbstract
        value := c.node.value
        references :=
          [⟨c.refTypeId, false, instId⟩] ++
          (match tdef with
           | some τ => [⟨hasTypeDefinitionId, true, τ⟩]
           | none => []) ++
          subRefs }
    let cbEvs := if wcb then [Event.instCallback childId c.templateId]
      else []
    let (ctr2, restCreated, restRefs, restEvs) :=
      planLevel s wcb sub ctr1 instId rest
    (ctr2,
     (childNode, c.templateId) :: subCreated ++ restCreated,
     ⟨c.refTypeId, true, childId⟩ :: restRefs,
     cbEvs ++ ctorEventsFor s tdef childId ++ subEvs ++ restEvs)

/-- The subtree plan used when the recursion depth is exhausted: create
nothing. -/
def planStop : Nat → NodeId → List ChildTemplate → PlanResult :=
  fun ctr _ _ => (ctr, [], [], [])

/-- Plan the materialization of a list of child templates under an
instance, depth-first, recursing into the type definitions of typed
children while fuel lasts.  All template enumeration reads the snapshot
`s` taken at the start of the instantiation. -/
def planChildren (s : Server) (wcb : Bool) : Nat →
    Nat → NodeId → List ChildTemplate → PlanResult
  | 0 => planLevel s wcb planStop
  | fuel + 1 => planLevel s wcb (planChildren s wcb fuel)

/-- Install, for every created node holding a forward `HasTypeDefinition`
reference, the inverse half at the type node. -/
def installTypeDefInverses (created : List Node) (nodes : List Node) :
    List Node :=
  created.foldl (fun ns c =>
    (c.references.filterMap (fun r =>
      if r.isForward && r.referenceTypeId = hasTypeDefinitionId then
        some r.targetId
      else none)).foldl (fun ns2 τ =>
        updNode ns2 τ (addRef ⟨hasTypeDefinitionId, false, c.nodeId⟩)) ns)
    nodes

/-! ## Node-management service -/

/-- The BrowseNames of the siblings reached from `parentId` by forward
references of exactly the reference type `rt`. -/
def siblingNames (nodes : List Node) (parentId rt : NodeId) :
    List QualifiedName :=
  match getNode nodes parentId with
  | none => []
  | some p =>
    p.references.filterMap (fun r =>
      if r.isForward && r.referenceTypeId = rt then
        (getNode nodes r.targetId).map (·.browseName)
      else none)

/-- Whether the node class expects a type definition. -/
def classHasTypeDef (cls : NodeClass) : Bool :=
  cls = NodeClass.object || cls = NodeClass.var

/-- Whether a type-definition node matches the class of the new node. -/
def typeDefClassMatches (cls : NodeClass) (tdCls : NodeClass) : Bool :=
  (cls = NodeClass.object && tdCls = NodeClass.objectType) ||
  (cls = NodeClass.var && tdCls = NodeClass.varType)

/-- Commit a plain (untyped) node: insert the node carrying the inverse
parent reference and add the forward half at the parent, atomically. -/
def commitPlainNode (s : Server) (parentId refTypeId newId : NodeId)
    (bn : QualifiedName) (cls : NodeClass) (displayName description : String)
    (isAbstract : Bool) (value : Option Int) : Server :=
  let newNode : Node :=
    { nodeId := newId
      nodeClass := cls
      browseName := bn
      displayName := displayName
      description := description
      isAbstract := isAbstract
      value := value
      references := [⟨refTypeId, false, parentId⟩] }
  { s with
    nodes := updNode s.nodes parentId (addRef ⟨refTypeId, true, newId⟩)
      ++ [newNode]
    counter := bumpFor s.counter newId }

/-- Commit an instantiation: plan the mandatory subtree depth-first from
the snapshot, then install the instance, its subtree, the parent
reference pair and all `HasTypeDefinition` inverse halves as a unit. -/
def commitInstance (s : Server) (parentId refTypeId newId : NodeId)
    (bn : QualifiedName) (cls : NodeClass) (displayName description : String)
    (value : Option Int) (τ : NodeId) (wcb : Bool) : Server × List Event :=
  let ctr0 := bumpFor s.counter newId
  let (ctr1, created, childRefs, childEvs) :=
    planChildren s wcb s.nodes.length ctr0 newId (mandatoryChildren s.nodes τ)
  let instNode : Node :=
    { nodeId := newId
      nodeClass := cls
      browseName := bn
      displayName := displayName
      description := description
      isAbstract := false
      value := value
      references :=
        [⟨refTypeId, false, parentId⟩, ⟨hasTypeDefinitionId, true, τ⟩] ++
        childRefs }
  let allCreated := instNode :: created.map (·.1)
  let nodes1 := updNode s.nodes parentId (addRef ⟨refTypeId, true, newId⟩)
  let nodes2 := installTypeDefInverses allCreated (nodes1 ++ allCreated)
  ({ s with nodes := nodes2, counter := ctr1 },
   ctorEventsFor s (some τ) newId ++ childEvs)

/-- Modelled from the spec: AddNode.  Validations run in order and the
first failure returns immediately with no state mutated; on success the
node (and, for typed classes, its mandatory subtree) is installed
atomically. -/
def addNode (s : Server) (parentId refTypeId requestedId : NodeId)
    (bn : QualifiedName) (cls : NodeClass) (typeDefId : NodeId)
    (displayName description : String) (isAbstract : Bool)
    (value : Option Int) (wcb : Bool) : OpResult :=
  match getNode s.nodes parentId with
  | none => ⟨s, .badParentNodeIdInvalid, []⟩
  | some _ =>
    match getNode s.nodes refTypeId with
    | none => ⟨s, .badReferenceTypeIdInvalid, []⟩
    | some rtn =>
      if rtn.nodeClass ≠ NodeClass.refType then
        ⟨s, .badReferenceTypeIdInvalid, []⟩
      else if ¬requestedId.isNull ∧ (getNode s.nodes requestedId).isSome then
        ⟨s, .badNodeIdExists, []⟩
      else if classHasTypeDef cls ∧ ¬typeDefId.isNull then
        match getNode s.nodes typeDefId with
        | none => ⟨s, .badTypeDefinitionInvalid, []⟩
        | some td =>
          if ¬typeDefClassMatches cls td.nodeClass ∨ td.isAbstract then
            ⟨s, .badTypeDefinitionInvalid, []⟩
          else if bn ∈ siblingNames s.nodes parentId refTypeId then
            ⟨s, .badBrowseNameDuplicated, []⟩
          else
            let newId := if requestedId.isNull then freshId s.counter
              else requestedId
            let (s', evs) := commitInstance s parentId refTypeId newId bn
              cls displayName description value typeDefId wcb
            ⟨s', .good, evs⟩
      else
        if bn ∈ siblingNames s.nodes parentId refTypeId then
          ⟨s, .badBrowseNameDuplicated, []⟩
        else
          let newId := if requestedId.isNull then freshId s.counter
            else requestedId
          ⟨commitPlainNode s parentId refTypeId newId bn cls displayName
            description isAbstract value, .good, []⟩

/-- Modelled from the spec: AddReference validates that source, reference
type and target exist, rejects an already-present pair, and installs both
endpoints atomically. -/
def addReference (s : Server) (src rt tgt : NodeId) (fwd : Bool) :
    OpResult :=
  match getNode s.nodes src, getNode s.nodes rt, getNode s.nodes tgt with
  | some sn, some _, some _ =>
    if (UAReference.mk rt fwd tgt) ∈ sn.references then
      ⟨s, .badDuplicateReferenceNotAllowed, []⟩
    else
      ⟨{ s with nodes := installPair s.nodes src rt fwd tgt }, .good, []⟩
  | _, _, _ => ⟨s, .badNotFound, []⟩

/-- Destructor events fired when deleting a typed instance. -/
def dtorEventsFor (s : Server) (n : Node) : List Event :=
  match typeDefOf n with
  | some τ =>
    match pickDtorType s τ with
    | some t => [Event.dtorCall t n.nodeId]
    | none => []
  | none => []

/-- Drop from a node every reference that is the matching half of one of
the deleted node's processed references. -/
def purgeRefs (id : NodeId) (removed : List UAReference) (m : Node) :
    Node :=
  { m with references := m.references.filter (fun r =>
      ¬(r.targetId = id ∧ flipRef m.nodeId r ∈ removed)) }

/-- Modelled from the spec: DeleteNode invokes the registered destructor,
removes the matching inverse of every outgoing reference from its target,
removes (when `deleteTargetReferences`) every incoming reference from its
source, and removes the node itself, as a unit.  A reference `r` held by a
remaining node `m` is exactly "the matching half of a removed reference of
the deleted node" when `r` targets the deleted node and the deleted node
held the flipped reference back to `m`. -/
def deleteNode (s : Server) (id : NodeId) (deleteTargetReferences : Bool) :
    OpResult :=
  match getNode s.nodes id with
  | none => ⟨s, .badNotFound, []⟩
  | some n =>
    let removed := n.references.filter (fun r =>
      r.isForward || deleteTargetReferences)
    let nodes2 := (s.nodes.filter (fun m => ¬m.nodeId = id)).map
      (purgeRefs id removed)
    ⟨{ s with nodes := nodes2 }, .good, dtorEventsFor s n⟩

/-- Modelled from the spec: DeleteReference removes a reference; removal
of a reference removes both endpoints (spec sections 3 and 4.3: reference
pairs are destroyed atomically, a half-installed reference is never
observable). -/
def deleteReference (s : Server) (src rt tgt : NodeId) (fwd : Bool) :
    OpResult :=
  match getNode s.nodes src, getNode s.nodes tgt with
  | some _, some _ =>
    let nodes2 := s.nodes.map (fun m =>
      { m with references := m.references.filter (fun r =>
          ¬(m.nodeId = src ∧ r = ⟨rt, fwd, tgt⟩) ∧
          ¬(m.nodeId = tgt ∧ r = ⟨rt, !fwd, src⟩)) })
    ⟨{ s with nodes := nodes2 }, .good, []⟩
  | _, _ => ⟨s, .badNotFound, []⟩

/-! ## Browse -/

inductive BrowseDirection where
  | forward
  | inverse
  | both
deriving DecidableEq

structure BrowseDescription where
  nodeId : NodeId
  referenceTypeId : NodeId
  includeSubtypes : Bool
  browseDirection : BrowseDirection
  nodeClassMask : List NodeClass
deriving DecidableEq

structure ReferenceDescription where
  referenceTypeId : NodeId
  isForward : Bool
  nodeId : NodeId
  browseName : QualifiedName
  displayName : String
  nodeClass : NodeClass
  typeDefinition : Option NodeId
deriving DecidableEq

structure BrowseResult where
  statusCode : StatusCode
  references : List ReferenceDescription
deriving DecidableEq

def dirMatches (d : BrowseDirection) (isForward : Bool) : Bool :=
  match d with
  | .forward => isForward
  | .inverse => !isForward
  | .both => true

def refTypeMatches (nodes : List Node) (bd : BrowseDescription)
    (rt : NodeId) : Bool :=
  bd.referenceTypeId.isNull ||
  (if bd.includeSubtypes then isSubtypeOf nodes rt bd.referenceTypeId
   else rt = bd.referenceTypeId)

def classMatches (mask : List NodeClass) (cls : NodeClass) : Bool :=
  mask.isEmpty || mask.contains cls

/-- Modelled from the spec: Browse returns the reference descriptions of
the browsed node, filtered by direction, reference type (with subtype
expansion) and node-class mask. -/
def browse (s : Server) (bd : BrowseDescription) : BrowseResult :=
  match getNode s.nodes bd.nodeId with
  | none => ⟨.badNodeIdInvalid, []⟩
  | some n =>
    ⟨.good,
     n.references.filterMap (fun r =>
       if dirMatches bd.browseDirection r.isForward &&
          refTypeMatches s.nodes bd r.referenceTypeId then
         match getNode s.nodes r.targetId with
         | some t =>
           if classMatches bd.nodeClassMask t.nodeClass then
             some ⟨r.referenceTypeId, r.isForward, r.targetId, t.browseName,
                   t.displayName, t.nodeClass, typeDefOf t⟩
           else none
         | none => none
       else none)⟩

/-! ## Namespace-0 bootstrap -/

def fwdRef (rt tgt : NodeId) : UAReference := ⟨rt, true, tgt⟩

def invRef (rt tgt : NodeId) : UAReference := ⟨rt, false, tgt⟩

/-- A bootstrap node (browse and display name share the text). -/
def bootNode (id : NodeId) (cls : NodeClass) (name : String)
    (isAbstract : Bool) (refs : List UAReference) : Node :=
  { nodeId := id
    nodeClass := cls
    browseName := ⟨0, name⟩
    displayName := name
    description := name
    isAbstract := isAbstract
    value := none
    references := refs }

/-- Modelled from the spec: the read-only standard namespace populated on
server construction: the base reference types, the base node types, the
modelling rules and the root folders, with all reference pairs installed
on both endpoints. -/
def initialServer : Server :=
  { nodes :=
      [bootNode referencesId .refType "References" true
         [fwdRef hasSubtypeId hierarchicalReferencesId,
          fwdRef hasSubtypeId nonHierarchicalReferencesId],
       bootNode hierarchicalReferencesId .refType "HierarchicalReferences"
         true
         [invRef hasSubtypeId referencesId,
          fwdRef hasSubtypeId hasChildId,
          fwdRef hasSubtypeId organizesId],
       bootNode nonHierarchicalReferencesId .refType
         "NonHierarchicalReferences" true
         [invRef hasSubtypeId referencesId,
          fwdRef hasSubtypeId hasTypeDefinitionId,
          fwdRef hasSubtypeId hasModellingRuleId],
       bootNode hasChildId .refType "HasChild" true
         [invRef hasSubtypeId hierarchicalReferencesId,
          fwdRef hasSubtypeId aggregatesId,
          fwdRef hasSubtypeId hasSubtypeId],
       bootNode organizesId .refType "Organizes" false
         [invRef hasSubtypeId hierarchicalReferencesId],
       bootNode aggregatesId .refType "Aggregates" true
         [invRef hasSubtypeId hasChildId,
          fwdRef hasSubtypeId hasComponentId,
          fwdRef hasSubtypeId hasPropertyId],
       bootNode hasSubtypeId .refType "HasSubtype" false
         [invRef hasSubtypeId hasChildId],
       bootNode hasComponentId .refType "HasComponent" false
         [invRef hasSubtypeId aggregatesId],
       bootNode hasPropertyId .refType "HasProperty" false
         [invRef hasSubtypeId aggregatesId],
       bootNode hasTypeDefinitionId .refType "HasTypeDefinition" false
         [invRef hasSubtypeId nonHierarchicalReferencesId],
       bootNode hasModellingRuleId .refType "HasModellingRule" false
         [invRef hasSubtypeId nonHierarchicalReferencesId],
       bootNode baseObjectTypeId .objectType "BaseObjectType" false
         [fwdRef hasSubtypeId folderTypeId],
       bootNode folderTypeId .objectType "FolderType" false
         [invRef hasSubtypeId baseObjectTypeId],
       bootNode baseVariableTypeId .varType "BaseVariableType" true
         [fwdRef hasSubtypeId baseDataVariableTypeId,
          fwdRef hasSubtypeId propertyTypeId],
       bootNode baseDataVariableTypeId .varType "BaseDataVariableType" false
         [invRef hasSubtypeId baseVariableTypeId],
       bootNode propertyTypeId .varType "PropertyType" false
         [invRef hasSubtypeId baseVariableTypeId],
       bootNode mandatoryRuleId .object "Mandatory" false [],
       bootNode optionalRuleId .object "Optional" false [],
       bootNode rootFolderId .object "Root" false
         [fwdRef organizesId objectsFolderId,
          fwdRef organizesId typesFolderId],
       bootNode objectsFolderId .object "Objects" false
         [invRef organizesId rootFolderId],
       bootNode typesFolderId .object "Types" false
         [invRef organizesId rootFolderId]]
    ctorTypes := []
    dtorTypes := []
    counter := 1 }

/-! ## Invariants -/

/-- An identifier is fresh relative to the server-namespace counter:
numeric identifiers in the server namespace stay below the counter. -/
def idFreshB (ctr : Nat) (id : NodeId) : Bool :=
  match id with
  | ⟨1, .numeric k⟩ => k < ctr
  | _ => true

/-- Node identifiers are pairwise distinct. -/
def NodupIds (nodes : List Node) : Prop :=
  (nodes.map (·.nodeId)).Nodup

/-- The server-namespace counter is strictly above every numeric
identifier in the server namespace present in the store. -/
def CounterFresh (s : Server) : Prop :=
  ∀ n ∈ s.nodes, idFreshB s.counter n.nodeId = true

/-- Spec invariant 2: for every reference held by a node, if the target is
in the store, the target holds the matching opposite half. -/
def RefPairInv (nodes : List Node) : Prop :=
  ∀ m ∈ nodes, ∀ r ∈ m.references, ∀ t ∈ nodes,
    t.nodeId = r.targetId → flipRef m.nodeId r ∈ t.references

/-- Spec invariant 1 (without external references): every reference target
resolves to a node in the store. -/
def RefResolve (nodes : List Node) : Prop :=
  ∀ m ∈ nodes, ∀ r ∈ m.references, ∃ t ∈ nodes, t.nodeId = r.targetId

/-- The well-formedness bundle preserved by the service operations. -/
def Invariant (s : Server) : Prop :=
  NodupIds s.nodes ∧ CounterFresh s ∧ RefPairInv s.nodes ∧
    RefResolve s.nodes

instance (nodes : List Node) : Decidable (NodupIds nodes) :=
  List.nodupDecidable _

instance (s : Server) : Decidable (CounterFresh s) :=
  List.decidableBAll _ _

instance (nodes : List Node) : Decidable (RefPairInv nodes) :=
  List.decidableBAll _ _

instance (nodes : List Node) : Decidable (RefResolve nodes) :=
  List.decidableBAll _ _

instance (s : Server) : Decidable (Invariant s) := by
  unfold Invariant
  infer_instance

example : Invariant initialServer := by decide

/-! ## Service operation sequences -/

/-- The four mutating service operations of the node-management service. -/
inductive ServiceOp where
  | addNode (parentId refTypeId requestedId : NodeId) (bn : QualifiedName)
      (cls : NodeClass) (typeDefId : NodeId)
      (displayName description : String) (isAbstract : Bool)
      (value : Option Int) (wcb : Bool)
  | addReference (src rt tgt : NodeId) (fwd : Bool)
  | deleteNode (id : NodeId) (deleteTargetReferences : Bool)
  | deleteReference (src rt tgt : NodeId) (fwd : Bool)
deriving DecidableEq

/-- Apply one service operation to the server state. -/
def applyOp (s : Server) (op : ServiceOp) : Server :=
  match op with
  | .addNode p rt req bn cls td dn d ab v wcb =>
    (addNode s p rt req bn cls td dn d ab v wcb).server
  | .addReference src rt tgt fwd => (addReference s src rt tgt fwd).server
  | .deleteNode id dtr => (deleteNode s id dtr).server
  | .deleteReference src rt tgt fwd =>
    (deleteReference s src rt tgt fwd).server

/-- Apply a sequence of service operations. -/
def applyOps (s : Server) (ops : List ServiceOp) : Server :=
  ops.foldl applyOp s

/-- Whether an operation is a DeleteNode call that retains the incoming
references of the deleted node (`deleteTargetReferences = false`). -/
def retainsDanglingRefs (op : ServiceOp) : Bool :=
  match op with
  | .deleteNode _ dtr => !dtr
  | _ => false

/-! ## TCP network layer (embedded from plugins/ua_network_tcp.c) -/

/-- The connection states used by the TCP plugin. -/
inductive UAConnectionState where
  | opening
  | established
  | closed
deriving DecidableEq

/-- One result of the `send` system call as observed by
`connection_write`: `sent n` is a non-negative return value, `errRetry`
a negative return with errno INTERRUPTED or AGAIN, `errFatal` a negative
return with any other errno. -/
inductive SendResult where
  | sent (n : Nat)
  | errRetry
  | errFatal
deriving DecidableEq

/-- The connection/buffer state threaded through `connection_write`:
the connection state and the number of times the byte string's members
have been released. -/
structure WriteState where
  connState : UAConnectionState
  bufFrees : Nat
deriving DecidableEq

/-- `connection_close`: shutdown and mark the connection closed. -/
def connection_close (st : WriteState) : WriteState :=
  { st with connState := .closed }

/-- `connection_write`, embedded from ua_network_tcp.c lines 121-150:
send the full buffer, which may require several calls to `send`; a
negative `send` with errno other than INTERRUPTED/AGAIN closes the
connection, frees the buffer and returns BadConnectionClosed; otherwise
the loop continues until `nWritten` reaches the buffer length, frees the
buffer and returns Good.  The list supplies the successive `send`
results; `none` means the call is still looping when they run out. -/
def connection_write (sends : List SendResult) (bufLen nWritten : Nat)
    (st : WriteState) : Option (StatusCode × WriteState × Nat) :=
  match sends with
  | [] => none
  | e :: rest =>
    match e with
    | .errFatal =>
      some (.badConnectionClosed,
        { connection_close st with bufFrees := st.bufFrees + 1 }, nWritten)
    | .errRetry => connection_write rest bufLen nWritten st
    | .sent n =>
      let nWritten2 := nWritten + min n (bufLen - nWritten)
      if nWritten2 < bufLen then
        connection_write rest bufLen nWritten2 st
      else
        some (.good, { st with bufFrees := st.bufFrees + 1 }, nWritten2)

/-- FD_SETSIZE as on the covered platforms. -/
def FD_SETSIZE : Nat := 1024

/-- The server network layer state relevant to the socket bound:
`serverSocketsSize` indexes the `serverSockets[FD_SETSIZE]` array. -/
structure ServerNetworkLayerTCP where
  serverSocketsSize : Nat
deriving DecidableEq

/-- How far the socket setup of `addServerSocket` gets for one addrinfo:
every failure branch returns before the array write; only full success
reaches `serverSockets[serverSocketsSize] = newsock`. -/
inductive SocketSetup where
  | socketFail
  | v6onlyFail
  | reuseFail
  | nonblockFail
  | bindFail
  | listenFail
  | success
deriving DecidableEq

/-- `addServerSocket`, embedded from ua_network_tcp.c lines 311-372:
on any setup failure the function returns without touching the layer; on
success it writes `serverSockets[serverSocketsSize]` (the returned index)
and increments `serverSocketsSize`. -/
def addServerSocket (layer : ServerNetworkLayerTCP) (setup : SocketSetup) :
    ServerNetworkLayerTCP × Option Nat :=
  match setup with
  | .success =>
    (⟨layer.serverSocketsSize + 1⟩, some layer.serverSocketsSize)
  | _ => (layer, none)

/-- The addrinfo loop of `ServerNetworkLayerTCP_start` (lines 417-421):
starting from `serverSocketsSize = 0`, call `addServerSocket` for each
addrinfo while `serverSocketsSize < FD_SETSIZE`.  Returns the final layer
and the list of array indices written. -/
def startLoop (layer : ServerNetworkLayerTCP) :
    List SocketSetup → ServerNetworkLayerTCP × List Nat
  | [] => (layer, [])
  | ai :: rest =>
    if layer.serverSocketsSize < FD_SETSIZE then
      let (layer2, w) := addServerSocket layer ai
      let (layer3, ws) := startLoop layer2 rest
      (layer3, w.toList ++ ws)
    else (layer, [])

/-- `ServerNetworkLayerTCP_start`, restricted to its server-socket loop:
`layer->serverSocketsSize = 0` then the guarded addrinfo loop. -/
def ServerNetworkLayerTCP_start (ais : List SocketSetup) :
    ServerNetworkLayerTCP × List Nat :=
  startLoop ⟨0⟩ ais

/-! ## Theorems: TCP layer -/

theorem connection_write_aux (sends : List SendResult) (bufLen : Nat) :
    ∀ (nWritten : Nat) (st : WriteState) (code : StatusCode)
      (st' : WriteState) (w : Nat),
    nWritten ≤ bufLen →
    connection_write sends bufLen nWritten st = some (code, st', w) →
    (code = .good ∧ w = bufLen ∧ st'.connState = st.connState ∧
      st'.bufFrees = st.bufFrees + 1) ∨
    (code = .badConnectionClosed ∧ st'.connState = .closed ∧
      st'.bufFrees = st.bufFrees + 1) := by
  induction sends with
  | nil =>
    intro nWritten st code st' w _ h
    simp [connection_write] at h
  | cons e rest ih =>
    intro nWritten st code st' w hle h
    cases e with
    | errFatal =>
      simp [connection_write, connection_close] at h
      obtain ⟨h1, h2, h3⟩ := h
      exact Or.inr ⟨h1.symm, by simp [← h2], by simp [← h2]⟩
    | errRetry =>
      simp only [connection_write] at h
      exact ih nWritten st code st' w hle h
    | sent n =>
      simp only [connection_write] at h
      by_cases hlt : nWritten + min n (bufLen - nWritten) < bufLen
      · rw [if_pos hlt] at h
        exact ih _ st code st' w (Nat.le_of_lt hlt) h
      · rw [if_neg hlt] at h
        simp only [Option.some.injEq, Prod.mk.injEq] at h
        obtain ⟨h1, h2, h3⟩ := h
        refine Or.inl ⟨h1.symm, ?_, by simp [← h2], by simp [← h2]⟩
        have hub : nWritten + min n (bufLen - nWritten) ≤ bufLen := by
          have := Nat.min_le_right n (bufLen - nWritten)
          omega
        omega

/-- C9: every completed `connection_write` call either transmits the whole
buffer and returns Good with the connection state untouched, or closes the
connection and returns BadConnectionClosed; on both return paths the
buffer's members are released exactly once. -/
theorem connection_write_all_or_closed (sends : List SendResult)
    (bufLen : Nat) (cs : UAConnectionState) (f : Nat) (code : StatusCode)
    (st' : WriteState) (w : Nat)
    (h : connection_write sends bufLen 0 ⟨cs, f⟩ = some (code, st', w)) :
    (code = .good ∧ w = bufLen ∧ st'.connState = cs ∧
      st'.bufFrees = f + 1) ∨
    (code = .badConnectionClosed ∧ st'.connState = .closed ∧
      st'.bufFrees = f + 1) :=
  connection_write_aux sends bufLen 0 ⟨cs, f⟩ code st' w
    (Nat.zero_le _) h

/-- Witness for C9 at a concrete send trace: two partial sends and a
retriable error transmit a five-byte buffer. -/
theorem connection_write_all_or_closed_witness :
    connection_write [.sent 2, .errRetry, .sent 3] 5 0 ⟨.established, 0⟩ =
      some (.good, ⟨.established, 1⟩, 5) ∧
    ((StatusCode.good = .good ∧ (5 : Nat) = 5 ∧
        UAConnectionState.established = .established ∧ (1 : Nat) = 0 + 1) ∨
      (StatusCode.good = .badConnectionClosed ∧
        UAConnectionState.established = .closed ∧ (1 : Nat) = 0 + 1)) :=
  ⟨by decide,
   connection_write_all_or_closed [.sent 2, .errRetry, .sent 3] 5
     .established 0 .good ⟨.established, 1⟩ 5 (by decide)⟩

theorem startLoop_bound (ais : List SocketSetup) :
    ∀ layer : ServerNetworkLayerTCP,
    layer.serverSocketsSize ≤ FD_SETSIZE →
    (startLoop layer ais).1.serverSocketsSize ≤ FD_SETSIZE ∧
    ∀ i ∈ (startLoop layer ais).2, i < FD_SETSIZE := by
  induction ais with
  | nil =>
    intro layer h
    simpa [startLoop] using h
  | cons ai rest ih =>
    intro layer h
    by_cases hlt : layer.serverSocketsSize < FD_SETSIZE
    · cases ai <;>
        first
        | (simp only [startLoop, if_pos hlt, addServerSocket,
             Option.toList_none, List.nil_append]
           exact ih layer h)
        | (simp only [startLoop, if_pos hlt, addServerSocket]
           obtain ⟨ih1, ih2⟩ := ih ⟨layer.serverSocketsSize + 1⟩
             (by show layer.serverSocketsSize + 1 ≤ FD_SETSIZE; omega)
           refine ⟨ih1, ?_⟩
           intro i hi
           simp only [Option.toList_some, List.singleton_append,
             List.mem_cons] at hi
           rcases hi with rfl | hi
           · exact hlt
           · exact ih2 i hi)
    · simp [startLoop, hlt]
      exact h

/-- C10: `ServerNetworkLayerTCP_start` keeps `serverSocketsSize` at most
FD_SETSIZE, `addServerSocket` increments it by at most one per call, and
every write to `serverSockets[serverSocketsSize]` lands at an index below
FD_SETSIZE. -/
theorem serverSockets_within_bounds (ais : List SocketSetup) :
    (∀ (layer : ServerNetworkLayerTCP) (setup : SocketSetup),
      (addServerSocket layer setup).1.serverSocketsSize ≤
        layer.serverSocketsSize + 1) ∧
    (ServerNetworkLayerTCP_start ais).1.serverSocketsSize ≤ FD_SETSIZE ∧
    ∀ i ∈ (ServerNetworkLayerTCP_start ais).2, i < FD_SETSIZE := by
  refine ⟨fun layer setup => ?_, ?_⟩
  · cases setup <;> simp [addServerSocket]
  · exact startLoop_bound ais ⟨0⟩ (by simp [FD_SETSIZE])

/-- Witness for C10: a concrete mixed addrinfo list writes index 0 and 1
only. -/
theorem serverSockets_within_bounds_witness :
    (0 : Nat) ∈
      (ServerNetworkLayerTCP_start [.success, .bindFail, .success]).2 ∧
    (0 : Nat) < FD_SETSIZE :=
  ⟨by decide,
   (serverSockets_within_bounds [.success, .bindFail, .success]).2.2 0
     (by decide)⟩

/-! ## Store lemma toolkit -/

theorem addRef_nodeId (r : UAReference) (n : Node) :
    (addRef r n).nodeId = n.nodeId := rfl

theorem getNode_mem {nodes : List Node} {id : NodeId} {n : Node}
    (h : getNode nodes id = some n) : n ∈ nodes :=
  List.mem_of_find?_eq_some h

theorem getNode_id {nodes : List Node} {id : NodeId} {n : Node}
    (h : getNode nodes id = some n) : n.nodeId = id := by
  have := List.find?_some h
  simpa using this

theorem getNode_eq_none_iff (nodes : List Node) (id : NodeId) :
    getNode nodes id = none ↔ ∀ n ∈ nodes, ¬n.nodeId = id := by
  unfold getNode
  rw [List.find?_eq_none]
  simp

theorem getNode_isSome_of_mem {nodes : List Node} {n : Node}
    (h : n ∈ nodes) : (getNode nodes n.nodeId).isSome := by
  rcases hf : getNode nodes n.nodeId with - | m
  · exact absurd ((getNode_eq_none_iff _ _).mp hf n h) (by simp)
  · simp

theorem getNode_append (a b : List Node) (id : NodeId) :
    getNode (a ++ b) id =
      (getNode a id).or (getNode b id) := by
  unfold getNode
  rw [List.find?_append]

theorem getNode_cons (n : Node) (nodes : List Node) (id : NodeId) :
    getNode (n :: nodes) id =
      if n.nodeId = id then some n else getNode nodes id := by
  unfold getNode
  by_cases h : n.nodeId = id <;> simp [List.find?_cons, h]

theorem updNode_nodeIds (nodes : List Node) (id : NodeId) (f : Node → Node)
    (hf : ∀ n, (f n).nodeId = n.nodeId) :
    (updNode nodes id f).map (·.nodeId) = nodes.map (·.nodeId) := by
  unfold updNode
  rw [List.map_map]
  apply List.map_congr_left
  intro n _
  by_cases h : n.nodeId = id <;> simp [h, hf]

theorem getNode_updNode (nodes : List Node) (id : NodeId) (f : Node → Node)
    (hf : ∀ n, (f n).nodeId = n.nodeId) (id' : NodeId) :
    getNode (updNode nodes id f) id' =
      if id' = id then (getNode nodes id').map f
      else getNode nodes id' := by
  induction nodes with
  | nil => by_cases h : id' = id <;> simp [updNode, getNode, h]
  | cons n rest ih =>
    show getNode ((if n.nodeId = id then f n else n) :: updNode rest id f)
      id' = _
    by_cases hn : n.nodeId = id <;> by_cases h' : id' = id <;>
      by_cases hn' : n.nodeId = id' <;>
      simp_all [getNode_cons, hf]

theorem mem_updNode {nodes : List Node} {id : NodeId} {f : Node → Node}
    {m : Node} (h : m ∈ updNode nodes id f) :
    ∃ n ∈ nodes, m = if n.nodeId = id then f n else n := by
  unfold updNode at h
  obtain ⟨n, hn, he⟩ := List.mem_map.mp h
  exact ⟨n, hn, he.symm⟩

/-! ## Theorems: error handling of AddNode -/

theorem addNode_status_good_or_unchanged (s : Server)
    (parentId refTypeId requestedId : NodeId) (bn : QualifiedName)
    (cls : NodeClass) (typeDefId : NodeId) (dn de : String)
    (ab : Bool) (v : Option Int) (wcb : Bool) :
    (addNode s parentId refTypeId requestedId bn cls typeDefId dn de ab v
      wcb).status = .good ∨
    ((addNode s parentId refTypeId requestedId bn cls typeDefId dn de ab v
        wcb).server = s ∧
      (addNode s parentId refTypeId requestedId bn cls typeDefId dn de ab v
        wcb).events = []) := by
  unfold addNode
  repeat' split
  all_goals first
    | (left; rfl)
    | (right; exact ⟨rfl, rfl⟩)

/-- C3: every AddNode call that returns a non-Good status leaves the nodes
and references of the store bit-identical to the state before the call
(and fires no lifecycle event): failure is atomic. -/
theorem addNode_failure_atomic (s : Server)
    (parentId refTypeId requestedId : NodeId) (bn : QualifiedName)
    (cls : NodeClass) (typeDefId : NodeId) (dn de : String)
    (ab : Bool) (v : Option Int) (wcb : Bool)
    (h : (addNode s parentId refTypeId requestedId bn cls typeDefId dn de
      ab v wcb).status ≠ .good) :
    (addNode s parentId refTypeId requestedId bn cls typeDefId dn de ab v
      wcb).server = s ∧
    (addNode s parentId refTypeId requestedId bn cls typeDefId dn de ab v
      wcb).events = [] :=
  (addNode_status_good_or_unchanged s parentId refTypeId requestedId bn cls
    typeDefId dn de ab v wcb).resolve_left h

/-- Witness for C3: adding under a nonexistent parent fails and leaves the
bootstrap server untouched. -/
theorem addNode_failure_atomic_witness :
    (addNode initialServer (nsZero 99999) organizesId NodeId.null ⟨1, "x"⟩
      .object NodeId.null "x" "x" false none false).status ≠ .good ∧
    (addNode initialServer (nsZero 99999) organizesId NodeId.null ⟨1, "x"⟩
      .object NodeId.null "x" "x" false none false).server = initialServer :=
  ⟨by decide,
   (addNode_failure_atomic initialServer (nsZero 99999) organizesId
     NodeId.null ⟨1, "x"⟩ .object NodeId.null "x" "x" false none false
     (by decide)).1⟩

/-- C4: AddNode with a non-NULL requestedId already present in the store
returns BadNodeIdExists, leaves the store unchanged, and a Browse of the
parent (indeed of any node) afterwards equals the Browse before the failed
call. -/
theorem addNode_duplicate_nodeId (s : Server)
    (parentId refTypeId requestedId : NodeId) (bn : QualifiedName)
    (cls : NodeClass) (typeDefId : NodeId) (dn de : String)
    (ab : Bool) (v : Option Int) (wcb : Bool) (rtn : Node)
    (hpar : (getNode s.nodes parentId).isSome = true)
    (hrt : getNode s.nodes refTypeId = some rtn)
    (hrtc : rtn.nodeClass = .refType)
    (hreq : requestedId.isNull = false)
    (hex : (getNode s.nodes requestedId).isSome = true) :
    (addNode s parentId refTypeId requestedId bn cls typeDefId dn de ab v
      wcb).status = .badNodeIdExists ∧
    (addNode s parentId refTypeId requestedId bn cls typeDefId dn de ab v
      wcb).server = s ∧
    ∀ bd, browse (addNode s parentId refTypeId requestedId bn cls typeDefId
      dn de ab v wcb).server bd = browse s bd := by
  rcases ho : getNode s.nodes parentId with - | pn
  · rw [ho] at hpar
    simp at hpar
  unfold addNode
  rw [ho, hrt]
  simp only [hrtc, ne_eq, not_true_eq_false, if_false, hreq,
    Bool.false_eq_true, not_false_eq_true, hex, true_and, and_self, if_true]
  exact fun bd => trivial

/-- Witness for C4: re-adding the variable `(ns=1, s="the.answer")` under
ObjectsFolder after a successful first AddNode returns BadNodeIdExists and
leaves the Browse of ObjectsFolder unchanged. -/
theorem addNode_duplicate_nodeId_witness :
    (addNode
      (addNode initialServer objectsFolderId organizesId
        ⟨1, .str "the.answer"⟩ ⟨1, "the answer"⟩ .var NodeId.null
        "the answer" "the answer" false (some 42) false).server
      objectsFolderId organizesId ⟨1, .str "the.answer"⟩ ⟨1, "the answer"⟩
      .var NodeId.null "the answer" "the answer" false (some 42)
      false).status = .badNodeIdExists ∧
    browse (addNode
      (addNode initialServer objectsFolderId organizesId
        ⟨1, .str "the.answer"⟩ ⟨1, "the answer"⟩ .var NodeId.null
        "the answer" "the answer" false (some 42) false).server
      objectsFolderId organizesId ⟨1, .str "the.answer"⟩ ⟨1, "the answer"⟩
      .var NodeId.null "the answer" "the answer" false (some 42)
      false).server
      ⟨objectsFolderId, organizesId, false, .forward, []⟩ =
    browse (addNode initialServer objectsFolderId organizesId
        ⟨1, .str "the.answer"⟩ ⟨1, "the answer"⟩ .var NodeId.null
        "the answer" "the answer" false (some 42) false).server
      ⟨objectsFolderId, organizesId, false, .forward, []⟩ := by
  have h := addNode_duplicate_nodeId
    (addNode initialServer objectsFolderId organizesId
      ⟨1, .str "the.answer"⟩ ⟨1, "the answer"⟩ .var NodeId.null
      "the answer" "the answer" false (some 42) false).server
    objectsFolderId organizesId ⟨1, .str "the.answer"⟩ ⟨1, "the answer"⟩
    .var NodeId.null "the answer" "the answer" false (some 42) false
    (bootNode organizesId .refType "Organizes" false
      [invRef hasSubtypeId hierarchicalReferencesId])
    (by decide) (by decide) (by decide) (by decide) (by decide)
  exact ⟨h.1, h.2.2 ⟨objectsFolderId, organizesId, false, .forward, []⟩⟩

/-! ## Theorems: AddReference -/

theorem count_append (l1 l2 : List UAReference) (r : UAReference) :
    (l1 ++ l2).count r = l1.count r + l2.count r :=
  List.count_append r l1 l2

theorem fwd_ne_inv (rt : NodeId) (fwd : Bool) (src tgt : NodeId) :
    UAReference.mk rt fwd tgt ≠ UAReference.mk rt (!fwd) src := by
  intro h
  injection h with h1 h2 h3
  cases fwd <;> simp at h2

theorem getNode_installPair (nodes : List Node) (src rt0 : NodeId)
    (fwd : Bool) (tgt x : NodeId) :
    getNode (installPair nodes src rt0 fwd tgt) x =
      if x = tgt then
        (if x = src then (getNode nodes x).map (addRef ⟨rt0, fwd, tgt⟩)
         else getNode nodes x).map (addRef ⟨rt0, !fwd, src⟩)
      else if x = src then (getNode nodes x).map (addRef ⟨rt0, fwd, tgt⟩)
      else getNode nodes x := by
  unfold installPair
  rw [getNode_updNode _ tgt (addRef ⟨rt0, !fwd, src⟩) (fun n => rfl) x,
    getNode_updNode _ src (addRef ⟨rt0, fwd, tgt⟩) (fun n => rfl) x]

theorem count_one_of_append (l : List UAReference) (a b c : UAReference)
    (hl : l.count a = 0) (hab : a = b) (hac : ¬a = c) :
    ((l ++ [b]) ++ [c]).count a = 1 := by
  subst hab
  rw [List.count_append, List.count_append, hl]
  have hc : ([c] : List UAReference).count a = 0 := by
    rw [List.count_eq_zero]
    intro h
    exact hac (List.mem_singleton.mp h)
  rw [hc]
  simp

theorem count_one_of_append' (l : List UAReference) (a b c : UAReference)
    (hl : l.count a = 0) (hab : ¬a = b) (hac : a = c) :
    ((l ++ [b]) ++ [c]).count a = 1 := by
  subst hac
  rw [List.count_append, List.count_append, hl]
  have hb : ([b] : List UAReference).count a = 0 := by
    rw [List.count_eq_zero]
    intro h
    exact hab (List.mem_singleton.mp h)
  rw [hb]
  simp

/-- C8: with source, reference-type and target nodes all present and the
pair not yet installed, AddReference succeeds, a second AddReference of
the same tuple returns BadDuplicateReferenceNotAllowed and leaves the
store unchanged, and the store then holds exactly one forward half at the
source and exactly one inverse half at the target. -/
theorem addReference_idempotence (s : Server) (src rt tgt : NodeId)
    (fwd : Bool) (sn rn tn : Node)
    (hinv : RefPairInv s.nodes)
    (hs : getNode s.nodes src = some sn)
    (hr : getNode s.nodes rt = some rn)
    (ht : getNode s.nodes tgt = some tn)
    (hnot : (UAReference.mk rt fwd tgt) ∉ sn.references) :
    (addReference s src rt tgt fwd).status = .good ∧
    (addReference (addReference s src rt tgt fwd).server src rt tgt
      fwd).status = .badDuplicateReferenceNotAllowed ∧
    (addReference (addReference s src rt tgt fwd).server src rt tgt
      fwd).server = (addReference s src rt tgt fwd).server ∧
    ((getNode (addReference s src rt tgt fwd).server.nodes src).map
      (fun n => n.references.count ⟨rt, fwd, tgt⟩)) = some 1 ∧
    ((getNode (addReference s src rt tgt fwd).server.nodes tgt).map
      (fun n => n.references.count ⟨rt, !fwd, src⟩)) = some 1 := by
  have hIcount : tn.references.count ⟨rt, !fwd, src⟩ = 0 := by
    rw [List.count_eq_zero]
    intro hI
    have := hinv tn (getNode_mem ht) ⟨rt, !fwd, src⟩ hI sn (getNode_mem hs)
      (by rw [getNode_id hs])
    rw [getNode_id ht] at this
    simp only [flipRef, Bool.not_not] at this
    exact hnot this
  have hFcount : sn.references.count ⟨rt, fwd, tgt⟩ = 0 :=
    List.count_eq_zero.mpr hnot
  have h1 : addReference s src rt tgt fwd =
      ⟨{ s with nodes := installPair s.nodes src rt fwd tgt },
        .good, []⟩ := by
    unfold addReference
    rw [hs, hr, ht]
    simp [hnot]
  rw [h1]
  have hrt2 : ∃ rn', getNode (installPair s.nodes src rt fwd tgt) rt =
      some rn' := by
    rw [getNode_installPair]
    by_cases hx1 : rt = tgt
    · rw [if_pos hx1]
      by_cases hx2 : rt = src
      · rw [if_pos hx2, hr]
        exact ⟨_, rfl⟩
      · rw [if_neg hx2, hr]
        exact ⟨_, rfl⟩
    · rw [if_neg hx1]
      by_cases hx2 : rt = src
      · rw [if_pos hx2, hr]
        exact ⟨_, rfl⟩
      · rw [if_neg hx2, hr]
        exact ⟨_, rfl⟩
  obtain ⟨rn', hrt2⟩ := hrt2
  by_cases hst : src = tgt
  · subst hst
    have htn : tn = sn := by
      rw [hs] at ht
      exact (Option.some.inj ht).symm
    rw [htn] at hIcount
    have hgetS : getNode (installPair s.nodes src rt fwd src) src =
        some (addRef ⟨rt, !fwd, src⟩ (addRef ⟨rt, fwd, src⟩ sn)) := by
      rw [getNode_installPair, if_pos rfl, if_pos rfl, hs]
      rfl
    have hmem2 : (UAReference.mk rt fwd src) ∈
        (addRef ⟨rt, !fwd, src⟩ (addRef ⟨rt, fwd, src⟩ sn)).references := by
      simp [addRef]
    have h2 : addReference { s with
        nodes := installPair s.nodes src rt fwd src } src rt src fwd =
        ⟨{ s with nodes := installPair s.nodes src rt fwd src },
          .badDuplicateReferenceNotAllowed, []⟩ := by
      unfold addReference
      rw [show ({ s with nodes := installPair s.nodes src rt fwd src }
          : Server).nodes = installPair s.nodes src rt fwd src from rfl,
        hgetS, hrt2]
      simp [hmem2]
    rw [h2]
    refine ⟨rfl, rfl, rfl, ?_, ?_⟩
    · rw [show ({ s with nodes := installPair s.nodes src rt fwd src }
          : Server).nodes = installPair s.nodes src rt fwd src from rfl,
        hgetS]
      exact congrArg some (count_one_of_append sn.references _ _ _ hFcount
        rfl (fwd_ne_inv rt fwd src src))
    · rw [show ({ s with nodes := installPair s.nodes src rt fwd src }
          : Server).nodes = installPair s.nodes src rt fwd src from rfl,
        hgetS]
      exact congrArg some (count_one_of_append' sn.references _ _ _ hIcount
        (fun h => fwd_ne_inv rt fwd src src h.symm) rfl)
  · have hgetS : getNode (installPair s.nodes src rt fwd tgt) src =
        some (addRef ⟨rt, fwd, tgt⟩ sn) := by
      rw [getNode_installPair, if_neg (fun hh => hst hh),
        if_pos rfl, hs]
      rfl
    have hgetT : getNode (installPair s.nodes src rt fwd tgt) tgt =
        some (addRef ⟨rt, !fwd, src⟩ tn) := by
      rw [getNode_installPair, if_pos rfl,
        if_neg (fun hh => hst hh.symm), ht]
      rfl
    have hmem2 : (UAReference.mk rt fwd tgt) ∈
        (addRef ⟨rt, fwd, tgt⟩ sn).references := by
      simp [addRef]
    have h2 : addReference { s with
        nodes := installPair s.nodes src rt fwd tgt } src rt tgt fwd =
        ⟨{ s with nodes := installPair s.nodes src rt fwd tgt },
          .badDuplicateReferenceNotAllowed, []⟩ := by
      unfold addReference
      rw [show ({ s with nodes := installPair s.nodes src rt fwd tgt }
          : Server).nodes = installPair s.nodes src rt fwd tgt from rfl,
        hgetS, hrt2, hgetT]
      simp [hmem2]
    rw [h2]
    refine ⟨rfl, rfl, rfl, ?_, ?_⟩
    · rw [show ({ s with nodes := installPair s.nodes src rt fwd tgt }
          : Server).nodes = installPair s.nodes src rt fwd tgt from rfl,
        hgetS]
      refine congrArg some ?_
      show (sn.references ++ [(⟨rt, fwd, tgt⟩ : UAReference)]).count
        (⟨rt, fwd, tgt⟩ : UAReference) = 1
      rw [List.count_append, hFcount]
      simp
    · rw [show ({ s with nodes := installPair s.nodes src rt fwd tgt }
          : Server).nodes = installPair s.nodes src rt fwd tgt from rfl,
        hgetT]
      refine congrArg some ?_
      show (tn.references ++ [(⟨rt, !fwd, src⟩ : UAReference)]).count
        (⟨rt, !fwd, src⟩ : UAReference) = 1
      rw [List.count_append, hIcount]
      simp

/-- Witness for C8: installing Objects -(Organizes)-> Types in the
bootstrap server succeeds once and is rejected as a duplicate the second
time. -/
theorem addReference_idempotence_witness :
    (addReference initialServer objectsFolderId organizesId typesFolderId
      true).status = .good ∧
    (addReference (addReference initialServer objectsFolderId organizesId
        typesFolderId true).server objectsFolderId organizesId typesFolderId
      true).status = .badDuplicateReferenceNotAllowed :=
  have h := addReference_idempotence initialServer objectsFolderId
    organizesId typesFolderId true
    (bootNode objectsFolderId .object "Objects" false
      [invRef organizesId rootFolderId])
    (bootNode organizesId .refType "Organizes" false
      [invRef hasSubtypeId hierarchicalReferencesId])
    (bootNode typesFolderId .object "Types" false
      [invRef organizesId rootFolderId])
    (by decide) (by decide) (by decide) (by decide) (by decide)
  ⟨h.1, h.2.1⟩

/-! ## Theorems: DeleteNode -/

theorem browse_mem_target (s : Server) (bd : BrowseDescription)
    (rd : ReferenceDescription)
    (h : rd ∈ (browse s bd).references) :
    ∃ nn ∈ s.nodes, ∃ r ∈ nn.references, rd.nodeId = r.targetId := by
  unfold browse at h
  rcases hg : getNode s.nodes bd.nodeId with - | nn
  · rw [hg] at h
    simp at h
  rw [hg] at h
  simp only [List.mem_filterMap] at h
  obtain ⟨r, hr, hf⟩ := h
  refine ⟨nn, getNode_mem hg, r, hr, ?_⟩
  by_cases hc : dirMatches bd.browseDirection r.isForward = true ∧
      refTypeMatches s.nodes bd r.referenceTypeId = true
  · rw [if_pos (by simp [hc.1, hc.2])] at hf
    rcases ht : getNode s.nodes r.targetId with - | t
    · rw [ht] at hf
      simp at hf
    · rw [ht] at hf
      have hf' : (if classMatches bd.nodeClassMask t.nodeClass = true then
          some (ReferenceDescription.mk r.referenceTypeId r.isForward
            r.targetId t.browseName t.displayName t.nodeClass (typeDefOf t))
          else none) = some rd := hf
      by_cases hm : classMatches bd.nodeClassMask t.nodeClass = true
      · rw [if_pos hm] at hf'
        rw [← Option.some.inj hf']
      · rw [if_neg hm] at hf'
        simp at hf'
  · rw [if_neg (by
      intro hb
      rcases Bool.and_eq_true _ _ |>.mp hb with ⟨h1, h2⟩
      exact hc ⟨h1, h2⟩)] at hf
    simp at hf

/-- C5: after a successful DeleteNode(id, deleteTargetReferences = true)
on a typed instance, no reference remaining in the store mentions id as
source or target, the destructor registered for the most-derived type of
the instance's type definition fires exactly once, and a Browse of any
node (in particular the former parent) no longer lists id. -/
theorem deleteNode_purges (s : Server) (id : NodeId) (n : Node)
    (τ T' : NodeId)
    (hinv : RefPairInv s.nodes)
    (hn : getNode s.nodes id = some n)
    (htd : typeDefOf n = some τ)
    (hdt : pickDtorType s τ = some T') :
    (deleteNode s id true).status = .good ∧
    (∀ m ∈ (deleteNode s id true).server.nodes,
      ¬m.nodeId = id ∧ ∀ r ∈ m.references, ¬r.targetId = id) ∧
    (deleteNode s id true).events = [.dtorCall T' id] ∧
    ∀ bd, ∀ rd ∈ (browse (deleteNode s id true).server bd).references,
      ¬rd.nodeId = id := by
  have hremoved : n.references.filter (fun r => r.isForward || true) =
      n.references := by
    simp
  have hsrv : (deleteNode s id true).server.nodes =
      (s.nodes.filter (fun m => ¬m.nodeId = id)).map
        (purgeRefs id (n.references.filter (fun r =>
          r.isForward || true))) := by
    unfold deleteNode
    rw [hn]
  have hmention : ∀ m ∈ (deleteNode s id true).server.nodes,
      ¬m.nodeId = id ∧ ∀ r ∈ m.references, ¬r.targetId = id := by
    rw [hsrv]
    intro m hm
    simp only [List.mem_map] at hm
    obtain ⟨m0, hm0, hme⟩ := hm
    rw [List.mem_filter] at hm0
    obtain ⟨hm0mem, hm0id⟩ := hm0
    have hm0id' : ¬m0.nodeId = id := by simpa using hm0id
    constructor
    · rw [← hme]
      exact hm0id'
    · intro r hr
      rw [← hme] at hr
      unfold purgeRefs at hr
      simp only [hremoved, List.mem_filter, decide_not] at hr
      obtain ⟨hrmem, hrcond⟩ := hr
      intro htgt
      have hflip : flipRef m0.nodeId r ∈ n.references :=
        hinv m0 hm0mem r hrmem n (getNode_mem hn)
          (by rw [getNode_id hn, htgt])
      simp [htgt, hflip] at hrcond
  have hstat : (deleteNode s id true).status = .good := by
    unfold deleteNode
    rw [hn]
  refine ⟨hstat, hmention, ?_, ?_⟩
  · have hev : (deleteNode s id true).events = dtorEventsFor s n := by
      unfold deleteNode
      rw [hn]
    rw [hev]
    unfold dtorEventsFor
    rw [htd]
    show (match pickDtorType s τ with
      | some t => [Event.dtorCall t n.nodeId]
      | none => []) = [Event.dtorCall T' id]
    rw [hdt]
    show [Event.dtorCall T' n.nodeId] = [Event.dtorCall T' id]
    rw [getNode_id hn]
  · intro bd rd hrd
    obtain ⟨nn, hnn, r, hr, hrd'⟩ :=
      browse_mem_target (deleteNode s id true).server bd rd hrd
    rw [hrd']
    exact (hmention nn hnn).2 r hr

/-- The destructor scenario of the test suite: an object type under
BaseObjectType with a registered destructor, and an object instance of
that type under ObjectsFolder. -/
def dtorScenarioServer : Server :=
  set_lifecycle
    (addNode initialServer baseObjectTypeId hasSubtypeId (nsZero 13371337)
      ⟨0, "myobjecttype"⟩ .objectType NodeId.null "my objecttype"
      "my objecttype" false none false).server
    (nsZero 13371337) false true

/-- The destructor scenario server with the object instance added. -/
def dtorScenarioServer2 : Server :=
  (addNode dtorScenarioServer objectsFolderId hasComponentId
    (nsZero 23372337) ⟨0, ""⟩ .object (nsZero 13371337) "my object"
    "my object" false none false).server

/-- Witness for C5: deleting the typed object invokes its type's
destructor exactly once and returns Good. -/
theorem deleteNode_purges_witness :
    (deleteNode dtorScenarioServer2 (nsZero 23372337) true).status =
      .good ∧
    (deleteNode dtorScenarioServer2 (nsZero 23372337) true).events =
      [.dtorCall (nsZero 13371337) (nsZero 23372337)] :=
  have h := deleteNode_purges dtorScenarioServer2 (nsZero 23372337)
    { nodeId := nsZero 23372337
      nodeClass := .object
      browseName := ⟨0, ""⟩
      displayName := "my object"
      description := "my object"
      isAbstract := false
      value := none
      references := [⟨hasComponentId, false, objectsFolderId⟩,
        ⟨hasTypeDefinitionId, true, nsZero 13371337⟩] }
    (nsZero 13371337) (nsZero 13371337)
    (by decide) (by decide) (by decide) (by decide)
  ⟨h.1, h.2.2.1⟩

/-! ## Freshness and store-skipping lemmas -/

theorem freshId_inj {a b : Nat} (h : freshId a = freshId b) : a = b := by
  unfold freshId at h
  injection h with h1 h2
  injection h2

theorem freshId_not_mem_of_counterFresh {s : Server} {k : Nat}
    (hcf : CounterFresh s) (hk : s.counter ≤ k) :
    getNode s.nodes (freshId k) = none := by
  rw [getNode_eq_none_iff]
  intro n hn he
  have := hcf n hn
  rw [he] at this
  unfold freshId idFreshB at this
  simp only [decide_eq_true_eq] at this
  omega

theorem bumpFor_le (ctr : Nat) (id : NodeId) : ctr ≤ bumpFor ctr id := by
  unfold bumpFor
  rcases id with ⟨ns, v⟩
  rcases v with k | st | g | b <;> rcases ns with - | - | ns <;>
    simp [Nat.le_max_left]

theorem newId_ne_freshId (ctr : Nat) (id : NodeId) (k : Nat)
    (hk : bumpFor ctr id ≤ k) : ¬id = freshId k := by
  intro he
  subst he
  unfold bumpFor freshId at hk
  simp at hk

/-- If no node of `l1` carries the identifier, lookup skips to `l2`. -/
theorem getNode_append_right (l1 l2 : List Node) (id : NodeId)
    (h : ∀ n ∈ l1, ¬n.nodeId = id) :
    getNode (l1 ++ l2) id = getNode l2 id := by
  rw [getNode_append]
  rw [(getNode_eq_none_iff l1 id).mpr h]
  rfl

/-! ## mandatoryChildren membership -/

theorem mem_addTemplate_foldl (l : List ChildTemplate)
    (acc : List ChildTemplate) (x : ChildTemplate)
    (h : x ∈ l.foldl addTemplate acc) : x ∈ acc ∨ x ∈ l := by
  induction l generalizing acc with
  | nil => exact Or.inl h
  | cons c rest ih =>
    rcases ih (addTemplate acc c) h with h' | h'
    · unfold addTemplate at h'
      split at h'
      · exact Or.inl h'
      · rcases List.mem_append.mp h' with h'' | h''
        · exact Or.inl h''
        · exact Or.inr (List.mem_cons.mpr (Or.inl
            (List.mem_singleton.mp h'')))
    · exact Or.inr (List.mem_cons.mpr (Or.inr h'))

theorem mem_directChildren {nodes : List Node} {t : NodeId}
    {c : ChildTemplate} (h : c ∈ directChildren nodes t) :
    c.node ∈ nodes ∧ isAggregationRef c.refTypeId = true := by
  unfold directChildren at h
  rcases hg : getNode nodes t with - | n
  · rw [hg] at h
    simp at h
  rw [hg] at h
  rw [List.mem_filterMap] at h
  obtain ⟨r, hr, hc⟩ := h
  by_cases hcond : (r.isForward && isAggregationRef r.referenceTypeId) = true
  · rw [if_pos hcond] at hc
    rcases hgt : getNode nodes r.targetId with - | cn
    · rw [hgt] at hc
      simp at hc
    · rw [hgt] at hc
      have hce := Option.some.inj hc
      constructor
      · rw [← hce]
        exact getNode_mem hgt
      · rw [← hce]
        exact (Bool.and_eq_true _ _ |>.mp hcond).2
  · rw [if_neg hcond] at hc
    simp at hc

theorem mem_mandatoryChildren_aux (tys : List NodeId)
    (nodes : List Node) (acc : List ChildTemplate) (c : ChildTemplate)
    (h : c ∈ tys.foldl (fun acc ty =>
      ((directChildren nodes ty).filter (fun c =>
        modellingRuleOf c.node = some mandatoryRuleId)).foldl addTemplate
        acc) acc) :
    c ∈ acc ∨ ∃ ty ∈ tys, c ∈ directChildren nodes ty ∧
      modellingRuleOf c.node = some mandatoryRuleId := by
  induction tys generalizing acc with
  | nil => exact Or.inl h
  | cons ty rest ih =>
    rcases ih _ h with h' | h'
    · rcases mem_addTemplate_foldl _ _ _ h' with h'' | h''
      · exact Or.inl h''
      · rw [List.mem_filter] at h''
        refine Or.inr ⟨ty, List.mem_cons_self _ _, h''.1, ?_⟩
        simpa using h''.2
    · obtain ⟨ty', hty', hmem, hrule⟩ := h'
      exact Or.inr ⟨ty', List.mem_cons_of_mem _ hty', hmem, hrule⟩

theorem mem_mandatoryChildren {nodes : List Node} {t : NodeId}
    {c : ChildTemplate} (h : c ∈ mandatoryChildren nodes t) :
    c.node ∈ nodes ∧ isAggregationRef c.refTypeId = true ∧
    modellingRuleOf c.node = some mandatoryRuleId := by
  unfold mandatoryChildren at h
  rcases mem_mandatoryChildren_aux _ _ _ _ h with h' | h'
  · simp at h'
  · obtain ⟨ty, -, hmem, hrule⟩ := h'
    obtain ⟨h1, h2⟩ := mem_directChildren hmem
    exact ⟨h1, h2, hrule⟩

/-- The premise carried through the template walk: every template node is
in the snapshot store and is linked by an aggregation reference type. -/
def TemplatesOK (s : Server) (cs : List ChildTemplate) : Prop :=
  ∀ c ∈ cs, c.node ∈ s.nodes ∧ isAggregationRef c.refTypeId = true

theorem templatesOK_mandatory (s : Server) (t : NodeId) :
    TemplatesOK s (mandatoryChildren s.nodes t) := by
  intro c hc
  obtain ⟨h1, h2, -⟩ := mem_mandatoryChildren hc
  exact ⟨h1, h2⟩

/-! ## Instantiator plan soundness -/

/-- Project instantiation-callback events. -/
def cbProj : Event → Option (NodeId × NodeId)
  | .instCallback a b => some (a, b)
  | _ => none

/-- What one template-walk plan guarantees: counter monotonicity, fresh
and pairwise-distinct created identifiers, forward aggregation child
references paired with created nodes, every reference of a created node
accounted for (a type-definition half completed at commit, the inverse
half of an instance child reference, or an internally paired reference),
constructor events only for created nodes, and one callback event per
created node in creation order. -/
structure PlanOK (s : Server) (wcb : Bool) (instId : NodeId) (ctr : Nat)
    (ctr' : Nat) (created : List (Node × NodeId))
    (childRefs : List UAReference) (evs : List Event) : Prop where
  le : ctr ≤ ctr'
  fresh : ∀ p ∈ created, ∃ k, ctr ≤ k ∧ k < ctr' ∧ p.1.nodeId = freshId k
  nodup : (created.map (fun p => p.1.nodeId)).Nodup
  refsFwd : ∀ r ∈ childRefs, r.isForward = true
  refsAgg : ∀ r ∈ childRefs, isAggregationRef r.referenceTypeId = true
  pairing : ∀ r ∈ childRefs, ∃ q ∈ created, q.1.nodeId = r.targetId ∧
    (UAReference.mk r.referenceTypeId false instId) ∈ q.1.references
  nodeRefs : ∀ p ∈ created, ∀ r ∈ p.1.references,
    (r.isForward = true ∧ r.referenceTypeId = hasTypeDefinitionId ∧
      ∃ t ∈ s.nodes, t.nodeId = r.targetId) ∨
    (r.isForward = false ∧ r.targetId = instId ∧
      (UAReference.mk r.referenceTypeId true p.1.nodeId) ∈ childRefs) ∨
    (∃ q ∈ created, q.1.nodeId = r.targetId ∧
      flipRef p.1.nodeId r ∈ q.1.references)
  tdResolve : ∀ p ∈ created, ∀ r ∈ p.1.references, r.isForward = true →
    r.referenceTypeId = hasTypeDefinitionId →
    ∃ t ∈ s.nodes, t.nodeId = r.targetId
  ctorEvs : ∀ tt i, Event.ctorCall tt i ∈ evs →
    ∃ p ∈ created, p.1.nodeId = i
  cbEvs : evs.filterMap cbProj =
    if wcb then created.map (fun p => (p.1.nodeId, p.2)) else []

/-- A subtree planner is sound when every call on templates of the
snapshot yields a `PlanOK` plan. -/
def PlanSound (s : Server) (wcb : Bool)
    (plan : Nat → NodeId → List ChildTemplate → PlanResult) : Prop :=
  ∀ ctr instId cs, TemplatesOK s cs →
    ∀ ctr' created childRefs evs,
      plan ctr instId cs = (ctr', created, childRefs, evs) →
      PlanOK s wcb instId ctr ctr' created childRefs evs

theorem planStop_sound (s : Server) (wcb : Bool) :
    PlanSound s wcb planStop := by
  intro ctr instId cs hcs ctr' created childRefs evs h
  unfold planStop at h
  injection h with h1 h2
  injection h2 with h2 h3
  injection h3 with h3 h4
  subst h1
  subst h2
  subst h3
  subst h4
  constructor <;> simp

theorem typeDefOf_mem {n : Node} {τ : NodeId} (h : typeDefOf n = some τ) :
    ∃ rr ∈ n.references, rr.targetId = τ ∧ rr.isForward = true ∧
      rr.referenceTypeId = hasTypeDefinitionId := by
  unfold typeDefOf at h
  rcases hf : n.references.find? (fun r =>
    r.isForward && r.referenceTypeId = hasTypeDefinitionId) with - | rr
  · rw [hf] at h
    simp at h
  · rw [hf] at h
    have hτ : rr.targetId = τ :=
      Option.some.inj (show some rr.targetId = some τ from h)
    have hmem := List.mem_of_find?_eq_some hf
    have hsat := List.find?_some hf
    simp only [Bool.and_eq_true, decide_eq_true_eq] at hsat
    exact ⟨rr, hmem, hτ, hsat.1, hsat.2⟩

theorem fresh_mem_range {l : List (Node × NodeId)} {a b : Nat}
    (h : ∀ p ∈ l, ∃ k, a ≤ k ∧ k < b ∧ p.1.nodeId = freshId k)
    {x : NodeId} (hx : x ∈ l.map (fun p => p.1.nodeId)) :
    ∃ k, a ≤ k ∧ k < b ∧ x = freshId k := by
  rw [List.mem_map] at hx
  obtain ⟨p, hp, he⟩ := hx
  obtain ⟨k, hk1, hk2, hk3⟩ := h p hp
  exact ⟨k, hk1, hk2, he ▸ hk3⟩

theorem nodup_fresh_append {l1 l2 : List (Node × NodeId)} {a b c : Nat}
    (h1 : ∀ p ∈ l1, ∃ k, a ≤ k ∧ k < b ∧ p.1.nodeId = freshId k)
    (h2 : ∀ p ∈ l2, ∃ k, b ≤ k ∧ k < c ∧ p.1.nodeId = freshId k)
    (n1 : (l1.map (fun p => p.1.nodeId)).Nodup)
    (n2 : (l2.map (fun p => p.1.nodeId)).Nodup) :
    ((l1 ++ l2).map (fun p => p.1.nodeId)).Nodup := by
  rw [List.map_append]
  refine List.Nodup.append n1 n2 ?_
  intro x hx1 hx2
  obtain ⟨k, hk1, hk2, hk3⟩ := fresh_mem_range h1 hx1
  obtain ⟨k', hk1', hk2', hk3'⟩ := fresh_mem_range h2 hx2
  have : k = k' := freshId_inj (hk3 ▸ hk3' ▸ rfl)
  omega

theorem nodup_fresh_cons {p0 : Node × NodeId} {l2 : List (Node × NodeId)}
    {a b c : Nat}
    (h0 : ∃ k, a ≤ k ∧ k < b ∧ p0.1.nodeId = freshId k)
    (h2 : ∀ p ∈ l2, ∃ k, b ≤ k ∧ k < c ∧ p.1.nodeId = freshId k)
    (n2 : (l2.map (fun p => p.1.nodeId)).Nodup) :
    ((p0 :: l2).map (fun p => p.1.nodeId)).Nodup := by
  rw [List.map_cons, List.nodup_cons]
  refine ⟨?_, n2⟩
  intro hx
  obtain ⟨k, hk1, hk2, hk3⟩ := h0
  obtain ⟨k', hk1', hk2', hk3'⟩ := fresh_mem_range h2 hx
  have : k = k' := freshId_inj (hk3 ▸ hk3' ▸ rfl)
  omega

theorem planLevel_sound (s : Server) (wcb : Bool)
    (sub : Nat → NodeId → List ChildTemplate → PlanResult)
    (hres : RefResolve s.nodes)
    (hsub : PlanSound s wcb sub) :
    PlanSound s wcb (planLevel s wcb sub) := by
  intro ctr instId cs
  induction cs generalizing ctr with
  | nil =>
    intro hcs ctr' created childRefs evs h
    unfold planLevel at h
    injection h with h1 h2
    injection h2 with h2 h3
    injection h3 with h3 h4
    subst h1
    subst h2
    subst h3
    subst h4
    constructor <;> simp
  | cons c rest ih =>
    intro hcs ctr' created childRefs evs h
    obtain ⟨hcnode, hcagg⟩ := hcs c (List.mem_cons_self _ _)
    have hcs' : TemplatesOK s rest := fun x hx =>
      hcs x (List.mem_cons_of_mem _ hx)
    rcases htd : typeDefOf c.node with - | τ
    · rcases hrest : planLevel s wcb sub (ctr + 1) instId rest with
        ⟨ctr2, restCreated, restRefs, restEvs⟩
      have hOKrest := ih (ctr + 1) hcs' ctr2 restCreated restRefs restEvs
        hrest
      simp only [planLevel, htd, hrest] at h
      simp only [Prod.mk.injEq] at h
      obtain ⟨h1, h2, h3, h4⟩ := h
      subst h1
      subst h2
      subst h3
      subst h4
      simp only [List.singleton_append, List.append_nil, List.nil_append]
      refine PlanOK.mk ?_ ?_ ?_ ?_ ?_ ?_ ?_ ?_ ?_ ?_
      · have := hOKrest.le
        omega
      · intro p hp
        rcases List.mem_cons.mp hp with hp | hp
        · subst hp
          exact ⟨ctr, le_refl _, by have := hOKrest.le; omega, rfl⟩
        · obtain ⟨k, hk1, hk2, hk3⟩ := hOKrest.fresh p hp
          exact ⟨k, by omega, hk2, hk3⟩
      · exact nodup_fresh_cons (a := ctr) (b := ctr + 1) (c := ctr2)
          ⟨ctr, le_refl _, by omega, rfl⟩ hOKrest.fresh hOKrest.nodup
      · intro r hr
        rcases List.mem_cons.mp hr with hr | hr
        · subst hr
          rfl
        · exact hOKrest.refsFwd r hr
      · intro r hr
        rcases List.mem_cons.mp hr with hr | hr
        · subst hr
          exact hcagg
        · exact hOKrest.refsAgg r hr
      · intro r hr
        rcases List.mem_cons.mp hr with hr | hr
        · subst hr
          refine ⟨_, List.mem_cons_self _ _, rfl, ?_⟩
          simp
        · obtain ⟨q, hq, hq1, hq2⟩ := hOKrest.pairing r hr
          exact ⟨q, List.mem_cons_of_mem _ hq, hq1, hq2⟩
      · intro p hp r hr
        rcases List.mem_cons.mp hp with hp | hp
        · subst hp
          simp only [List.mem_singleton] at hr
          subst hr
          exact Or.inr (Or.inl ⟨rfl, rfl, List.mem_cons_self _ _⟩)
        · rcases hOKrest.nodeRefs p hp r hr with h1 | h2 | h3
          · exact Or.inl h1
          · exact Or.inr (Or.inl ⟨h2.1, h2.2.1,
              List.mem_cons_of_mem _ h2.2.2⟩)
          · obtain ⟨q, hq, hq1, hq2⟩ := h3
            exact Or.inr (Or.inr ⟨q, List.mem_cons_of_mem _ hq, hq1, hq2⟩)
      · intro p hp r hr
        rcases List.mem_cons.mp hp with hp | hp
        · subst hp
          simp only [List.mem_singleton] at hr
          subst hr
          intro hf
          simp at hf
        · exact hOKrest.tdResolve p hp r hr
      · intro tt i hi
        simp only [ctorEventsFor, List.append_nil, List.mem_append] at hi
        rcases hi with hi | hi
        · rcases hw : wcb <;> rw [hw] at hi <;> simp at hi
        · obtain ⟨p, hp, he⟩ := hOKrest.ctorEvs tt i hi
          exact ⟨p, List.mem_cons_of_mem _ hp, he⟩
      · simp only [List.filterMap_append, hOKrest.cbEvs, ctorEventsFor]
        rcases hw : wcb <;> simp [hw, cbProj]
    · rcases hsubp : sub (ctr + 1) (freshId ctr)
        (mandatoryChildren s.nodes τ) with
        ⟨ctr1, subCreated, subRefs, subEvs⟩
      have hOKsub := hsub (ctr + 1) (freshId ctr)
        (mandatoryChildren s.nodes τ) (templatesOK_mandatory s τ)
        ctr1 subCreated subRefs subEvs hsubp
      rcases hrest : planLevel s wcb sub ctr1 instId rest with
        ⟨ctr2, restCreated, restRefs, restEvs⟩
      have hOKrest := ih ctr1 hcs' ctr2 restCreated restRefs restEvs hrest
      simp only [planLevel, htd, hsubp, hrest] at h
      simp only [Prod.mk.injEq] at h
      obtain ⟨h1, h2, h3, h4⟩ := h
      subst h1
      subst h2
      subst h3
      subst h4
      simp only [List.singleton_append, List.append_nil, List.nil_append]
      refine PlanOK.mk ?_ ?_ ?_ ?_ ?_ ?_ ?_ ?_ ?_ ?_
      · have hl1 := hOKsub.le
        have hl2 := hOKrest.le
        omega
      · intro p hp
        rcases List.mem_cons.mp hp with hp | hp
        · subst hp
          refine ⟨ctr, le_refl _, ?_, rfl⟩
          have hl1 := hOKsub.le
          have hl2 := hOKrest.le
          omega
        · rcases List.mem_append.mp hp with hp | hp
          · obtain ⟨k, hk1, hk2, hk3⟩ := hOKsub.fresh p hp
            have hl2 := hOKrest.le
            exact ⟨k, by omega, by omega, hk3⟩
          · obtain ⟨k, hk1, hk2, hk3⟩ := hOKrest.fresh p hp
            have hl1 := hOKsub.le
            exact ⟨k, by omega, by omega, hk3⟩
      · refine nodup_fresh_cons (a := ctr) (b := ctr + 1) (c := ctr2)
          ⟨ctr, le_refl _, ?_, rfl⟩ ?_ ?_
        · have hl1 := hOKsub.le
          have hl2 := hOKrest.le
          omega
        · intro p hp
          rcases List.mem_append.mp hp with hp | hp
          · obtain ⟨k, hk1, hk2, hk3⟩ := hOKsub.fresh p hp
            have hl2 := hOKrest.le
            exact ⟨k, hk1, by omega, hk3⟩
          · obtain ⟨k, hk1, hk2, hk3⟩ := hOKrest.fresh p hp
            have hl1 := hOKsub.le
            exact ⟨k, by omega, hk2, hk3⟩
        · exact nodup_fresh_append (a := ctr + 1) (b := ctr1) (c := ctr2)
            hOKsub.fresh hOKrest.fresh hOKsub.nodup hOKrest.nodup
      · intro r hr
        rcases List.mem_cons.mp hr with hr | hr
        · subst hr
          rfl
        · exact hOKrest.refsFwd r hr
      · intro r hr
        rcases List.mem_cons.mp hr with hr | hr
        · subst hr
          exact hcagg
        · exact hOKrest.refsAgg r hr
      · intro r hr
        rcases List.mem_cons.mp hr with hr | hr
        · subst hr
          refine ⟨_, List.mem_cons_self _ _, rfl, ?_⟩
          simp
        · obtain ⟨q, hq, hq1, hq2⟩ := hOKrest.pairing r hr
          exact ⟨q, List.mem_cons_of_mem _ (List.mem_append_right _ hq),
            hq1, hq2⟩
      · intro p hp r hr
        rcases List.mem_cons.mp hp with hp | hp
        · subst hp
          rcases List.mem_append.mp hr with hr | hr
          · rcases List.mem_cons.mp hr with hr | hr
            · subst hr
              exact Or.inr (Or.inl ⟨rfl, rfl, List.mem_cons_self _ _⟩)
            · rw [List.mem_singleton] at hr
              subst hr
              obtain ⟨rr, hrrm, hrrt, hrrf, hrrty⟩ := typeDefOf_mem htd
              obtain ⟨t, htm, hte⟩ := hres c.node hcnode rr hrrm
              exact Or.inl ⟨rfl, rfl, ⟨t, htm, by rw [hte, hrrt]⟩⟩
          · obtain ⟨q, hq, hq1, hq2⟩ := hOKsub.pairing r hr
            have hf := hOKsub.refsFwd r hr
            refine Or.inr (Or.inr ⟨q, List.mem_cons_of_mem _
              (List.mem_append_left _ hq), hq1, ?_⟩)
            show flipRef (freshId ctr) r ∈ q.1.references
            simp only [flipRef, hf, Bool.not_true]
            exact hq2
        · rcases List.mem_append.mp hp with hp | hp
          · rcases hOKsub.nodeRefs p hp r hr with h1 | h2 | h3
            · exact Or.inl h1
            · refine Or.inr (Or.inr ⟨_, List.mem_cons_self _ _,
                h2.2.1.symm, ?_⟩)
              refine List.mem_append_right _ ?_
              simp only [flipRef, h2.1, Bool.not_false]
              exact h2.2.2
            · obtain ⟨q, hq, hq1, hq2⟩ := h3
              exact Or.inr (Or.inr ⟨q, List.mem_cons_of_mem _
                (List.mem_append_left _ hq), hq1, hq2⟩)
          · rcases hOKrest.nodeRefs p hp r hr with h1 | h2 | h3
            · exact Or.inl h1
            · exact Or.inr (Or.inl ⟨h2.1, h2.2.1,
                List.mem_cons_of_mem _ h2.2.2⟩)
            · obtain ⟨q, hq, hq1, hq2⟩ := h3
              exact Or.inr (Or.inr ⟨q, List.mem_cons_of_mem _
                (List.mem_append_right _ hq), hq1, hq2⟩)
      · intro p hp r hr
        rcases List.mem_cons.mp hp with hp | hp
        · subst hp
          rcases List.mem_append.mp hr with hr | hr
          · rcases List.mem_cons.mp hr with hr | hr
            · subst hr
              intro hf
              simp at hf
            · rw [List.mem_singleton] at hr
              subst hr
              intro hf hrt
              obtain ⟨rr, hrrm, hrrt, hrrf, hrrty⟩ := typeDefOf_mem htd
              obtain ⟨t, htm, hte⟩ := hres c.node hcnode rr hrrm
              exact ⟨t, htm, by rw [hte, hrrt]⟩
          · intro hf hrt
            have hagg := hOKsub.refsAgg r hr
            rw [hrt] at hagg
            exact absurd hagg (by decide)
        · rcases List.mem_append.mp hp with hp | hp
          · exact hOKsub.tdResolve p hp r hr
          · exact hOKrest.tdResolve p hp r hr
      · intro tt i hi
        rcases List.mem_append.mp hi with hi | hi
        · rcases List.mem_append.mp hi with hi | hi
          · rcases List.mem_append.mp hi with hi | hi
            · rcases hw : wcb <;> rw [hw] at hi <;> simp at hi
            · unfold ctorEventsFor at hi
              have hi' : Event.ctorCall tt i ∈
                  (match pickCtorType s τ with
                   | some t => [Event.ctorCall t (freshId ctr)]
                   | none => []) := hi
              rcases hpc : pickCtorType s τ with - | t0
              · rw [hpc] at hi'
                simp at hi'
              · rw [hpc] at hi'
                rw [List.mem_singleton] at hi'
                injection hi' with hi1 hi2
                exact ⟨_, List.mem_cons_self _ _, hi2.symm⟩
          · obtain ⟨p, hp, he⟩ := hOKsub.ctorEvs tt i hi
            exact ⟨p, List.mem_cons_of_mem _ (List.mem_append_left _ hp),
              he⟩
        · obtain ⟨p, hp, he⟩ := hOKrest.ctorEvs tt i hi
          exact ⟨p, List.mem_cons_of_mem _
            (List.mem_append_right _ hp), he⟩
      · have hctor : (ctorEventsFor s (some τ)
            (freshId ctr)).filterMap cbProj = [] := by
          unfold ctorEventsFor
          rcases hpc : pickCtorType s τ with - | t0 <;> simp [hpc, cbProj]
        simp only [List.filterMap_append, hOKsub.cbEvs, hOKrest.cbEvs,
          hctor]
        rcases hw : wcb <;> simp [hw, cbProj]

theorem planChildren_sound (s : Server) (wcb : Bool)
    (hres : RefResolve s.nodes) :
    ∀ fuel, PlanSound s wcb (planChildren s wcb fuel) := by
  intro fuel
  induction fuel with
  | zero => exact planLevel_sound s wcb planStop hres (planStop_sound s wcb)
  | succ f ih => exact planLevel_sound s wcb (planChildren s wcb f) hres ih

/-! ## Commit-level store lemmas -/

theorem getNode_foldl_upd_none (ts : List NodeId) (e : UAReference → Node → Node)
    (hpres : ∀ r n, (e r n).nodeId = n.nodeId) :
    ∀ (nodes : List Node) (mk : NodeId → UAReference) (X : NodeId),
    getNode nodes X = none →
    getNode (ts.foldl (fun ns τ => updNode ns τ (e (mk τ))) nodes) X =
      none := by
  induction ts with
  | nil => intro nodes mk X h; exact h
  | cons τ rest ih =>
    intro nodes mk X h
    refine ih _ mk X ?_
    rw [getNode_updNode _ _ _ (hpres _) X]
    split <;> simp [h]

theorem getNode_foldl_addRef (ts : List NodeId) (e : UAReference) :
    ∀ (nodes : List Node) (X : NodeId) (n : Node),
    getNode nodes X = some n →
    ∃ n', getNode (ts.foldl (fun ns τ => updNode ns τ (addRef e)) nodes) X
        = some n' ∧
      ∃ tail, n' = { n with references := n.references ++ tail } ∧
        (∀ r ∈ tail, r = e) ∧ (X ∈ ts → e ∈ n'.references) ∧
        (¬X ∈ ts → tail = []) := by
  induction ts with
  | nil =>
    intro nodes X n h
    exact ⟨n, h, [], by simp, by simp, by simp, by simp⟩
  | cons τ rest ih =>
    intro nodes X n h
    by_cases hX : X = τ
    · subst hX
      have h1 : getNode (updNode nodes X (addRef e)) X =
          some (addRef e n) := by
        rw [getNode_updNode nodes X (addRef e) (fun n => rfl) X,
          if_pos rfl, h]
        rfl
      obtain ⟨n', hn', tail, ht1, ht2, ht3, ht4⟩ := ih _ X (addRef e n) h1
      refine ⟨n', hn', [e] ++ tail, ?_, ?_, ?_, ?_⟩
      · rw [ht1]
        unfold addRef
        simp
      · intro r hr
        rcases List.mem_append.mp hr with hr | hr
        · exact List.mem_singleton.mp hr
        · exact ht2 r hr
      · intro hmem
        rw [ht1]
        unfold addRef
        simp
      · intro hnot
        exact absurd (List.mem_cons_self _ _) hnot
    · have h1 : getNode (updNode nodes τ (addRef e)) X = some n := by
        rw [getNode_updNode nodes τ (addRef e) (fun n => rfl) X, if_neg hX]
        exact h
      obtain ⟨n', hn', tail, ht1, ht2, ht3, ht4⟩ := ih _ X n h1
      refine ⟨n', hn', tail, ht1, ht2, ?_, ?_⟩
      · intro hmem
        rcases List.mem_cons.mp hmem with hmem | hmem
        · exact absurd hmem hX
        · exact ht3 hmem
      · intro hnot
        refine ht4 ?_
        intro hmem
        exact hnot (List.mem_cons_of_mem _ hmem)

/-- The type-definition targets of a node's references. -/
def tdTargets (c : Node) : List NodeId :=
  c.references.filterMap (fun r =>
    if r.isForward && r.referenceTypeId = hasTypeDefinitionId then
      some r.targetId
    else none)

theorem mem_tdTargets {c : Node} {τ : NodeId} (h : τ ∈ tdTargets c) :
    (UAReference.mk hasTypeDefinitionId true τ) ∈ c.references := by
  unfold tdTargets at h
  rw [List.mem_filterMap] at h
  obtain ⟨r, hr, he⟩ := h
  by_cases hc : (r.isForward && r.referenceTypeId = hasTypeDefinitionId)
      = true
  · rw [if_pos hc] at he
    obtain ⟨h1, h2⟩ := Bool.and_eq_true _ _ |>.mp hc
    simp only [decide_eq_true_eq] at h2
    have h3 : r.targetId = τ := Option.some.inj he
    have hre : r = UAReference.mk hasTypeDefinitionId true τ := by
      rcases r with ⟨rt, fwd, tgt⟩
      simp only at h1 h2 h3
      rw [h1, h2, h3]
    rw [← hre]
    exact hr
  · rw [if_neg hc] at he
    simp at he

theorem tdTargets_mem {c : Node} {r : UAReference} (hr : r ∈ c.references)
    (h1 : r.isForward = true) (h2 : r.referenceTypeId = hasTypeDefinitionId) :
    r.targetId ∈ tdTargets c := by
  unfold tdTargets
  rw [List.mem_filterMap]
  exact ⟨r, hr, by rw [if_pos (by simp [h1, h2])]⟩

theorem installTypeDefInverses_eq_fold (created : List Node)
    (nodes : List Node) :
    installTypeDefInverses created nodes =
      created.foldl (fun ns c =>
        (tdTargets c).foldl (fun ns2 τ =>
          updNode ns2 τ (addRef ⟨hasTypeDefinitionId, false, c.nodeId⟩)) ns)
        nodes := rfl

theorem getNode_installTypeDefInverses_none (created : List Node) :
    ∀ (nodes : List Node) (X : NodeId), getNode nodes X = none →
    getNode (installTypeDefInverses created nodes) X = none := by
  induction created with
  | nil => intro nodes X h; exact h
  | cons c rest ih =>
    intro nodes X h
    rw [installTypeDefInverses_eq_fold] at *
    simp only [List.foldl_cons]
    refine ih _ X ?_
    exact getNode_foldl_upd_none (tdTargets c) addRef (fun r n => rfl)
      nodes (fun τ => ⟨hasTypeDefinitionId, false, c.nodeId⟩) X h

theorem getNode_installTypeDefInverses (created : List Node) :
    ∀ (nodes : List Node) (X : NodeId) (n : Node),
    getNode nodes X = some n →
    ∃ n', getNode (installTypeDefInverses created nodes) X = some n' ∧
      ∃ tail, n' = { n with references := n.references ++ tail } ∧
        (∀ r ∈ tail, ∃ c ∈ created,
          r = UAReference.mk hasTypeDefinitionId false c.nodeId ∧
          (UAReference.mk hasTypeDefinitionId true X) ∈ c.references) ∧
        (∀ c ∈ created, X ∈ tdTargets c →
          (UAReference.mk hasTypeDefinitionId false c.nodeId) ∈
            n'.references) := by
  induction created with
  | nil =>
    intro nodes X n h
    exact ⟨n, h, [], by simp, by simp, by simp⟩
  | cons c rest ih =>
    intro nodes X n h
    rw [installTypeDefInverses_eq_fold] at *
    simp only [List.foldl_cons]
    obtain ⟨n1, hn1, tail1, ht1, ht2, ht3, ht4⟩ :=
      getNode_foldl_addRef (tdTargets c)
        ⟨hasTypeDefinitionId, false, c.nodeId⟩ nodes X n h
    obtain ⟨n', hn', tail2, hs1, hs2, hs3⟩ := ih _ X n1 hn1
    refine ⟨n', hn', tail1 ++ tail2, ?_, ?_, ?_⟩
    · rw [hs1, ht1]
      simp [List.append_assoc]
    · intro r hr
      rcases List.mem_append.mp hr with hr | hr
      · have he := ht2 r hr
        subst he
        by_cases hXc : X ∈ tdTargets c
        · exact ⟨c, List.mem_cons_self _ _, rfl, mem_tdTargets hXc⟩
        · rw [ht4 hXc] at hr
          simp at hr
      · obtain ⟨c', hc', he', hm'⟩ := hs2 r hr
        exact ⟨c', List.mem_cons_of_mem _ hc', he', hm'⟩
    · intro c' hc' hX
      rcases List.mem_cons.mp hc' with hc' | hc'
      · subst hc'
        have hin : (UAReference.mk hasTypeDefinitionId false c'.nodeId) ∈
            n1.references := ht3 hX
        rw [hs1]
        exact List.mem_append_left _ hin
      · exact hs3 c' hc' hX

/-! ## Instantiator plan exactness -/

/-- The per-template exactness of the plan: the instance's child
reference is forward, carries the template's aggregation reference type,
and resolves within the created pool to a node carrying the template's
BrowseName and NodeClass. -/
def ChildMatches (created : List (Node × NodeId)) (c : ChildTemplate)
    (r : UAReference) : Prop :=
  r.isForward = true ∧ r.referenceTypeId = c.refTypeId ∧
  ∃ n, getNode (created.map (·.1)) r.targetId = some n ∧
    n.browseName = c.node.browseName ∧ n.nodeClass = c.node.nodeClass

theorem getNode_cons_ne (x : Node) (l : List Node) (id : NodeId)
    (h : ¬x.nodeId = id) : getNode (x :: l) id = getNode l id := by
  rw [getNode_cons, if_neg h]

theorem planLevel_exact (s : Server) (wcb : Bool)
    (sub : Nat → NodeId → List ChildTemplate → PlanResult)
    (hres : RefResolve s.nodes)
    (hsub : PlanSound s wcb sub) :
    ∀ ctr instId cs, TemplatesOK s cs →
    ∀ ctr' created childRefs evs,
    planLevel s wcb sub ctr instId cs = (ctr', created, childRefs, evs) →
    List.Forall₂ (ChildMatches created) cs childRefs := by
  intro ctr instId cs
  induction cs generalizing ctr with
  | nil =>
    intro hcs ctr' created childRefs evs h
    unfold planLevel at h
    injection h with h1 h2
    injection h2 with h2 h3
    injection h3 with h3 h4
    subst h2
    subst h3
    exact List.Forall₂.nil
  | cons c rest ih =>
    intro hcs ctr' created childRefs evs h
    have hcs' : TemplatesOK s rest := fun x hx =>
      hcs x (List.mem_cons_of_mem _ hx)
    rcases htd : typeDefOf c.node with - | τ
    · rcases hrest : planLevel s wcb sub (ctr + 1) instId rest with
        ⟨ctr2, restCreated, restRefs, restEvs⟩
      have hF := ih (ctr + 1) hcs' ctr2 restCreated restRefs restEvs hrest
      have hOKrest : PlanOK s wcb instId (ctr + 1) ctr2 restCreated
          restRefs restEvs :=
        planLevel_sound s wcb sub hres hsub (ctr + 1) instId rest hcs'
          ctr2 restCreated restRefs restEvs hrest
      simp only [planLevel, htd, hrest] at h
      simp only [Prod.mk.injEq] at h
      obtain ⟨h1, h2, h3, h4⟩ := h
      subst h1
      subst h2
      subst h3
      subst h4
      simp only [List.nil_append, List.append_nil, List.singleton_append]
      refine List.Forall₂.cons ⟨rfl, rfl, ?_⟩ ?_
      · rw [List.map_cons, getNode_cons, if_pos rfl]
        exact ⟨_, rfl, rfl, rfl⟩
      · refine List.Forall₂.imp ?_ hF
        intro a b hab
        obtain ⟨hb1, hb2, n, hn, hn1, hn2⟩ := hab
        refine ⟨hb1, hb2, n, ?_, hn1, hn2⟩
        have hmem := getNode_mem hn
        rw [List.mem_map] at hmem
        obtain ⟨p, hp, hpe⟩ := hmem
        obtain ⟨k, hk1, hk2, hk3⟩ := hOKrest.fresh p hp
        have htgt : b.targetId = freshId k := by
          rw [← getNode_id hn, ← hpe, hk3]
        rw [List.map_cons, getNode_cons_ne]
        · exact hn
        · intro he
          rw [htgt] at he
          have : ctr = k := freshId_inj he
          omega
    · rcases hsubp : sub (ctr + 1) (freshId ctr)
        (mandatoryChildren s.nodes τ) with
        ⟨ctr1, subCreated, subRefs, subEvs⟩
      have hOKsub := hsub (ctr + 1) (freshId ctr)
        (mandatoryChildren s.nodes τ) (templatesOK_mandatory s τ)
        ctr1 subCreated subRefs subEvs hsubp
      rcases hrest : planLevel s wcb sub ctr1 instId rest with
        ⟨ctr2, restCreated, restRefs, restEvs⟩
      have hF := ih ctr1 hcs' ctr2 restCreated restRefs restEvs hrest
      have hOKrest : PlanOK s wcb instId ctr1 ctr2 restCreated restRefs
          restEvs :=
        planLevel_sound s wcb sub hres hsub ctr1 instId rest hcs'
          ctr2 restCreated restRefs restEvs hrest
      simp only [planLevel, htd, hsubp, hrest] at h
      simp only [Prod.mk.injEq] at h
      obtain ⟨h1, h2, h3, h4⟩ := h
      subst h1
      subst h2
      subst h3
      subst h4
      simp only [List.cons_append, List.nil_append,
        List.singleton_append]
      refine List.Forall₂.cons ⟨rfl, rfl, ?_⟩ ?_
      · rw [List.map_cons, getNode_cons, if_pos rfl]
        exact ⟨_, rfl, rfl, rfl⟩
      · refine List.Forall₂.imp ?_ hF
        intro a b hab
        obtain ⟨hb1, hb2, n, hn, hn1, hn2⟩ := hab
        refine ⟨hb1, hb2, n, ?_, hn1, hn2⟩
        have hmem := getNode_mem hn
        rw [List.mem_map] at hmem
        obtain ⟨p, hp, hpe⟩ := hmem
        obtain ⟨k, hk1, hk2, hk3⟩ := hOKrest.fresh p hp
        have htgt : b.targetId = freshId k := by
          rw [← getNode_id hn, ← hpe, hk3]
        have hsuble := hOKsub.le
        rw [List.map_cons, List.map_append, getNode_cons_ne,
          getNode_append_right]
        · exact hn
        · intro nn hnn
          rw [List.mem_map] at hnn
          obtain ⟨q, hq, hqe⟩ := hnn
          obtain ⟨k2, hk12, hk22, hk32⟩ := hOKsub.fresh q hq
          intro he
          rw [← hqe, hk32, htgt] at he
          have : k2 = k := freshId_inj he
          omega
        · intro he
          rw [htgt] at he
          have : ctr = k := freshId_inj he
          omega

theorem planChildren_exact (s : Server) (wcb : Bool)
    (hres : RefResolve s.nodes) (fuel : Nat) :
    ∀ ctr instId cs, TemplatesOK s cs →
    ∀ ctr' created childRefs evs,
    planChildren s wcb fuel ctr instId cs =
      (ctr', created, childRefs, evs) →
    List.Forall₂ (ChildMatches created) cs childRefs := by
  cases fuel with
  | zero =>
    exact planLevel_exact s wcb planStop hres (planStop_sound s wcb)
  | succ f =>
    exact planLevel_exact s wcb (planChildren s wcb f) hres
      (planChildren_sound s wcb hres f)

/-! ## Instantiation: final-store characterization -/

/-- The template-side facts used when reading off child names: every
template is linked by an aggregation reference type. -/
def TemplatesOK' (cs : List ChildTemplate) : Prop :=
  ∀ c ∈ cs, True ∧ isAggregationRef c.refTypeId = true

/-- The aggregation children of a node in the store: the target nodes of
its forward HasComponent/HasProperty references. -/
def instanceChildren (nodes : List Node) (id : NodeId) : List Node :=
  match getNode nodes id with
  | none => []
  | some n =>
    n.references.filterMap (fun r =>
      if r.isForward && isAggregationRef r.referenceTypeId then
        getNode nodes r.targetId
      else none)

theorem childRefs_filterMap_names (nodes2 : List Node)
    (created : List (Node × NodeId)) :
    ∀ (cs : List ChildTemplate) (childRefs : List UAReference),
    List.Forall₂ (ChildMatches created) cs childRefs →
    TemplatesOK' cs →
    (∀ tgt n, getNode (created.map (·.1)) tgt = some n →
      ∃ n2, getNode nodes2 tgt = some n2 ∧ n2.browseName = n.browseName) →
    (childRefs.filterMap (fun r =>
      if r.isForward && isAggregationRef r.referenceTypeId then
        getNode nodes2 r.targetId
      else none)).map (·.browseName) = cs.map (·.node.browseName) := by
  intro cs childRefs hF
  induction hF with
  | nil =>
    intro hok hlift
    simp
  | cons hcm hF2 ih =>
    intro hok hlift
    rename_i c r cs' childRefs'
    obtain ⟨h1, h2, n, hn, hn1, hn2⟩ := hcm
    obtain ⟨n2, hn2g, hn2b⟩ := hlift r.targetId n hn
    have hagg : isAggregationRef r.referenceTypeId = true := by
      rw [h2]
      exact (hok c (List.mem_cons_self _ _)).2
    rw [List.filterMap_cons, if_pos (by rw [h1, hagg]; rfl)]
    rw [hn2g]
    simp only [List.map_cons]
    rw [ih (fun x hx => hok x (List.mem_cons_of_mem _ hx)) hlift,
      hn2b, hn1]

theorem typeDefOf_refs (n : Node) (refTypeId parentId τ : NodeId)
    (childRefs : List UAReference)
    (h : n.references = [UAReference.mk refTypeId false parentId,
      UAReference.mk hasTypeDefinitionId true τ] ++ childRefs) :
    typeDefOf n = some τ := by
  unfold typeDefOf
  rw [h, List.cons_append, List.cons_append, List.nil_append]
  rw [List.find?_cons_of_neg _ (by simp),
    List.find?_cons_of_pos _ (by simp)]
  rfl

/-- Store-level characterization of the committed instantiation: starting
from the parent update plus the freshly planned subtree, installing the
HasTypeDefinition inverses leaves the instance node untouched, keeps every
planned child reachable, and the instance's aggregation children read back
exactly the template browse names. -/
theorem installStore_spec (s : Server) (parentId refTypeId newId τ : NodeId)
    (created : List (Node × NodeId)) (childRefs : List UAReference)
    (cs : List ChildTemplate) (instNode : Node) (N : List Node)
    (hid : instNode.nodeId = newId)
    (hrefs : instNode.references =
      [UAReference.mk refTypeId false parentId,
       UAReference.mk hasTypeDefinitionId true τ] ++ childRefs)
    (hN : N = installTypeDefInverses (instNode :: created.map (·.1))
      (updNode s.nodes parentId (addRef (UAReference.mk refTypeId true newId))
        ++ (instNode :: created.map (·.1))))
    (hcf : CounterFresh s)
    (hnew : getNode s.nodes newId = none)
    (hτ : ∃ t ∈ s.nodes, t.nodeId = τ)
    (hfresh : ∀ p ∈ created, ∃ k, bumpFor s.counter newId ≤ k ∧
      p.1.nodeId = freshId k)
    (htdRes : ∀ p ∈ created, ∀ r ∈ p.1.references, r.isForward = true →
      r.referenceTypeId = hasTypeDefinitionId →
      ∃ t ∈ s.nodes, t.nodeId = r.targetId)
    (hagg : ∀ r ∈ childRefs, isAggregationRef r.referenceTypeId = true)
    (hF : List.Forall₂ (ChildMatches created) cs childRefs)
    (hcsOK : TemplatesOK' cs) :
    getNode N newId = some instNode ∧
    (instanceChildren N newId).map (·.browseName) =
      cs.map (·.node.browseName) ∧
    (∀ p ∈ created, (getNode N p.1.nodeId).isSome = true) := by
  have hn1ids : ∀ m ∈ updNode s.nodes parentId
      (addRef (UAReference.mk refTypeId true newId)),
      ∃ n ∈ s.nodes, m.nodeId = n.nodeId := by
    intro m hm
    obtain ⟨n, hn, he⟩ := mem_updNode hm
    refine ⟨n, hn, ?_⟩
    by_cases h : n.nodeId = parentId
    · rw [he, if_pos h]
      rfl
    · rw [he, if_neg h]
  have hm_new : ∀ m ∈ updNode s.nodes parentId
      (addRef (UAReference.mk refTypeId true newId)),
      ¬m.nodeId = newId := by
    intro m hm he
    obtain ⟨n, hn, hid2⟩ := hn1ids m hm
    exact (getNode_eq_none_iff _ _).mp hnew n hn (by rw [← hid2, he])
  have hm_fresh : ∀ k, bumpFor s.counter newId ≤ k →
      ∀ m ∈ updNode s.nodes parentId
        (addRef (UAReference.mk refTypeId true newId)),
      ¬m.nodeId = freshId k := by
    intro k hk m hm he
    obtain ⟨n, hn, hid2⟩ := hn1ids m hm
    have hkc : s.counter ≤ k := le_trans (bumpFor_le _ _) hk
    exact (getNode_eq_none_iff _ _).mp
      (freshId_not_mem_of_counterFresh hcf hkc) n hn (by rw [← hid2, he])
  have hbase : getNode (updNode s.nodes parentId
      (addRef (UAReference.mk refTypeId true newId)) ++
      (instNode :: created.map (·.1))) newId = some instNode := by
    rw [getNode_append_right _ _ _ hm_new, getNode_cons, if_pos hid]
  have htdAll : ∀ c ∈ instNode :: created.map (·.1), ∀ rr ∈ c.references,
      rr.isForward = true → rr.referenceTypeId = hasTypeDefinitionId →
      ∃ t ∈ s.nodes, t.nodeId = rr.targetId := by
    intro c hcA rr hrr hfwd hrt
    rcases List.mem_cons.mp hcA with he | hm
    · subst he
      rw [hrefs] at hrr
      rcases List.mem_append.mp hrr with h2 | h2
      · rcases List.mem_cons.mp h2 with h3 | h3
        · rw [h3] at hfwd
          exact absurd hfwd (by simp)
        · have h4 : rr = UAReference.mk hasTypeDefinitionId true τ := by
            simpa using h3
          rw [h4]
          exact hτ
      · have h5 := hagg rr h2
        rw [hrt] at h5
        exact absurd h5 (by decide)
    · obtain ⟨p, hp, hpe⟩ := List.mem_map.mp hm
      refine htdRes p hp rr ?_ hfwd hrt
      rw [hpe]
      exact hrr
  obtain ⟨n', hn', tail, hrec, htail, -⟩ :=
    getNode_installTypeDefInverses (instNode :: created.map (·.1)) _
      newId instNode hbase
  have htail0 : tail = [] := by
    cases tail with
    | nil => rfl
    | cons r rest =>
      obtain ⟨c, hcA, -, hcm⟩ := htail r (List.mem_cons_self _ _)
      obtain ⟨t, ht, htid⟩ := htdAll c hcA _ hcm rfl rfl
      exact absurd htid ((getNode_eq_none_iff _ _).mp hnew t ht)
  have hinstN : getNode N newId = some instNode := by
    rw [hN, hn']
    congr 1
    rw [hrec, htail0]
    simp
  have hlift : ∀ tgt n, getNode (created.map (·.1)) tgt = some n →
      ∃ n2, getNode N tgt = some n2 ∧ n2.browseName = n.browseName := by
    intro tgt n hg
    have hmemN : n ∈ created.map (·.1) := List.mem_of_find?_eq_some hg
    have hidn : n.nodeId = tgt := getNode_id hg
    obtain ⟨p, hp, hpe⟩ := List.mem_map.mp hmemN
    obtain ⟨k, hk1, hk3⟩ := hfresh p hp
    have htgt : tgt = freshId k := by rw [← hidn, ← hpe, hk3]
    have hinst_ne : ¬instNode.nodeId = tgt := by
      rw [hid, htgt]
      exact newId_ne_freshId s.counter newId k hk1
    have hbase2 : getNode (updNode s.nodes parentId
        (addRef (UAReference.mk refTypeId true newId)) ++
        (instNode :: created.map (·.1))) tgt = some n := by
      rw [getNode_append_right _ _ _
          (fun m hm => htgt ▸ hm_fresh k hk1 m hm),
        getNode_cons, if_neg hinst_ne, hg]
    obtain ⟨n2, hn2, tail2, hrec2, -, -⟩ :=
      getNode_installTypeDefInverses (instNode :: created.map (·.1)) _
        tgt n hbase2
    refine ⟨n2, by rw [hN]; exact hn2, ?_⟩
    rw [hrec2]
  refine ⟨hinstN, ?_, ?_⟩
  · simp only [instanceChildren, hinstN]
    rw [hrefs, List.cons_append, List.cons_append, List.nil_append]
    rw [List.filterMap_cons_none, List.filterMap_cons_none]
    · exact childRefs_filterMap_names N created cs childRefs hF hcsOK hlift
    · rfl
    · rfl
  · intro p hp
    have hmem : p.1 ∈ created.map (·.1) := List.mem_map_of_mem _ hp
    have hg := getNode_isSome_of_mem hmem
    rcases hg2 : getNode (created.map (·.1)) p.1.nodeId with - | n
    · rw [hg2] at hg
      simp at hg
    · obtain ⟨n2, hn2, -⟩ := hlift p.1.nodeId n hg2
      rw [hn2]
      rfl

/-- Commit-level characterization of instantiation: the planned subtree is
a `PlanOK` plan over the mandatory templates, the fired events are the
instance's constructor events followed by the plan events, the instance is
stored with the requested attributes and a type definition resolving to
the requested type, its aggregation children read back exactly the
mandatory-template browse names, and every planned child is stored. -/
theorem commitInstance_spec (s : Server) (parentId refTypeId newId τ : NodeId)
    (bn : QualifiedName) (cls : NodeClass) (dn de : String) (v : Option Int)
    (wcb : Bool) (s' : Server) (evs : List Event)
    (hcf : CounterFresh s) (hres : RefResolve s.nodes)
    (hτ : ∃ t ∈ s.nodes, t.nodeId = τ)
    (hnew : getNode s.nodes newId = none)
    (hc : commitInstance s parentId refTypeId newId bn cls dn de v τ wcb =
      (s', evs)) :
    ∃ ctr1 created childRefs childEvs,
      planChildren s wcb s.nodes.length (bumpFor s.counter newId) newId
        (mandatoryChildren s.nodes τ) =
        (ctr1, created, childRefs, childEvs) ∧
      PlanOK s wcb newId (bumpFor s.counter newId) ctr1 created childRefs
        childEvs ∧
      evs = ctorEventsFor s (some τ) newId ++ childEvs ∧
      (∃ inst, getNode s'.nodes newId = some inst ∧
        typeDefOf inst = some τ ∧ inst.browseName = bn ∧
        inst.nodeClass = cls) ∧
      (instanceChildren s'.nodes newId).map (·.browseName) =
        (mandatoryChildren s.nodes τ).map (·.node.browseName) ∧
      (∀ p ∈ created, (getNode s'.nodes p.1.nodeId).isSome = true) := by
  rcases hplan : planChildren s wcb s.nodes.length
      (bumpFor s.counter newId) newId (mandatoryChildren s.nodes τ)
    with ⟨ctr1, created, childRefs, childEvs⟩
  have hOK : PlanOK s wcb newId (bumpFor s.counter newId) ctr1 created
      childRefs childEvs :=
    planChildren_sound s wcb hres s.nodes.length _ _ _
      (templatesOK_mandatory s τ) _ _ _ _ hplan
  have hF : List.Forall₂ (ChildMatches created)
      (mandatoryChildren s.nodes τ) childRefs :=
    planChildren_exact s wcb hres s.nodes.length _ _ _
      (templatesOK_mandatory s τ) _ _ _ _ hplan
  simp only [commitInstance, hplan] at hc
  rw [Prod.mk.injEq] at hc
  obtain ⟨hs', hevs⟩ := hc
  subst hs'
  subst hevs
  obtain ⟨hA, hB, hC⟩ := installStore_spec s parentId refTypeId newId τ
    created childRefs (mandatoryChildren s.nodes τ)
    { nodeId := newId, nodeClass := cls, browseName := bn,
      displayName := dn, description := de, isAbstract := false, value := v,
      references := [UAReference.mk refTypeId false parentId,
        UAReference.mk hasTypeDefinitionId true τ] ++ childRefs }
    _ rfl rfl rfl hcf hnew hτ
    (fun p hp => (hOK.fresh p hp).elim (fun k hk => ⟨k, hk.1, hk.2.2⟩))
    hOK.tdResolve hOK.refsAgg hF
    (fun c hc2 => ⟨trivial, (templatesOK_mandatory s τ c hc2).2⟩)
  refine ⟨ctr1, created, childRefs, childEvs, rfl, hOK, rfl,
    ⟨_, hA, typeDefOf_refs _ refTypeId parentId τ childRefs rfl, rfl, rfl⟩,
    hB, hC⟩

/-- When every validation of the typed-class branch passes, AddNode commits
the instantiation and returns Good. -/
theorem addNode_success_commit (s : Server)
    (parentId refTypeId requestedId : NodeId) (bn : QualifiedName)
    (cls : NodeClass) (typeDefId : NodeId) (dn de : String) (ab : Bool)
    (v : Option Int) (wcb : Bool) (pn rtn td : Node)
    (hp : getNode s.nodes parentId = some pn)
    (hrt : getNode s.nodes refTypeId = some rtn)
    (hrtc : rtn.nodeClass = .refType)
    (hreq : getNode s.nodes (if requestedId.isNull then freshId s.counter
      else requestedId) = none)
    (hcls : classHasTypeDef cls = true)
    (htdnn : typeDefId.isNull = false)
    (htd : getNode s.nodes typeDefId = some td)
    (htdc : typeDefClassMatches cls td.nodeClass = true)
    (htda : td.isAbstract = false)
    (hbn : bn ∉ siblingNames s.nodes parentId refTypeId) :
    ∃ s' evs,
      commitInstance s parentId refTypeId
        (if requestedId.isNull then freshId s.counter else requestedId)
        bn cls dn de v typeDefId wcb = (s', evs) ∧
      addNode s parentId refTypeId requestedId bn cls typeDefId dn de ab v
        wcb = ⟨s', .good, evs⟩ := by
  have hreqF : ¬(¬requestedId.isNull = true ∧
      (getNode s.nodes requestedId).isSome = true) := by
    intro h
    obtain ⟨h1, h2⟩ := h
    rcases hq : requestedId.isNull with _ | _
    · rw [hq] at hreq
      simp only [Bool.false_eq_true, if_false] at hreq
      rw [hreq] at h2
      simp at h2
    · exact h1 hq
  simp only [addNode, hp, hrt, hrtc, ne_eq, not_true_eq_false, if_false]
  rw [if_neg hreqF, if_pos (show classHasTypeDef cls = true ∧
    ¬typeDefId.isNull = true by simp [hcls, htdnn])]
  simp only [htd]
  rw [if_neg (show ¬(¬typeDefClassMatches cls td.nodeClass = true ∨
    td.isAbstract = true) by simp [htdc, htda])]
  rw [if_neg hbn]
  rcases hcomm : commitInstance s parentId refTypeId
      (if requestedId.isNull then freshId s.counter else requestedId)
      bn cls dn de v typeDefId wcb with ⟨s2, evs2⟩
  exact ⟨s2, evs2, rfl, rfl⟩

/-! ## C1 scenario: DeviceType / PumpType -/

def deviceTypeId : NodeId := ⟨1, .numeric 2000⟩
def pumpTypeId : NodeId := ⟨1, .numeric 2001⟩
def manufacturerNameTplId : NodeId := ⟨1, .numeric 2002⟩
def statusTplId : NodeId := ⟨1, .numeric 2003⟩
def motorRPMTplId : NodeId := ⟨1, .numeric 2004⟩

/-- The spec's scenario 5 type hierarchy: `DeviceType` with Mandatory child
`ManufacturerName`, subtype `PumpType` adding Mandatory `Status` and
Optional `MotorRPM`. -/
def pumpServer : Server :=
  { nodes := initialServer.nodes ++
      [bootNode deviceTypeId .objectType "DeviceType" false
         [fwdRef hasSubtypeId pumpTypeId,
          fwdRef hasComponentId manufacturerNameTplId],
       bootNode pumpTypeId .objectType "PumpType" false
         [invRef hasSubtypeId deviceTypeId,
          fwdRef hasComponentId statusTplId,
          fwdRef hasComponentId motorRPMTplId],
       bootNode manufacturerNameTplId .var "ManufacturerName" false
         [invRef hasComponentId deviceTypeId,
          fwdRef hasModellingRuleId mandatoryRuleId,
          fwdRef hasTypeDefinitionId baseDataVariableTypeId],
       bootNode statusTplId .var "Status" false
         [invRef hasComponentId pumpTypeId,
          fwdRef hasModellingRuleId mandatoryRuleId,
          fwdRef hasTypeDefinitionId baseDataVariableTypeId],
       bootNode motorRPMTplId .var "MotorRPM" false
         [invRef hasComponentId pumpTypeId,
          fwdRef hasModellingRuleId optionalRuleId,
          fwdRef hasTypeDefinitionId baseDataVariableTypeId]]
    ctorTypes := []
    dtorTypes := []
    counter := 3000 }

/-- C1: for a valid AddNode of a typed node under a non-abstract type
definition S, the call returns Good, the stored instance's
HasTypeDefinition resolves to S, and the instance's aggregation children
carry exactly the browse names of the Mandatory-modelling-rule children
accumulated along the subtype chain from S to the root with most-derived
wins (`mandatoryChildren`); Optional children are absent because
`mandatoryChildren` filters on the Mandatory rule. -/
theorem instantiate_mandatory_children (s : Server)
    (parentId refTypeId requestedId : NodeId) (bn : QualifiedName)
    (cls : NodeClass) (typeDefId : NodeId) (dn de : String) (ab : Bool)
    (v : Option Int) (wcb : Bool) (pn rtn td : Node)
    (hcf : CounterFresh s) (hres : RefResolve s.nodes)
    (hp : getNode s.nodes parentId = some pn)
    (hrt : getNode s.nodes refTypeId = some rtn)
    (hrtc : rtn.nodeClass = .refType)
    (hreq : getNode s.nodes (if requestedId.isNull then freshId s.counter
      else requestedId) = none)
    (hcls : classHasTypeDef cls = true)
    (htdnn : typeDefId.isNull = false)
    (htd : getNode s.nodes typeDefId = some td)
    (htdc : typeDefClassMatches cls td.nodeClass = true)
    (htda : td.isAbstract = false)
    (hbn : bn ∉ siblingNames s.nodes parentId refTypeId) :
    (addNode s parentId refTypeId requestedId bn cls typeDefId dn de ab v
      wcb).status = .good ∧
    (∃ inst, getNode (addNode s parentId refTypeId requestedId bn cls
        typeDefId dn de ab v wcb).server.nodes
        (if requestedId.isNull then freshId s.counter else requestedId) =
        some inst ∧ typeDefOf inst = some typeDefId) ∧
    (instanceChildren (addNode s parentId refTypeId requestedId bn cls
        typeDefId dn de ab v wcb).server.nodes
        (if requestedId.isNull then freshId s.counter else requestedId)).map
        (·.browseName) =
      (mandatoryChildren s.nodes typeDefId).map (·.node.browseName) := by
  obtain ⟨s2, evs2, hcomm, haddeq⟩ := addNode_success_commit s parentId
    refTypeId requestedId bn cls typeDefId dn de ab v wcb pn rtn td hp hrt
    hrtc hreq hcls htdnn htd htdc htda hbn
  obtain ⟨ctr1, created, childRefs, childEvs, -, -, -, hInst, hCh, -⟩ :=
    commitInstance_spec s parentId refTypeId _ typeDefId bn cls dn de v wcb
      s2 evs2 hcf hres ⟨td, List.mem_of_find?_eq_some htd, getNode_id htd⟩
      hreq hcomm
  rw [haddeq]
  refine ⟨rfl, ?_, hCh⟩
  obtain ⟨inst, h1, h2, -, -⟩ := hInst
  exact ⟨inst, h1, h2⟩

/-- Witness for C1: instantiating a `PumpType` object under ObjectsFolder
materializes children named exactly Status and ManufacturerName (the
Mandatory closure over the chain PumpType → DeviceType); the Optional
MotorRPM is absent. -/
theorem instantiate_mandatory_children_witness :
    (mandatoryChildren pumpServer.nodes pumpTypeId).map
      (·.node.browseName) = [⟨0, "Status"⟩, ⟨0, "ManufacturerName"⟩] ∧
    (addNode pumpServer objectsFolderId organizesId ⟨1, .numeric 100⟩
      ⟨1, "ThePump"⟩ .object pumpTypeId "ThePump" "ThePump" false none
      false).status = .good ∧
    (instanceChildren (addNode pumpServer objectsFolderId organizesId
        ⟨1, .numeric 100⟩ ⟨1, "ThePump"⟩ .object pumpTypeId "ThePump"
        "ThePump" false none false).server.nodes
        (if (NodeId.mk 1 (.numeric 100)).isNull then
          freshId pumpServer.counter else ⟨1, .numeric 100⟩)).map
        (·.browseName) =
      (mandatoryChildren pumpServer.nodes pumpTypeId).map
        (·.node.browseName) := by
  have h := instantiate_mandatory_children pumpServer objectsFolderId
    organizesId ⟨1, .numeric 100⟩ ⟨1, "ThePump"⟩ .object pumpTypeId
    "ThePump" "ThePump" false none false
    (bootNode objectsFolderId .object "Objects" false
      [invRef organizesId rootFolderId])
    (bootNode organizesId .refType "Organizes" false
      [invRef hasSubtypeId hierarchicalReferencesId])
    (bootNode pumpTypeId .objectType "PumpType" false
      [invRef hasSubtypeId deviceTypeId,
       fwdRef hasComponentId statusTplId,
       fwdRef hasComponentId motorRPMTplId])
    (by decide) (by decide) (by decide) (by decide) (by decide) (by decide)
    (by decide) (by decide) (by decide) (by decide) (by decide) (by decide)
  exact ⟨by decide, h.1, h.2.2⟩

/-! ## C6: most-derived constructor exactly once -/

/-- The constructor invocations targeting instance `i`, in order: the type
passed to each `ctorCall` event whose instance is `i`. -/
def ctorCallsFor (i : NodeId) (evs : List Event) : List NodeId :=
  evs.filterMap (fun e => match e with
    | .ctorCall t j => if j = i then some t else none
    | _ => none)

theorem ctorCallsFor_append (i : NodeId) (a b : List Event) :
    ctorCallsFor i (a ++ b) = ctorCallsFor i a ++ ctorCallsFor i b :=
  List.filterMap_append a b _

theorem ctorCallsFor_nil_of (i : NodeId) (l : List Event)
    (h : ∀ t j, Event.ctorCall t j ∈ l → ¬j = i) :
    ctorCallsFor i l = [] := by
  unfold ctorCallsFor
  rw [List.filterMap_eq_nil_iff]
  intro e he
  cases e with
  | ctorCall t j => exact if_neg (h t j he)
  | dtorCall t j => rfl
  | instCallback a b => rfl

/-- C6: under a valid typed AddNode whose type definition has a most-derived
type `T` with a registered constructor (`pickCtorType`), the call returns
Good and the constructor invocations targeting the new instance are exactly
one call, carrying `T`: ancestors' constructors do not fire implicitly and
a counter-incrementing constructor registered on `T` counts exactly 1. -/
theorem constructor_most_derived_once (s : Server)
    (parentId refTypeId requestedId : NodeId) (bn : QualifiedName)
    (cls : NodeClass) (typeDefId : NodeId) (dn de : String) (ab : Bool)
    (v : Option Int) (wcb : Bool) (pn rtn td : Node) (T : NodeId)
    (hcf : CounterFresh s) (hres : RefResolve s.nodes)
    (hp : getNode s.nodes parentId = some pn)
    (hrt : getNode s.nodes refTypeId = some rtn)
    (hrtc : rtn.nodeClass = .refType)
    (hreq : getNode s.nodes (if requestedId.isNull then freshId s.counter
      else requestedId) = none)
    (hcls : classHasTypeDef cls = true)
    (htdnn : typeDefId.isNull = false)
    (htd : getNode s.nodes typeDefId = some td)
    (htdc : typeDefClassMatches cls td.nodeClass = true)
    (htda : td.isAbstract = false)
    (hbn : bn ∉ siblingNames s.nodes parentId refTypeId)
    (hpc : pickCtorType s typeDefId = some T) :
    (addNode s parentId refTypeId requestedId bn cls typeDefId dn de ab v
      wcb).status = .good ∧
    ctorCallsFor (if requestedId.isNull then freshId s.counter
        else requestedId)
      (addNode s parentId refTypeId requestedId bn cls typeDefId dn de ab v
        wcb).events = [T] := by
  obtain ⟨s2, evs2, hcomm, haddeq⟩ := addNode_success_commit s parentId
    refTypeId requestedId bn cls typeDefId dn de ab v wcb pn rtn td hp hrt
    hrtc hreq hcls htdnn htd htdc htda hbn
  obtain ⟨ctr1, created, childRefs, childEvs, -, hOK, hevs, -, -, -⟩ :=
    commitInstance_spec s parentId refTypeId _ typeDefId bn cls dn de v wcb
      s2 evs2 hcf hres ⟨td, List.mem_of_find?_eq_some htd, getNode_id htd⟩
      hreq hcomm
  rw [haddeq]
  refine ⟨rfl, ?_⟩
  show ctorCallsFor (if requestedId.isNull then freshId s.counter
    else requestedId) evs2 = [T]
  rw [hevs, ctorCallsFor_append]
  have h1 : ctorEventsFor s (some typeDefId)
      (if requestedId.isNull then freshId s.counter else requestedId) =
      [Event.ctorCall T (if requestedId.isNull then freshId s.counter
        else requestedId)] := by
    simp [ctorEventsFor, hpc]
  rw [h1]
  have h2 : ctorCallsFor (if requestedId.isNull then freshId s.counter
      else requestedId) childEvs = [] := by
    refine ctorCallsFor_nil_of _ _ ?_
    intro t j he hje
    obtain ⟨p, hp2, hpj⟩ := hOK.ctorEvs t j he
    obtain ⟨k, hk1, -, hk3⟩ := hOK.fresh p hp2
    have hne : ¬(if requestedId.isNull then freshId s.counter
        else requestedId) = freshId k :=
      newId_ne_freshId s.counter _ k hk1
    rw [← hpj, hk3] at hje
    exact hne hje.symm
  rw [h2]
  simp [ctorCallsFor]

/-- The AddObjectWithConstructor scenario: an object type with a registered
constructor. -/
def ctorScenarioServer : Server :=
  set_lifecycle
    (addNode initialServer baseObjectTypeId hasSubtypeId (nsZero 13371337)
      ⟨0, "myobjecttype"⟩ .objectType NodeId.null "my objecttype"
      "my objecttype" false none false).server
    (nsZero 13371337) true false

/-- Witness for C6: inserting one object of the constructor-bearing type
fires exactly one constructor call, for that type, at the new instance;
globally the event log holds exactly one constructor invocation (the
counter reads 1). -/
theorem constructor_most_derived_once_witness :
    (addNode ctorScenarioServer objectsFolderId hasComponentId
      (nsZero 23372337) ⟨0, "my object"⟩ .object (nsZero 13371337)
      "my object" "my object" false none false).status = .good ∧
    ctorCallsFor (if (nsZero 23372337).isNull then
        freshId ctorScenarioServer.counter else nsZero 23372337)
      (addNode ctorScenarioServer objectsFolderId hasComponentId
        (nsZero 23372337) ⟨0, "my object"⟩ .object (nsZero 13371337)
        "my object" "my object" false none false).events =
      [nsZero 13371337] ∧
    (addNode ctorScenarioServer objectsFolderId hasComponentId
      (nsZero 23372337) ⟨0, "my object"⟩ .object (nsZero 13371337)
      "my object" "my object" false none false).events.filterMap
      (fun e => match e with
        | .ctorCall t i => some (t, i)
        | _ => none) = [(nsZero 13371337, nsZero 23372337)] := by
  have h := constructor_most_derived_once ctorScenarioServer
    objectsFolderId hasComponentId (nsZero 23372337) ⟨0, "my object"⟩
    .object (nsZero 13371337) "my object" "my object" false none false
    (bootNode objectsFolderId .object "Objects" false
      [invRef organizesId rootFolderId])
    (bootNode hasComponentId .refType "HasComponent" false
      [invRef hasSubtypeId aggregatesId])
    ((getNode ctorScenarioServer.nodes (nsZero 13371337)).getD
      (bootNode NodeId.null .object "" false []))
    (nsZero 13371337)
    (by decide) (by decide) (by decide) (by decide) (by decide) (by decide)
    (by decide) (by decide) (by decide) (by decide) (by decide) (by decide)
    (by decide)
  exact ⟨h.1, h.2, by decide⟩

/-! ## C7: instantiation callback once per materialized child -/

theorem cbProj_ctorEventsFor (s : Server) (td : Option NodeId)
    (i : NodeId) : (ctorEventsFor s td i).filterMap cbProj = [] := by
  cases td with
  | none => rfl
  | some τ =>
    simp only [ctorEventsFor]
    cases hpc : pickCtorType s τ with
    | none => rfl
    | some t => rfl

/-- C7: a valid typed AddNode carrying an instantiation callback returns
Good and fires the callback exactly once per child materialized by the
depth-first template walk, in walk order: the projected callback events
equal the planned creation list `(newNodeId, templateId)` pair for pair,
over pairwise-distinct fresh ids, every such child is stored, and a
non-empty mandatory closure fires the callback at least once. -/
theorem instantiation_callback_per_child (s : Server)
    (parentId refTypeId requestedId : NodeId) (bn : QualifiedName)
    (cls : NodeClass) (typeDefId : NodeId) (dn de : String) (ab : Bool)
    (v : Option Int) (pn rtn td : Node)
    (hcf : CounterFresh s) (hres : RefResolve s.nodes)
    (hp : getNode s.nodes parentId = some pn)
    (hrt : getNode s.nodes refTypeId = some rtn)
    (hrtc : rtn.nodeClass = .refType)
    (hreq : getNode s.nodes (if requestedId.isNull then freshId s.counter
      else requestedId) = none)
    (hcls : classHasTypeDef cls = true)
    (htdnn : typeDefId.isNull = false)
    (htd : getNode s.nodes typeDefId = some td)
    (htdc : typeDefClassMatches cls td.nodeClass = true)
    (htda : td.isAbstract = false)
    (hbn : bn ∉ siblingNames s.nodes parentId refTypeId) :
    (addNode s parentId refTypeId requestedId bn cls typeDefId dn de ab v
      true).status = .good ∧
    ∃ created,
      (∃ ctr1 childRefs childEvs,
        planChildren s true s.nodes.length
          (bumpFor s.counter (if requestedId.isNull then freshId s.counter
            else requestedId))
          (if requestedId.isNull then freshId s.counter else requestedId)
          (mandatoryChildren s.nodes typeDefId) =
          (ctr1, created, childRefs, childEvs)) ∧
      (addNode s parentId refTypeId requestedId bn cls typeDefId dn de ab v
        true).events.filterMap cbProj =
        created.map (fun p => (p.1.nodeId, p.2)) ∧
      (created.map (fun p => p.1.nodeId)).Nodup ∧
      (∀ p ∈ created, (getNode (addNode s parentId refTypeId requestedId bn
        cls typeDefId dn de ab v true).server.nodes p.1.nodeId).isSome =
        true) ∧
      (mandatoryChildren s.nodes typeDefId ≠ [] → created ≠ []) := by
  obtain ⟨s2, evs2, hcomm, haddeq⟩ := addNode_success_commit s parentId
    refTypeId requestedId bn cls typeDefId dn de ab v true pn rtn td hp hrt
    hrtc hreq hcls htdnn htd htdc htda hbn
  have hF0 := planChildren_exact s true hres s.nodes.length
    (bumpFor s.counter (if requestedId.isNull then freshId s.counter
      else requestedId))
    (if requestedId.isNull then freshId s.counter else requestedId)
    (mandatoryChildren s.nodes typeDefId)
    (templatesOK_mandatory s typeDefId)
  obtain ⟨ctr1, created, childRefs, childEvs, hpl, hOK, hevs, -, -, hPres⟩ :=
    commitInstance_spec s parentId refTypeId _ typeDefId bn cls dn de v true
      s2 evs2 hcf hres ⟨td, List.mem_of_find?_eq_some htd, getNode_id htd⟩
      hreq hcomm
  have hF : List.Forall₂ (ChildMatches created)
      (mandatoryChildren s.nodes typeDefId) childRefs :=
    hF0 _ _ _ _ hpl
  rw [haddeq]
  refine ⟨rfl, created, ⟨ctr1, childRefs, childEvs, hpl⟩, ?_, hOK.nodup,
    hPres, ?_⟩
  · show evs2.filterMap cbProj = created.map (fun p => (p.1.nodeId, p.2))
    rw [hevs, List.filterMap_append, cbProj_ctorEventsFor, hOK.cbEvs]
    simp
  · intro hcs hemp
    rcases hcs2 : mandatoryChildren s.nodes typeDefId with - | ⟨c, cs'⟩
    · exact hcs hcs2
    · rw [hcs2] at hF
      cases hF with
      | cons hcm hrest =>
        rename_i r crest
        obtain ⟨q, hq, -⟩ := hOK.pairing r (List.mem_cons_self _ _)
        rw [hemp] at hq
        exact (List.not_mem_nil q) hq

/-- Witness for C7: instantiating a `PumpType` with the callback enabled
fires the callback once per materialized child over distinct fresh ids,
each child is stored, and the callback fires at least once since the
mandatory closure {Status, ManufacturerName} is non-empty. -/
theorem instantiation_callback_per_child_witness :
    (addNode pumpServer objectsFolderId organizesId ⟨1, .numeric 101⟩
      ⟨1, "CbPump"⟩ .object pumpTypeId "CbPump" "CbPump" false none
      true).status = .good ∧
    ∃ created : List (Node × NodeId),
      (addNode pumpServer objectsFolderId organizesId ⟨1, .numeric 101⟩
        ⟨1, "CbPump"⟩ .object pumpTypeId "CbPump" "CbPump" false none
        true).events.filterMap cbProj =
        created.map (fun p => (p.1.nodeId, p.2)) ∧
      (created.map (fun p => p.1.nodeId)).Nodup ∧
      created ≠ [] ∧
      ∀ p ∈ created, (getNode (addNode pumpServer objectsFolderId
        organizesId ⟨1, .numeric 101⟩ ⟨1, "CbPump"⟩ .object pumpTypeId
        "CbPump" "CbPump" false none true).server.nodes
        p.1.nodeId).isSome = true := by
  have h := instantiation_callback_per_child pumpServer objectsFolderId
    organizesId ⟨1, .numeric 101⟩ ⟨1, "CbPump"⟩ .object pumpTypeId
    "CbPump" "CbPump" false none
    (bootNode objectsFolderId .object "Objects" false
      [invRef organizesId rootFolderId])
    (bootNode organizesId .refType "Organizes" false
      [invRef hasSubtypeId hierarchicalReferencesId])
    (bootNode pumpTypeId .objectType "PumpType" false
      [invRef hasSubtypeId deviceTypeId,
       fwdRef hasComponentId statusTplId,
       fwdRef hasComponentId motorRPMTplId])
    (by decide) (by decide) (by decide) (by decide) (by decide) (by decide)
    (by decide) (by decide) (by decide) (by decide) (by decide) (by decide)
  obtain ⟨h1, created, -, h3, h4, h5, h6⟩ := h
  exact ⟨h1, created, h3, h4, h6 (by decide), h5⟩

/-! ## C2: the forward-pair invariant under operation sequences -/

/-- The claim's invariant: every forward reference whose target is in the
store is answered by the inverse half at the target. -/
def ForwardPairInv (nodes : List Node) : Prop :=
  ∀ m ∈ nodes, ∀ r ∈ m.references, r.isForward = true →
    ∀ t ∈ nodes, t.nodeId = r.targetId →
      flipRef m.nodeId r ∈ t.references

instance (nodes : List Node) : Decidable (ForwardPairInv nodes) :=
  List.decidableBAll _ _

/-- The operation sequence refuting the unrestricted claim: create a node,
delete it while retaining the references of its targets
(`deleteTargetReferences = false`), then re-create the same NodeId under a
different parent. -/
def danglingOps : List ServiceOp :=
  [.addNode objectsFolderId organizesId (nsZero 600) ⟨1, "X"⟩ .object
     NodeId.null "X" "X" false none false,
   .deleteNode (nsZero 600) false,
   .addNode rootFolderId organizesId (nsZero 600) ⟨1, "X"⟩ .object
     NodeId.null "X" "X" false none false]

/-- Counterexample to C2 as stated: after `danglingOps` ObjectsFolder
still holds the stale forward reference to the re-created node, which does
not answer it: the forward-pair invariant fails after this sequence of
service operations. -/
theorem forwardPairInv_counterexample :
    ¬ForwardPairInv (applyOps initialServer danglingOps).nodes := by
  decide

/-! ## Store lemmas for invariant preservation -/

theorem getNode_of_mem_nodup :
    ∀ {l : List Node}, NodupIds l → ∀ {m : Node}, m ∈ l →
      getNode l m.nodeId = some m := by
  intro l
  induction l with
  | nil => intro _ m hm; exact absurd hm (List.not_mem_nil m)
  | cons x xs ih =>
    intro hnd m hm
    rcases List.mem_cons.mp hm with he | hx
    · subst he
      rw [getNode_cons, if_pos rfl]
    · have hnd2 : NodupIds xs := by
        unfold NodupIds at *
        rw [List.map_cons] at hnd
        exact hnd.of_cons
      have hne : ¬x.nodeId = m.nodeId := by
        intro he
        unfold NodupIds at hnd
        rw [List.map_cons] at hnd
        exact (List.nodup_cons.mp hnd).1
          (he ▸ List.mem_map_of_mem (·.nodeId) hx)
      rw [getNode_cons, if_neg hne]
      exact ih hnd2 hx

theorem nodup_mem_eq {l : List Node} (h : NodupIds l) {a b : Node}
    (ha : a ∈ l) (hb : b ∈ l) (he : a.nodeId = b.nodeId) : a = b := by
  have h1 := getNode_of_mem_nodup h ha
  have h2 := getNode_of_mem_nodup h hb
  rw [he, h2] at h1
  exact (Option.some.inj h1).symm

theorem nodeIds_foldl_addRef (ts : List NodeId)
    (mk : NodeId → UAReference) :
    ∀ nodes : List Node,
      ((ts.foldl (fun ns2 τ => updNode ns2 τ (addRef (mk τ))) nodes).map
        (·.nodeId)) = nodes.map (·.nodeId) := by
  induction ts with
  | nil => intro nodes; rfl
  | cons t rest ih =>
    intro nodes
    rw [List.foldl_cons, ih,
      updNode_nodeIds nodes t (addRef (mk t)) (fun n => rfl)]

theorem nodeIds_installTypeDefInverses (created : List Node) :
    ∀ nodes : List Node,
      (installTypeDefInverses created nodes).map (·.nodeId) =
        nodes.map (·.nodeId) := by
  induction created with
  | nil => intro nodes; rfl
  | cons c rest ih =>
    intro nodes
    rw [installTypeDefInverses_eq_fold]
    rw [List.foldl_cons]
    rw [show ∀ l, List.foldl (fun ns c2 =>
        (tdTargets c2).foldl (fun ns2 τ =>
          updNode ns2 τ (addRef ⟨hasTypeDefinitionId, false, c2.nodeId⟩))
          ns) l rest = installTypeDefInverses rest l from
      fun l => (installTypeDefInverses_eq_fold rest l).symm]
    rw [ih, nodeIds_foldl_addRef]

theorem tdTargets_of_mem {c : Node} {r : UAReference}
    (hr : r ∈ c.references) (h1 : r.isForward = true)
    (h2 : r.referenceTypeId = hasTypeDefinitionId) :
    r.targetId ∈ tdTargets c := by
  unfold tdTargets
  rw [List.mem_filterMap]
  exact ⟨r, hr, by rw [if_pos (by rw [h1, h2]; simp)]⟩

theorem idFreshB_mono {a b : Nat} (h : a ≤ b) (id : NodeId)
    (hf : idFreshB a id = true) : idFreshB b id = true := by
  unfold idFreshB at *
  rcases id with ⟨ns, v⟩
  rcases v with k | st | g | bt <;> rcases ns with - | - | ns <;>
    simp only [decide_eq_true_eq] at * <;> omega

theorem idFreshB_bumpFor (ctr : Nat) (id : NodeId) :
    idFreshB (bumpFor ctr id) id = true := by
  unfold idFreshB bumpFor
  rcases id with ⟨ns, v⟩
  rcases v with k | st | g | bt <;> rcases ns with - | - | ns <;>
    simp only [decide_eq_true_eq] <;> omega

theorem mem_updNode_of_mem {nodes : List Node} {n : Node} (id : NodeId)
    (f : Node → Node) (h : n ∈ nodes) :
    (if n.nodeId = id then f n else n) ∈ updNode nodes id f := by
  unfold updNode
  exact List.mem_map_of_mem _ h

theorem idFreshB_freshId {k ctr : Nat} (h : k < ctr) :
    idFreshB ctr (freshId k) = true := by
  unfold idFreshB freshId
  simpa using h

/-- Invariant bundle for the plain-commit store shape: the parent gains the
forward half, the new node enters carrying the inverse half. -/
theorem plainStore_invariant (s : Server) (parentId refTypeId newId : NodeId)
    (newNode : Node) (hid : newNode.nodeId = newId)
    (hrefs : newNode.references = [UAReference.mk refTypeId false parentId])
    (hnodup : NodupIds s.nodes) (hpair : RefPairInv s.nodes)
    (hres : RefResolve s.nodes)
    (hp : ∃ p ∈ s.nodes, p.nodeId = parentId)
    (hnew : getNode s.nodes newId = none) :
    NodupIds (updNode s.nodes parentId
      (addRef (UAReference.mk refTypeId true newId)) ++ [newNode]) ∧
    RefPairInv (updNode s.nodes parentId
      (addRef (UAReference.mk refTypeId true newId)) ++ [newNode]) ∧
    RefResolve (updNode s.nodes parentId
      (addRef (UAReference.mk refTypeId true newId)) ++ [newNode]) := by
  obtain ⟨p0, hp0, hp0id⟩ := hp
  have hUids : (updNode s.nodes parentId
      (addRef (UAReference.mk refTypeId true newId))).map (·.nodeId) =
      s.nodes.map (·.nodeId) :=
    updNode_nodeIds s.nodes parentId _ (fun n => rfl)
  have hnewold : ∀ n ∈ s.nodes, ¬n.nodeId = newId :=
    (getNode_eq_none_iff _ _).mp hnew
  have hparent_ne : ¬parentId = newId := by
    intro he
    exact hnewold p0 hp0 (by rw [hp0id, he])
  -- every member of the updated prefix comes from an old node, same id,
  -- superset references, extra references only the new forward half
  have hmemU : ∀ m ∈ updNode s.nodes parentId
      (addRef (UAReference.mk refTypeId true newId)),
      ∃ n ∈ s.nodes, m.nodeId = n.nodeId ∧
        (∀ x ∈ n.references, x ∈ m.references) ∧
        (∀ x ∈ m.references, x ∈ n.references ∨
          (x = UAReference.mk refTypeId true newId ∧ n.nodeId = parentId)) := by
    intro m hm
    obtain ⟨n, hn, he⟩ := mem_updNode hm
    by_cases hnp : n.nodeId = parentId
    · rw [he, if_pos hnp]
      refine ⟨n, hn, rfl, ?_, ?_⟩
      · intro x hx
        exact List.mem_append_left _ hx
      · intro x hx
        rcases List.mem_append.mp hx with h | h
        · exact Or.inl h
        · exact Or.inr ⟨by simpa using h, hnp⟩
    · rw [he, if_neg hnp]
      exact ⟨n, hn, rfl, fun x hx => hx, fun x hx => Or.inl hx⟩
  -- the old parent's image holds the new forward half
  have hparimg : ∃ t ∈ updNode s.nodes parentId
      (addRef (UAReference.mk refTypeId true newId)),
      t.nodeId = parentId ∧
      (UAReference.mk refTypeId true newId) ∈ t.references := by
    refine ⟨if p0.nodeId = parentId then
      addRef (UAReference.mk refTypeId true newId) p0 else p0,
      mem_updNode_of_mem parentId _ hp0, ?_, ?_⟩
    · rw [if_pos hp0id]
      exact hp0id
    · rw [if_pos hp0id]
      exact List.mem_append_right _ (List.mem_singleton.mpr rfl)
  -- every old node has an image in the prefix with superset references
  have himg : ∀ n ∈ s.nodes, ∃ t ∈ updNode s.nodes parentId
      (addRef (UAReference.mk refTypeId true newId)),
      t.nodeId = n.nodeId ∧ ∀ x ∈ n.references, x ∈ t.references := by
    intro n hn
    refine ⟨if n.nodeId = parentId then
      addRef (UAReference.mk refTypeId true newId) n else n,
      mem_updNode_of_mem parentId _ hn, ?_, ?_⟩
    · by_cases hnp : n.nodeId = parentId
      · rw [if_pos hnp]; rfl
      · rw [if_neg hnp]
    · intro x hx
      by_cases hnp : n.nodeId = parentId
      · rw [if_pos hnp]
        exact List.mem_append_left _ hx
      · rw [if_neg hnp]
        exact hx
  have hNodup2 : NodupIds (updNode s.nodes parentId
      (addRef (UAReference.mk refTypeId true newId)) ++ [newNode]) := by
    unfold NodupIds
    rw [List.map_append, hUids]
    rw [List.nodup_append]
    refine ⟨hnodup, List.nodup_singleton _, ?_⟩
    intro x hx hx2
    simp only [List.map_cons, List.map_nil, List.mem_singleton] at hx2
    obtain ⟨n, hn, hne⟩ := List.mem_map.mp hx
    exact hnewold n hn (by rw [hne, hx2, hid])
  refine ⟨hNodup2, ?_, ?_⟩
  · -- RefPairInv
    intro m hm r hr t ht htid
    rcases List.mem_append.mp hm with hmU | hmN
    · obtain ⟨n, hn, hmid2, hsup, hsplit⟩ := hmemU m hmU
      rcases hsplit r hr with hrold | ⟨hrnew, hnpar⟩
      · -- an old reference: target is an old node's image
        obtain ⟨t0, ht0, ht0id⟩ := hres n hn r hrold
        have hflip := hpair n hn r hrold t0 ht0 ht0id
        rcases List.mem_append.mp ht with htU | htN
        · obtain ⟨t1, ht1, htid2, htsup, -⟩ := hmemU t htU
          have ht1eq : t1 = t0 := nodup_mem_eq hnodup ht1 ht0
            (by rw [← htid2, htid, ht0id])
          rw [hmid2]
          exact htsup _ (ht1eq ▸ hflip)
        · -- the target cannot be the new node: old targets are old
          exfalso
          have : t = newNode := by simpa using htN
          exact hnewold t0 ht0 (by rw [ht0id, ← htid, this, hid])
      · -- the new forward half at the parent: answered by the new node
        have htN : t = newNode := by
          rcases List.mem_append.mp ht with htU | htN
          · exfalso
            obtain ⟨t1, ht1, htid2, -, -⟩ := hmemU t htU
            exact hnewold t1 ht1 (by rw [← htid2, htid, hrnew])
          · simpa using htN
        rw [htN, hrefs, hrnew, hmid2, hnpar]
        exact List.mem_singleton.mpr rfl
    · -- the new node's inverse half: answered by the parent's image
      have hmN2 : m = newNode := by simpa using hmN
      rw [hmN2, hrefs] at hr
      have hrv : r = UAReference.mk refTypeId false parentId := by
        simpa using hr
      obtain ⟨tp, htp, htpid, htpmem⟩ := hparimg
      have htv : t = tp := by
        rcases List.mem_append.mp ht with htU | htN
        · exact nodup_mem_eq hNodup2 ht (List.mem_append_left _ htp)
            (by rw [htid, hrv, htpid])
        · exfalso
          have htn : t = newNode := by simpa using htN
          have hnp : newId = parentId := by rw [← hid, ← htn, htid, hrv]
          exact hparent_ne hnp.symm
      rw [htv, hmN2, hid, hrv]
      exact htpmem
  · -- RefResolve
    intro m hm r hr
    rcases List.mem_append.mp hm with hmU | hmN
    · obtain ⟨n, hn, hmid2, hsup, hsplit⟩ := hmemU m hmU
      rcases hsplit r hr with hrold | ⟨hrnew, -⟩
      · obtain ⟨t0, ht0, ht0id⟩ := hres n hn r hrold
        obtain ⟨t, ht, htid2, -⟩ := himg t0 ht0
        exact ⟨t, List.mem_append_left _ ht, by rw [htid2, ht0id]⟩
      · exact ⟨newNode, List.mem_append_right _
          (List.mem_singleton.mpr rfl), by rw [hid, hrnew]⟩
    · have hmN2 : m = newNode := by simpa using hmN
      rw [hmN2, hrefs] at hr
      have hrv : r = UAReference.mk refTypeId false parentId := by
        simpa using hr
      obtain ⟨tp, htp, htpid, -⟩ := hparimg
      exact ⟨tp, List.mem_append_left _ htp, by rw [htpid, hrv]⟩

theorem commitPlainNode_invariant (s : Server)
    (parentId refTypeId newId : NodeId) (bn : QualifiedName)
    (cls : NodeClass) (dn de : String) (ab : Bool) (v : Option Int)
    (hInv : Invariant s)
    (hp : ∃ p ∈ s.nodes, p.nodeId = parentId)
    (hnew : getNode s.nodes newId = none) :
    Invariant (commitPlainNode s parentId refTypeId newId bn cls dn de ab
      v) := by
  obtain ⟨hnodup, hcf, hpair, hres⟩ := hInv
  obtain ⟨hN, hP, hR⟩ := plainStore_invariant s parentId refTypeId newId
    { nodeId := newId, nodeClass := cls, browseName := bn,
      displayName := dn, description := de, isAbstract := ab, value := v,
      references := [UAReference.mk refTypeId false parentId] }
    rfl rfl hnodup hpair hres hp hnew
  refine ⟨hN, ?_, hP, hR⟩
  intro n hn
  show idFreshB (bumpFor s.counter newId) n.nodeId = true
  rcases List.mem_append.mp hn with hU | hNm
  · obtain ⟨n0, hn0, he⟩ := mem_updNode hU
    have hsame : n.nodeId = n0.nodeId := by
      by_cases hq : n0.nodeId = parentId
      · rw [he, if_pos hq]; rfl
      · rw [he, if_neg hq]
    rw [hsame]
    exact idFreshB_mono (bumpFor_le _ _) _ (hcf n0 hn0)
  · rw [List.mem_singleton.mp hNm]
    exact idFreshB_bumpFor s.counter newId

/-- Invariant bundle for the instantiation-commit store shape: parent
update plus instance, planned subtree and HasTypeDefinition inverses. -/
theorem installStore_invariant (s : Server)
    (parentId refTypeId newId τ : NodeId)
    (created : List (Node × NodeId)) (childRefs : List UAReference)
    (instNode : Node) (ctr1 : Nat) (wcb : Bool) (childEvs : List Event)
    (hid : instNode.nodeId = newId)
    (hrefs : instNode.references =
      [UAReference.mk refTypeId false parentId,
       UAReference.mk hasTypeDefinitionId true τ] ++ childRefs)
    (hnodup : NodupIds s.nodes) (hcf : CounterFresh s)
    (hpair : RefPairInv s.nodes) (hres : RefResolve s.nodes)
    (hp : ∃ p ∈ s.nodes, p.nodeId = parentId)
    (hτm : ∃ t ∈ s.nodes, t.nodeId = τ)
    (hnew : getNode s.nodes newId = none)
    (hOK : PlanOK s wcb newId (bumpFor s.counter newId) ctr1 created
      childRefs childEvs)
    (U N2 allC : List Node)
    (hU : U = updNode s.nodes parentId
      (addRef (UAReference.mk refTypeId true newId)))
    (hallC : allC = instNode :: created.map (·.1))
    (hN2 : N2 = installTypeDefInverses allC (U ++ allC)) :
    NodupIds N2 ∧
    (∀ n ∈ N2, idFreshB ctr1 n.nodeId = true) ∧
    RefPairInv N2 ∧ RefResolve N2 := by
  obtain ⟨p0, hp0, hp0id⟩ := hp
  have hnewold : ∀ n ∈ s.nodes, ¬n.nodeId = newId :=
    (getNode_eq_none_iff _ _).mp hnew
  have hUids : U.map (·.nodeId) = s.nodes.map (·.nodeId) := by
    rw [hU]
    exact updNode_nodeIds s.nodes parentId _ (fun n => rfl)
  have hN2ids : N2.map (·.nodeId) = (U ++ allC).map (·.nodeId) := by
    rw [hN2]
    exact nodeIds_installTypeDefInverses allC (U ++ allC)
  have hcreated_fresh : ∀ x ∈ (created.map (·.1)).map (·.nodeId),
      ∃ k, bumpFor s.counter newId ≤ k ∧ k < ctr1 ∧ x = freshId k := by
    intro x hx
    rw [List.map_map] at hx
    exact fresh_mem_range hOK.fresh hx
  have hold_not_fresh : ∀ n ∈ s.nodes, ∀ k, bumpFor s.counter newId ≤ k →
      ¬n.nodeId = freshId k := by
    intro n hn k hk he
    have h1 := hcf n hn
    rw [he] at h1
    unfold idFreshB freshId at h1
    simp only [decide_eq_true_eq] at h1
    have h2 : s.counter ≤ k := le_trans (bumpFor_le _ _) hk
    omega
  have hBidseq : (U ++ allC).map (·.nodeId) =
      s.nodes.map (·.nodeId) ++
        (newId :: (created.map (·.1)).map (·.nodeId)) := by
    rw [List.map_append, hUids, hallC, List.map_cons, hid]
  have hNodupB : NodupIds (U ++ allC) := by
    unfold NodupIds
    rw [hBidseq, List.nodup_append]
    refine ⟨hnodup, ?_, ?_⟩
    · rw [List.nodup_cons]
      constructor
      · intro hmem
        obtain ⟨k, hk1, -, hk3⟩ := hcreated_fresh _ hmem
        exact newId_ne_freshId s.counter newId k hk1 hk3
      · rw [List.map_map]
        exact hOK.nodup
    · intro x hx hx2
      rcases List.mem_cons.mp hx2 with he | hmem
      · obtain ⟨n, hn, hne⟩ := List.mem_map.mp hx
        exact hnewold n hn (by rw [hne, he])
      · obtain ⟨k, hk1, -, hk3⟩ := hcreated_fresh _ hmem
        obtain ⟨n, hn, hne⟩ := List.mem_map.mp hx
        exact hold_not_fresh n hn k hk1 (by rw [hne, hk3])
  have hNodup2 : NodupIds N2 := by
    unfold NodupIds
    rw [hN2ids]
    exact hNodupB
  have hinstB : instNode ∈ U ++ allC := by
    refine List.mem_append_right _ ?_
    rw [hallC]
    exact List.mem_cons_self _ _
  have hallCB : ∀ c ∈ allC, c ∈ U ++ allC := fun c hc =>
    List.mem_append_right _ hc
  have hinstA : instNode ∈ allC := by
    rw [hallC]
    exact List.mem_cons_self _ _
  have hcreatedA : ∀ p ∈ created, p.1 ∈ allC := by
    intro p hp2
    rw [hallC]
    exact List.mem_cons_of_mem _ (List.mem_map_of_mem _ hp2)
  have himg : ∀ n ∈ s.nodes, ∃ t ∈ U, t.nodeId = n.nodeId ∧
      ∀ x ∈ n.references, x ∈ t.references := by
    intro n hn
    refine ⟨if n.nodeId = parentId then
      addRef (UAReference.mk refTypeId true newId) n else n, ?_, ?_, ?_⟩
    · rw [hU]
      exact mem_updNode_of_mem parentId _ hn
    · by_cases hq : n.nodeId = parentId
      · rw [if_pos hq]; rfl
      · rw [if_neg hq]
    · intro x hx
      by_cases hq : n.nodeId = parentId
      · rw [if_pos hq]
        exact List.mem_append_left _ hx
      · rw [if_neg hq]
        exact hx
  have hmemU : ∀ m ∈ U, ∃ n ∈ s.nodes, m.nodeId = n.nodeId ∧
      (∀ x ∈ m.references, x ∈ n.references ∨
        (x = UAReference.mk refTypeId true newId ∧
          n.nodeId = parentId)) := by
    intro m hm
    obtain ⟨n, hn, he⟩ := mem_updNode (by rw [← hU]; exact hm)
    by_cases hnp : n.nodeId = parentId
    · rw [he, if_pos hnp]
      refine ⟨n, hn, rfl, ?_⟩
      intro x hx
      rcases List.mem_append.mp hx with h | h
      · exact Or.inl h
      · exact Or.inr ⟨by simpa using h, hnp⟩
    · rw [he, if_neg hnp]
      exact ⟨n, hn, rfl, fun x hx => Or.inl hx⟩
  have hparimg : ∃ t ∈ U, t.nodeId = parentId ∧
      (UAReference.mk refTypeId true newId) ∈ t.references := by
    refine ⟨if p0.nodeId = parentId then
      addRef (UAReference.mk refTypeId true newId) p0 else p0, ?_, ?_, ?_⟩
    · rw [hU]
      exact mem_updNode_of_mem parentId _ hp0
    · rw [if_pos hp0id]
      exact hp0id
    · rw [if_pos hp0id]
      exact List.mem_append_right _ (List.mem_singleton.mpr rfl)
  have char : ∀ m' ∈ N2, ∃ m0 ∈ U ++ allC, m0.nodeId = m'.nodeId ∧
      (∀ x ∈ m0.references, x ∈ m'.references) ∧
      (∀ x ∈ m'.references, x ∈ m0.references ∨ ∃ c ∈ allC,
        x = UAReference.mk hasTypeDefinitionId false c.nodeId ∧
        (UAReference.mk hasTypeDefinitionId true m'.nodeId) ∈
          c.references) ∧
      (∀ c ∈ allC, m'.nodeId ∈ tdTargets c →
        (UAReference.mk hasTypeDefinitionId false c.nodeId) ∈
          m'.references) := by
    intro m' hm'
    have hg2 : getNode N2 m'.nodeId = some m' :=
      getNode_of_mem_nodup hNodup2 hm'
    have hxid : m'.nodeId ∈ (U ++ allC).map (·.nodeId) := by
      rw [← hN2ids]
      exact List.mem_map_of_mem _ hm'
    obtain ⟨m0, hm0, hm0id⟩ := List.mem_map.mp hxid
    have hgB : getNode (U ++ allC) m'.nodeId = some m0 := by
      rw [show m'.nodeId = m0.nodeId from hm0id.symm]
      exact getNode_of_mem_nodup hNodupB hm0
    obtain ⟨n', hn', tail, hrec, htail, h4⟩ :=
      getNode_installTypeDefInverses allC (U ++ allC) m'.nodeId m0 hgB
    rw [← hN2, hg2] at hn'
    have hn'2 : n' = m' := (Option.some.inj hn').symm
    subst hn'2
    refine ⟨m0, hm0, hm0id, ?_, ?_, h4⟩
    · intro x hx
      have hx2 : x ∈ m0.references ++ tail := List.mem_append_left _ hx
      rw [hrec]
      exact hx2
    · intro x hx
      have hx2 : x ∈ m0.references ++ tail := by
        rw [hrec] at hx
        exact hx
      rcases List.mem_append.mp hx2 with h | h
      · exact Or.inl h
      · obtain ⟨c, hc, he, hcm⟩ := htail x h
        exact Or.inr ⟨c, hc, he, hcm⟩
  have holdIds : ∀ n ∈ s.nodes, n.nodeId ∈ (U ++ allC).map (·.nodeId) := by
    intro n hn
    rw [hBidseq]
    exact List.mem_append_left _ (List.mem_map_of_mem _ hn)
  have hnewIdMem : newId ∈ (U ++ allC).map (·.nodeId) := by
    rw [hBidseq]
    exact List.mem_append_right _ (List.mem_cons_self _ _)
  have hcIdsMem : ∀ p ∈ created,
      p.1.nodeId ∈ (U ++ allC).map (·.nodeId) := by
    intro p hp2
    rw [hBidseq]
    exact List.mem_append_right _ (List.mem_cons_of_mem _
      (List.mem_map_of_mem _ (List.mem_map_of_mem _ hp2)))
  have hresolve : ∀ X, X ∈ (U ++ allC).map (·.nodeId) →
      ∃ t ∈ N2, t.nodeId = X := by
    intro X hX
    rw [← hN2ids] at hX
    obtain ⟨t, ht, hte⟩ := List.mem_map.mp hX
    exact ⟨t, ht, hte⟩
  have hctr : ∀ n ∈ N2, idFreshB ctr1 n.nodeId = true := by
    intro n hn
    have hxid : n.nodeId ∈ (U ++ allC).map (·.nodeId) := by
      rw [← hN2ids]
      exact List.mem_map_of_mem _ hn
    rw [hBidseq] at hxid
    rcases List.mem_append.mp hxid with hold | hnewc
    · obtain ⟨n0, hn0, hne⟩ := List.mem_map.mp hold
      rw [← hne]
      exact idFreshB_mono (le_trans (bumpFor_le _ _) hOK.le) _ (hcf n0 hn0)
    · rcases List.mem_cons.mp hnewc with he | hmem
      · rw [he]
        exact idFreshB_mono hOK.le _ (idFreshB_bumpFor s.counter newId)
      · obtain ⟨k, -, hk2, hk3⟩ := hcreated_fresh _ hmem
        rw [hk3]
        exact idFreshB_freshId hk2
  refine ⟨hNodup2, hctr, ?_, ?_⟩
  · -- RefPairInv
    intro m' hm' r hr t' ht' htid
    obtain ⟨m0, hm0, hm0id, -, hsplitm, -⟩ := char m' hm'
    obtain ⟨t0c, ht0c, ht0cid, htsub, -, ht4⟩ := char t' ht'
    have hfind : ∀ b ∈ U ++ allC, b.nodeId = r.targetId →
        ∀ x ∈ b.references, x ∈ t'.references := by
      intro b hb hbid x hx
      have hbe : t0c = b := nodup_mem_eq hNodupB ht0c hb
        (by rw [ht0cid, htid, hbid])
      exact htsub x (hbe ▸ hx)
    rcases hsplitm r hr with hin | ⟨c, hc, he, hcm⟩
    · rcases List.mem_append.mp hm0 with hmU | hmA
      · -- m0 from the updated old prefix
        obtain ⟨n, hn, hnid, hsplit2⟩ := hmemU m0 hmU
        rcases hsplit2 r hin with hold | ⟨hrnew, hnpar⟩
        · -- an old reference pair
          obtain ⟨t0, ht0, ht0id⟩ := hres n hn r hold
          have hflip := hpair n hn r hold t0 ht0 ht0id
          obtain ⟨u0, hu0, hu0id, hu0sup⟩ := himg t0 ht0
          have hmn : m'.nodeId = n.nodeId := by rw [← hm0id, hnid]
          have hfv : flipRef m'.nodeId r = flipRef n.nodeId r := by
            unfold flipRef
            rw [hmn]
          rw [hfv]
          exact hfind u0 (List.mem_append_left _ hu0)
            (by rw [hu0id, ht0id]) _ (hu0sup _ hflip)
        · -- the new forward half at the parent
          have hmn : m'.nodeId = parentId := by rw [← hm0id, hnid, hnpar]
          have hfv : flipRef m'.nodeId r =
              UAReference.mk refTypeId false parentId := by
            rw [hrnew]
            unfold flipRef
            rw [hmn]
            rfl
          rw [hfv]
          refine hfind instNode hinstB (by rw [hid, hrnew]) _ ?_
          rw [hrefs]
          exact List.mem_append_left _ (List.mem_cons_self _ _)
      · -- m0 among the freshly created nodes
        have hmA2 : m0 ∈ instNode :: created.map (·.1) := by
          rw [← hallC]
          exact hmA
        rcases List.mem_cons.mp hmA2 with hemi | hmc
        · -- m0 is the instance node
          have hmn : m'.nodeId = newId := by
            rw [← hm0id, hemi]
            exact hid
          have hin2 : r ∈ [UAReference.mk refTypeId false parentId,
              UAReference.mk hasTypeDefinitionId true τ] ++ childRefs := by
            rw [← hrefs, ← hemi]
            exact hin
          rcases List.mem_append.mp hin2 with h2 | h2
          · rcases List.mem_cons.mp h2 with h3 | h3
            · -- the inverse half towards the parent
              have hfv : flipRef m'.nodeId r =
                  UAReference.mk refTypeId true newId := by
                rw [h3]
                unfold flipRef
                rw [hmn]
                rfl
              rw [hfv]
              obtain ⟨tp, htp, htpid, htpmem⟩ := hparimg
              exact hfind tp (List.mem_append_left _ htp)
                (by rw [htpid, h3]) _ htpmem
            · -- the forward HasTypeDefinition half towards the type
              have h5 : r = UAReference.mk hasTypeDefinitionId true τ := by
                simpa using h3
              have hfv : flipRef m'.nodeId r =
                  UAReference.mk hasTypeDefinitionId false newId := by
                rw [h5]
                unfold flipRef
                rw [hmn]
                rfl
              rw [hfv]
              have htt : t'.nodeId ∈ tdTargets instNode := by
                have h6 : t'.nodeId = τ := by rw [htid, h5]
                rw [h6]
                exact tdTargets_of_mem
                  (by
                    rw [hrefs]
                    exact List.mem_append_left _
                      (List.mem_cons_of_mem _ (List.mem_cons_self _ _)))
                  rfl rfl
              have h7 := ht4 instNode hinstA htt
              rw [hid] at h7
              exact h7
          · -- a planned child reference
            have hfwd := hOK.refsFwd r h2
            obtain ⟨q, hq, hqid, hqflip⟩ := hOK.pairing r h2
            have hfv : flipRef m'.nodeId r =
                UAReference.mk r.referenceTypeId false newId := by
              unfold flipRef
              rw [hfwd, hmn]
              rfl
            rw [hfv]
            exact hfind q.1 (hallCB q.1 (hcreatedA q hq)) hqid _ hqflip
        · -- m0 is a planned child node
          obtain ⟨p, hpm, hpe⟩ := List.mem_map.mp hmc
          have hmn : m'.nodeId = p.1.nodeId := by rw [← hm0id, ← hpe]
          have hin2 : r ∈ p.1.references := by
            rw [hpe]
            exact hin
          rcases hOK.nodeRefs p hpm r hin2 with
            ⟨hfwd, hrt, t0, ht0, ht0id⟩ | ⟨hinv, htgt, hcmem⟩ |
            ⟨q, hq, hqid, hqflip⟩
          · -- the child's own HasTypeDefinition reference
            have hfv : flipRef m'.nodeId r =
                UAReference.mk hasTypeDefinitionId false m'.nodeId := by
              unfold flipRef
              rw [hrt, hfwd]
              rfl
            rw [hfv]
            have htt : t'.nodeId ∈ tdTargets p.1 := by
              rw [htid]
              exact tdTargets_of_mem hin2 hfwd hrt
            have h7 := ht4 p.1 (hcreatedA p hpm) htt
            rw [← hmn] at h7
            exact h7
          · -- the child's inverse half towards its plan parent
            have hfv : flipRef m'.nodeId r =
                UAReference.mk r.referenceTypeId true p.1.nodeId := by
              unfold flipRef
              rw [hinv, hmn]
              rfl
            rw [hfv]
            refine hfind instNode hinstB (by rw [hid, htgt]) _ ?_
            rw [hrefs]
            exact List.mem_append_right _ hcmem
          · -- an intra-subtree pair
            have hfv : flipRef m'.nodeId r = flipRef p.1.nodeId r := by
              unfold flipRef
              rw [hmn]
            rw [hfv]
            exact hfind q.1 (hallCB q.1 (hcreatedA q hq)) hqid _ hqflip
    · -- r is an installed HasTypeDefinition inverse half
      have hfv : flipRef m'.nodeId r =
          UAReference.mk hasTypeDefinitionId true m'.nodeId := by
        rw [he]
        unfold flipRef
        rfl
      rw [hfv]
      exact hfind c (hallCB c hc) (by rw [he]) _ hcm
  · -- RefResolve
    intro m' hm' r hr
    obtain ⟨m0, hm0, hm0id, -, hsplitm, -⟩ := char m' hm'
    rcases hsplitm r hr with hin | ⟨c, hc, he, -⟩
    · rcases List.mem_append.mp hm0 with hmU | hmA
      · obtain ⟨n, hn, hnid, hsplit2⟩ := hmemU m0 hmU
        rcases hsplit2 r hin with hold | ⟨hrnew, -⟩
        · obtain ⟨t0, ht0, ht0id⟩ := hres n hn r hold
          obtain ⟨t, ht, hte⟩ := hresolve t0.nodeId (holdIds t0 ht0)
          exact ⟨t, ht, by rw [hte, ht0id]⟩
        · obtain ⟨t, ht, hte⟩ := hresolve newId hnewIdMem
          exact ⟨t, ht, by rw [hte, hrnew]⟩
      · have hmA2 : m0 ∈ instNode :: created.map (·.1) := by
          rw [← hallC]
          exact hmA
        rcases List.mem_cons.mp hmA2 with hemi | hmc
        · have hin2 : r ∈ [UAReference.mk refTypeId false parentId,
              UAReference.mk hasTypeDefinitionId true τ] ++ childRefs := by
            rw [← hrefs, ← hemi]
            exact hin
          rcases List.mem_append.mp hin2 with h2 | h2
          · rcases List.mem_cons.mp h2 with h3 | h3
            · obtain ⟨t, ht, hte⟩ := hresolve p0.nodeId (holdIds p0 hp0)
              exact ⟨t, ht, by rw [hte, hp0id, h3]⟩
            · have h5 : r = UAReference.mk hasTypeDefinitionId true τ := by
                simpa using h3
              obtain ⟨t1, ht1, ht1id⟩ := hτm
              obtain ⟨t, ht, hte⟩ := hresolve t1.nodeId (holdIds t1 ht1)
              exact ⟨t, ht, by rw [hte, ht1id, h5]⟩
          · obtain ⟨q, hq, hqid, -⟩ := hOK.pairing r h2
            obtain ⟨t, ht, hte⟩ := hresolve q.1.nodeId (hcIdsMem q hq)
            exact ⟨t, ht, by rw [hte, hqid]⟩
        · obtain ⟨p, hpm, hpe⟩ := List.mem_map.mp hmc
          have hin2 : r ∈ p.1.references := by
            rw [hpe]
            exact hin
          rcases hOK.nodeRefs p hpm r hin2 with
            ⟨-, -, t0, ht0, ht0id⟩ | ⟨-, htgt, -⟩ | ⟨q, hq, hqid, -⟩
          · obtain ⟨t, ht, hte⟩ := hresolve t0.nodeId (holdIds t0 ht0)
            exact ⟨t, ht, by rw [hte, ht0id]⟩
          · obtain ⟨t, ht, hte⟩ := hresolve newId hnewIdMem
            exact ⟨t, ht, by rw [hte, htgt]⟩
          · obtain ⟨t, ht, hte⟩ := hresolve q.1.nodeId (hcIdsMem q hq)
            exact ⟨t, ht, by rw [hte, hqid]⟩
    · have hcB : c.nodeId ∈ (U ++ allC).map (·.nodeId) :=
        List.mem_map_of_mem _ (hallCB c hc)
      obtain ⟨t, ht, hte⟩ := hresolve c.nodeId hcB
      exact ⟨t, ht, by rw [hte, he]⟩

theorem commitInstance_invariant (s : Server)
    (parentId refTypeId newId τ : NodeId) (bn : QualifiedName)
    (cls : NodeClass) (dn de : String) (v : Option Int) (wcb : Bool)
    (s' : Server) (evs : List Event)
    (hInv : Invariant s)
    (hp : ∃ p ∈ s.nodes, p.nodeId = parentId)
    (hτm : ∃ t ∈ s.nodes, t.nodeId = τ)
    (hnew : getNode s.nodes newId = none)
    (hc : commitInstance s parentId refTypeId newId bn cls dn de v τ wcb =
      (s', evs)) :
    Invariant s' := by
  obtain ⟨hnodup, hcf, hpair, hres⟩ := hInv
  rcases hplan : planChildren s wcb s.nodes.length
      (bumpFor s.counter newId) newId (mandatoryChildren s.nodes τ)
    with ⟨ctr1, created, childRefs, childEvs⟩
  have hOK : PlanOK s wcb newId (bumpFor s.counter newId) ctr1 created
      childRefs childEvs :=
    planChildren_sound s wcb hres s.nodes.length _ _ _
      (templatesOK_mandatory s τ) _ _ _ _ hplan
  simp only [commitInstance, hplan] at hc
  rw [Prod.mk.injEq] at hc
  obtain ⟨hs', -⟩ := hc
  subst hs'
  obtain ⟨hN, hC, hP, hR⟩ := installStore_invariant s parentId refTypeId
    newId τ created childRefs
    { nodeId := newId, nodeClass := cls, browseName := bn,
      displayName := dn, description := de, isAbstract := false, value := v,
      references := [UAReference.mk refTypeId false parentId,
        UAReference.mk hasTypeDefinitionId true τ] ++ childRefs }
    ctr1 wcb childEvs rfl rfl hnodup hcf hpair hres hp hτm hnew hOK
    _ _ _ rfl rfl rfl
  exact ⟨hN, hC, hP, hR⟩

theorem addNode_newId_fresh (s : Server) (requestedId : NodeId)
    (hcf : CounterFresh s)
    (h : ¬(¬requestedId.isNull = true ∧
      (getNode s.nodes requestedId).isSome = true)) :
    getNode s.nodes (if requestedId.isNull then freshId s.counter
      else requestedId) = none := by
  by_cases hq : requestedId.isNull = true
  · rw [if_pos hq]
    exact freshId_not_mem_of_counterFresh hcf le_rfl
  · rw [if_neg hq]
    rcases hg : getNode s.nodes requestedId with - | x
    · rfl
    · exact absurd ⟨hq, by rw [hg]; rfl⟩ h

theorem addNode_invariant (s : Server)
    (parentId refTypeId requestedId : NodeId) (bn : QualifiedName)
    (cls : NodeClass) (typeDefId : NodeId) (dn de : String) (ab : Bool)
    (v : Option Int) (wcb : Bool) (hInv : Invariant s) :
    Invariant (addNode s parentId refTypeId requestedId bn cls typeDefId
      dn de ab v wcb).server := by
  simp only [addNode]
  repeat' split
  all_goals try exact hInv
  · -- typed class, server-assigned identifier
    rename_i x2 pn hpar x1 rtn hrt h1 h2 h3 x0 td htd h4 h5 hq
    exact commitInstance_invariant s parentId refTypeId (freshId s.counter)
      typeDefId bn cls dn de v wcb _ _ hInv
      ⟨pn, List.mem_of_find?_eq_some hpar, getNode_id hpar⟩
      ⟨td, List.mem_of_find?_eq_some htd, getNode_id htd⟩
      (freshId_not_mem_of_counterFresh hInv.2.1 le_rfl) rfl
  · -- typed class, requested identifier
    rename_i x2 pn hpar x1 rtn hrt h1 h2 h3 x0 td htd h4 h5 hq
    have hnew : getNode s.nodes requestedId = none := by
      rcases hg : getNode s.nodes requestedId with - | x
      · rfl
      · exact absurd ⟨hq, by rw [hg]; rfl⟩ h2
    exact commitInstance_invariant s parentId refTypeId requestedId
      typeDefId bn cls dn de v wcb _ _ hInv
      ⟨pn, List.mem_of_find?_eq_some hpar, getNode_id hpar⟩
      ⟨td, List.mem_of_find?_eq_some htd, getNode_id htd⟩ hnew rfl
  · -- plain class, server-assigned identifier
    rename_i x1 pn hpar x0 rtn hrt h1 h2 h3 h5 hq
    exact commitPlainNode_invariant s parentId refTypeId
      (freshId s.counter) bn cls dn de ab v hInv
      ⟨pn, List.mem_of_find?_eq_some hpar, getNode_id hpar⟩
      (freshId_not_mem_of_counterFresh hInv.2.1 le_rfl)
  · -- plain class, requested identifier
    rename_i x1 pn hpar x0 rtn hrt h1 h2 h3 h5 hq
    have hnew : getNode s.nodes requestedId = none := by
      rcases hg : getNode s.nodes requestedId with - | x
      · rfl
      · exact absurd ⟨hq, by rw [hg]; rfl⟩ h2
    exact commitPlainNode_invariant s parentId refTypeId requestedId bn cls
      dn de ab v hInv
      ⟨pn, List.mem_of_find?_eq_some hpar, getNode_id hpar⟩ hnew

theorem installPair_invariant (s : Server) (src rt0 tgt : NodeId)
    (fwd : Bool) (hInv : Invariant s)
    (hs : ∃ n ∈ s.nodes, n.nodeId = src)
    (ht : ∃ n ∈ s.nodes, n.nodeId = tgt) :
    Invariant { s with nodes := installPair s.nodes src rt0 fwd tgt } := by
  obtain ⟨hnodup, hcf, hpair, hres⟩ := hInv
  obtain ⟨s0, hs0, hs0id⟩ := hs
  obtain ⟨t0, ht0, ht0id⟩ := ht
  have hids : (installPair s.nodes src rt0 fwd tgt).map (·.nodeId) =
      s.nodes.map (·.nodeId) := by
    unfold installPair
    rw [updNode_nodeIds _ tgt
        (addRef (UAReference.mk rt0 (!fwd) src)) (fun n => rfl),
      updNode_nodeIds s.nodes src
        (addRef (UAReference.mk rt0 fwd tgt)) (fun n => rfl)]
  have hmem2 : ∀ m ∈ installPair s.nodes src rt0 fwd tgt,
      ∃ n ∈ s.nodes, m.nodeId = n.nodeId ∧
        (∀ x ∈ m.references, x ∈ n.references ∨
          (x = UAReference.mk rt0 fwd tgt ∧ n.nodeId = src) ∨
          (x = UAReference.mk rt0 (!fwd) src ∧ n.nodeId = tgt)) := by
    intro m hm
    unfold installPair at hm
    obtain ⟨m1, hm1, he1⟩ := mem_updNode hm
    obtain ⟨n, hn, he2⟩ := mem_updNode hm1
    have hm1id : m1.nodeId = n.nodeId := by
      by_cases hq : n.nodeId = src
      · rw [he2, if_pos hq]; rfl
      · rw [he2, if_neg hq]
    have hm1split : ∀ x ∈ m1.references, x ∈ n.references ∨
        (x = UAReference.mk rt0 fwd tgt ∧ n.nodeId = src) := by
      intro x hx
      by_cases hq : n.nodeId = src
      · rw [he2, if_pos hq] at hx
        rcases List.mem_append.mp hx with h | h
        · exact Or.inl h
        · exact Or.inr ⟨by simpa using h, hq⟩
      · rw [he2, if_neg hq] at hx
        exact Or.inl hx
    refine ⟨n, hn, ?_, ?_⟩
    · by_cases hq : m1.nodeId = tgt
      · rw [he1, if_pos hq]
        exact hm1id
      · rw [he1, if_neg hq]
        exact hm1id
    · intro x hx
      by_cases hq : m1.nodeId = tgt
      · rw [he1, if_pos hq] at hx
        rcases List.mem_append.mp hx with h | h
        · rcases hm1split x h with h2 | h2
          · exact Or.inl h2
          · exact Or.inr (Or.inl h2)
        · exact Or.inr (Or.inr ⟨by simpa using h, by rw [← hm1id, hq]⟩)
      · rw [he1, if_neg hq] at hx
        rcases hm1split x hx with h2 | h2
        · exact Or.inl h2
        · exact Or.inr (Or.inl h2)
  have himg2 : ∀ n ∈ s.nodes, ∃ m ∈ installPair s.nodes src rt0 fwd tgt,
      m.nodeId = n.nodeId ∧ ∀ x ∈ n.references, x ∈ m.references := by
    intro n hn
    have h1 : (if n.nodeId = src then
        addRef (UAReference.mk rt0 fwd tgt) n else n) ∈
        updNode s.nodes src (addRef (UAReference.mk rt0 fwd tgt)) :=
      mem_updNode_of_mem src _ hn
    have hfid : (if n.nodeId = src then
        addRef (UAReference.mk rt0 fwd tgt) n else n).nodeId =
        n.nodeId := by
      by_cases hq : n.nodeId = src
      · rw [if_pos hq]; rfl
      · rw [if_neg hq]
    have hfsub : ∀ x ∈ n.references, x ∈ (if n.nodeId = src then
        addRef (UAReference.mk rt0 fwd tgt) n else n).references := by
      intro x hx
      by_cases hq : n.nodeId = src
      · rw [if_pos hq]
        exact List.mem_append_left _ hx
      · rw [if_neg hq]
        exact hx
    refine ⟨_, (by
        unfold installPair
        exact mem_updNode_of_mem tgt
          (addRef (UAReference.mk rt0 (!fwd) src)) h1), ?_, ?_⟩
    · by_cases hq : (if n.nodeId = src then
          addRef (UAReference.mk rt0 fwd tgt) n else n).nodeId = tgt
      · rw [if_pos hq]
        exact hfid
      · rw [if_neg hq]
        exact hfid
    · intro x hx
      by_cases hq : (if n.nodeId = src then
          addRef (UAReference.mk rt0 fwd tgt) n else n).nodeId = tgt
      · rw [if_pos hq]
        exact List.mem_append_left _ (hfsub x hx)
      · rw [if_neg hq]
        exact hfsub x hx
  have hsrcimg : ∃ m ∈ installPair s.nodes src rt0 fwd tgt,
      m.nodeId = src ∧
      UAReference.mk rt0 fwd tgt ∈ m.references := by
    have h1 : addRef (UAReference.mk rt0 fwd tgt) s0 ∈
        updNode s.nodes src (addRef (UAReference.mk rt0 fwd tgt)) := by
      have h2 := mem_updNode_of_mem src
        (addRef (UAReference.mk rt0 fwd tgt)) hs0
      rw [if_pos hs0id] at h2
      exact h2
    refine ⟨_, (by
        unfold installPair
        exact mem_updNode_of_mem tgt
          (addRef (UAReference.mk rt0 (!fwd) src)) h1), ?_, ?_⟩
    · by_cases hq : (addRef (UAReference.mk rt0 fwd tgt) s0).nodeId = tgt
      · rw [if_pos hq]
        exact hs0id
      · rw [if_neg hq]
        exact hs0id
    · by_cases hq : (addRef (UAReference.mk rt0 fwd tgt) s0).nodeId = tgt
      · rw [if_pos hq]
        exact List.mem_append_left _
          (List.mem_append_right _ (List.mem_singleton.mpr rfl))
      · rw [if_neg hq]
        exact List.mem_append_right _ (List.mem_singleton.mpr rfl)
  have htgtimg : ∃ m ∈ installPair s.nodes src rt0 fwd tgt,
      m.nodeId = tgt ∧
      UAReference.mk rt0 (!fwd) src ∈ m.references := by
    have hfid : (if t0.nodeId = src then
        addRef (UAReference.mk rt0 fwd tgt) t0 else t0).nodeId =
        t0.nodeId := by
      by_cases hq : t0.nodeId = src
      · rw [if_pos hq]; rfl
      · rw [if_neg hq]
    have h1 : (if t0.nodeId = src then
        addRef (UAReference.mk rt0 fwd tgt) t0 else t0) ∈
        updNode s.nodes src (addRef (UAReference.mk rt0 fwd tgt)) :=
      mem_updNode_of_mem src _ ht0
    have h2 := mem_updNode_of_mem tgt
      (addRef (UAReference.mk rt0 (!fwd) src)) h1
    rw [if_pos (by rw [hfid, ht0id])] at h2
    refine ⟨_, (by unfold installPair; exact h2), ?_, ?_⟩
    · exact hfid.trans ht0id
    · exact List.mem_append_right _ (List.mem_singleton.mpr rfl)
  have hNodup2 : NodupIds (installPair s.nodes src rt0 fwd tgt) := by
    unfold NodupIds
    rw [hids]
    exact hnodup
  refine ⟨hNodup2, ?_, ?_, ?_⟩
  · intro n hn
    obtain ⟨n0, hn0, hne, -⟩ := hmem2 n hn
    show idFreshB s.counter n.nodeId = true
    rw [hne]
    exact hcf n0 hn0
  · intro m hm r hr t ht2 htid
    obtain ⟨n, hn, hmid, hsplit⟩ := hmem2 m hm
    have hfind : ∀ b ∈ installPair s.nodes src rt0 fwd tgt,
        b.nodeId = r.targetId → ∀ x ∈ b.references, x ∈ t.references := by
      intro b hb hbid x hx
      have hbe : t = b := nodup_mem_eq hNodup2 ht2 hb (by rw [htid, hbid])
      rw [hbe]
      exact hx
    rcases hsplit r hr with hold | hAc | hBc
    · obtain ⟨t1, ht1, ht1id⟩ := hres n hn r hold
      have hflip := hpair n hn r hold t1 ht1 ht1id
      obtain ⟨u, hu, huid, husub⟩ := himg2 t1 ht1
      have hfv : flipRef m.nodeId r = flipRef n.nodeId r := by
        unfold flipRef
        rw [hmid]
      rw [hfv]
      exact hfind u hu (by rw [huid, ht1id]) _ (husub _ hflip)
    · obtain ⟨hA, hnsrc⟩ := hAc
      have hfv : flipRef m.nodeId r =
          UAReference.mk rt0 (!fwd) src := by
        simp [flipRef, hA, hmid, hnsrc]
      rw [hfv]
      obtain ⟨u, hu, huid, humem⟩ := htgtimg
      exact hfind u hu (by rw [huid, hA]) _ humem
    · obtain ⟨hB, hntgt⟩ := hBc
      have hfv : flipRef m.nodeId r = UAReference.mk rt0 fwd tgt := by
        simp [flipRef, hB, hmid, hntgt]
      rw [hfv]
      obtain ⟨u, hu, huid, humem⟩ := hsrcimg
      exact hfind u hu (by rw [huid, hB]) _ humem
  · intro m hm r hr
    obtain ⟨n, hn, -, hsplit⟩ := hmem2 m hm
    have hRid : ∀ X, X ∈ s.nodes.map (·.nodeId) →
        ∃ t ∈ installPair s.nodes src rt0 fwd tgt, t.nodeId = X := by
      intro X hX
      rw [← hids] at hX
      obtain ⟨t, ht2, hte⟩ := List.mem_map.mp hX
      exact ⟨t, ht2, hte⟩
    rcases hsplit r hr with hold | hAc | hBc
    · obtain ⟨t1, ht1, ht1id⟩ := hres n hn r hold
      obtain ⟨t, ht2, hte⟩ := hRid t1.nodeId (List.mem_map_of_mem _ ht1)
      exact ⟨t, ht2, by rw [hte, ht1id]⟩
    · obtain ⟨hA, -⟩ := hAc
      obtain ⟨t, ht2, hte⟩ := hRid t0.nodeId (List.mem_map_of_mem _ ht0)
      exact ⟨t, ht2, by rw [hte, ht0id, hA]⟩
    · obtain ⟨hB, -⟩ := hBc
      obtain ⟨t, ht2, hte⟩ := hRid s0.nodeId (List.mem_map_of_mem _ hs0)
      exact ⟨t, ht2, by rw [hte, hs0id, hB]⟩

theorem addReference_invariant (s : Server) (src rt tgt : NodeId)
    (fwd : Bool) (hInv : Invariant s) :
    Invariant (addReference s src rt tgt fwd).server := by
  simp only [addReference]
  repeat' split
  all_goals try exact hInv
  rename_i sn x1 x2 hsn hrt htgt h
  exact installPair_invariant s src rt tgt fwd hInv
    ⟨sn, List.mem_of_find?_eq_some hsn, getNode_id hsn⟩
    ⟨x2, List.mem_of_find?_eq_some htgt, getNode_id htgt⟩

theorem deleteNode_true_invariant (s : Server) (id : NodeId)
    (hInv : Invariant s) :
    Invariant (deleteNode s id true).server := by
  obtain ⟨hnodup, hcf, hpair, hres⟩ := hInv
  simp only [deleteNode]
  split
  · exact ⟨hnodup, hcf, hpair, hres⟩
  rename_i n hg
  have hnm : n ∈ s.nodes := List.mem_of_find?_eq_some hg
  have hnid : n.nodeId = id := getNode_id hg
  have hremoved : n.references.filter
      (fun r => r.isForward || true) = n.references :=
    List.filter_eq_self.mpr (fun a _ => by simp)
  rw [hremoved]
  have hmemD : ∀ m' ∈ (s.nodes.filter (fun m => ¬m.nodeId = id)).map
      (purgeRefs id n.references),
      ∃ m ∈ s.nodes, ¬m.nodeId = id ∧ m'.nodeId = m.nodeId ∧
        (∀ x ∈ m'.references, x ∈ m.references ∧
          ¬(x.targetId = id ∧ flipRef m.nodeId x ∈ n.references)) := by
    intro m' hm'
    obtain ⟨m, hm, he⟩ := List.mem_map.mp hm'
    have hm2 := List.mem_filter.mp hm
    refine ⟨m, hm2.1, by simpa using hm2.2, by rw [← he]; rfl, ?_⟩
    intro x hx
    rw [← he] at hx
    have hx2 := List.mem_filter.mp hx
    refine ⟨hx2.1, ?_⟩
    have h3 := hx2.2
    rw [decide_eq_true_eq] at h3
    exact h3
  have himgD : ∀ m ∈ s.nodes, ¬m.nodeId = id →
      ∃ m' ∈ (s.nodes.filter (fun m => ¬m.nodeId = id)).map
        (purgeRefs id n.references),
      m'.nodeId = m.nodeId ∧
      (∀ x ∈ m.references,
        ¬(x.targetId = id ∧ flipRef m.nodeId x ∈ n.references) →
        x ∈ m'.references) := by
    intro m hm hmne
    refine ⟨purgeRefs id n.references m,
      List.mem_map_of_mem _ (List.mem_filter.mpr ⟨hm, by simpa⟩),
      rfl, ?_⟩
    intro x hx hcond
    show x ∈ (purgeRefs id n.references m).references
    unfold purgeRefs
    rw [List.mem_filter]
    refine ⟨hx, ?_⟩
    rw [decide_eq_true_eq]
    exact hcond
  have hids : ((s.nodes.filter (fun m => ¬m.nodeId = id)).map
      (purgeRefs id n.references)).map (·.nodeId) =
      (s.nodes.filter (fun m => ¬m.nodeId = id)).map (·.nodeId) := by
    rw [List.map_map]
    exact List.map_congr_left (fun m _ => rfl)
  have hNodup2 : NodupIds ((s.nodes.filter (fun m => ¬m.nodeId = id)).map
      (purgeRefs id n.references)) := by
    unfold NodupIds
    rw [hids]
    exact (hnodup.sublist (List.Sublist.map _ (List.filter_sublist _)))
  refine ⟨hNodup2, ?_, ?_, ?_⟩
  · intro m' hm'
    obtain ⟨m, hm, -, hme, -⟩ := hmemD m' hm'
    show idFreshB s.counter m'.nodeId = true
    rw [hme]
    exact hcf m hm
  · intro m' hm' r hr t' ht' htid
    obtain ⟨m, hm, hmne, hme, hsurv⟩ := hmemD m' hm'
    obtain ⟨hrm, -⟩ := hsurv r hr
    obtain ⟨t1, ht1, ht1id⟩ := hres m hm r hrm
    have hflip := hpair m hm r hrm t1 ht1 ht1id
    obtain ⟨t, ht2, htne, hte, htsurv⟩ := hmemD t' ht'
    have hteq : t = t1 := nodup_mem_eq hnodup ht2 ht1
      (by rw [← hte, htid, ht1id])
    -- the flip survives the purge of t: its target is the surviving m
    obtain ⟨t'', ht'', ht''id, ht''keep⟩ := himgD t1 ht1
      (by rw [← hteq]; exact htne)
    have ht''eq : t' = t'' := nodup_mem_eq hNodup2 ht' ht''
      (by rw [ht''id, htid, ht1id])
    have hfv : flipRef m'.nodeId r = flipRef m.nodeId r := by
      unfold flipRef
      rw [hme]
    rw [hfv, ht''eq]
    refine ht''keep _ hflip ?_
    intro hcontra
    -- the flip targets m, which survives, so its target is not id
    exact hmne (by rw [← hcontra.1]; rfl)
  · intro m' hm' r hr
    obtain ⟨m, hm, hmne, hme, hsurv⟩ := hmemD m' hm'
    obtain ⟨hrm, hkeep⟩ := hsurv r hr
    obtain ⟨t1, ht1, ht1id⟩ := hres m hm r hrm
    have ht1ne : ¬t1.nodeId = id := by
      intro hcontra
      have ht1n : t1 = n := nodup_mem_eq hnodup ht1 hnm
        (by rw [hcontra, hnid])
      refine hkeep ⟨by rw [← ht1id, hcontra], ?_⟩
      have := hpair m hm r hrm t1 ht1 ht1id
      rw [ht1n] at this
      exact this
    obtain ⟨t'', ht'', ht''id, -⟩ := himgD t1 ht1 ht1ne
    exact ⟨t'', ht'', by rw [ht''id, ht1id]⟩

theorem deleteReference_invariant (s : Server) (src rt tgt : NodeId)
    (fwd : Bool) (hInv : Invariant s) :
    Invariant (deleteReference s src rt tgt fwd).server := by
  obtain ⟨hnodup, hcf, hpair, hres⟩ := hInv
  unfold deleteReference
  rcases hg1 : getNode s.nodes src with - | sn
  · exact ⟨hnodup, hcf, hpair, hres⟩
  rcases hg2 : getNode s.nodes tgt with - | tn
  · exact ⟨hnodup, hcf, hpair, hres⟩
  have hmemD : ∀ m' ∈ s.nodes.map (fun m =>
      { m with references := m.references.filter (fun r =>
          ¬(m.nodeId = src ∧ r = UAReference.mk rt fwd tgt) ∧
          ¬(m.nodeId = tgt ∧ r = UAReference.mk rt (!fwd) src)) }),
      ∃ m ∈ s.nodes, m'.nodeId = m.nodeId ∧
        (∀ x ∈ m'.references, x ∈ m.references ∧
          ¬(m.nodeId = src ∧ x = UAReference.mk rt fwd tgt) ∧
          ¬(m.nodeId = tgt ∧ x = UAReference.mk rt (!fwd) src)) := by
    intro m' hm'
    obtain ⟨m, hm, he⟩ := List.mem_map.mp hm'
    refine ⟨m, hm, by rw [← he], ?_⟩
    intro x hx
    rw [← he] at hx
    have hx2 := List.mem_filter.mp hx
    refine ⟨hx2.1, ?_⟩
    have h3 := hx2.2
    rw [decide_eq_true_eq] at h3
    exact h3
  have himgD : ∀ m ∈ s.nodes,
      ∃ m' ∈ s.nodes.map (fun m =>
        { m with references := m.references.filter (fun r =>
            ¬(m.nodeId = src ∧ r = UAReference.mk rt fwd tgt) ∧
            ¬(m.nodeId = tgt ∧ r = UAReference.mk rt (!fwd) src)) }),
      m'.nodeId = m.nodeId ∧
      (∀ x ∈ m.references,
        ¬(m.nodeId = src ∧ x = UAReference.mk rt fwd tgt) →
        ¬(m.nodeId = tgt ∧ x = UAReference.mk rt (!fwd) src) →
        x ∈ m'.references) := by
    intro m hm
    refine ⟨_, List.mem_map_of_mem _ hm, rfl, ?_⟩
    intro x hx h1 h2
    show x ∈ List.filter _ m.references
    rw [List.mem_filter]
    refine ⟨hx, ?_⟩
    simp only [decide_eq_true_eq]
    exact ⟨by simpa using h1, by simpa using h2⟩
  have hids : (s.nodes.map (fun m =>
      { m with references := m.references.filter (fun r =>
          ¬(m.nodeId = src ∧ r = UAReference.mk rt fwd tgt) ∧
          ¬(m.nodeId = tgt ∧ r = UAReference.mk rt (!fwd) src)) })).map
      (·.nodeId) = s.nodes.map (·.nodeId) := by
    rw [List.map_map]
    exact List.map_congr_left (fun m _ => rfl)
  have hNodup2 : NodupIds (s.nodes.map (fun m =>
      { m with references := m.references.filter (fun r =>
          ¬(m.nodeId = src ∧ r = UAReference.mk rt fwd tgt) ∧
          ¬(m.nodeId = tgt ∧ r = UAReference.mk rt (!fwd) src)) })) := by
    unfold NodupIds
    rw [hids]
    exact hnodup
  refine ⟨hNodup2, ?_, ?_, ?_⟩
  · intro m' hm'
    obtain ⟨m, hm, hme, -⟩ := hmemD m' hm'
    show idFreshB s.counter m'.nodeId = true
    rw [hme]
    exact hcf m hm
  · intro m' hm' r hr t' ht' htid
    obtain ⟨rrt, rfw, rtg⟩ := r
    obtain ⟨m, hm, hme, hsurv⟩ := hmemD m' hm'
    obtain ⟨hrm, hk1, hk2⟩ := hsurv _ hr
    obtain ⟨t1, ht1, ht1id⟩ := hres m hm _ hrm
    have hflip := hpair m hm _ hrm t1 ht1 ht1id
    obtain ⟨t'', ht'', ht''id, ht''keep⟩ := himgD t1 ht1
    have ht''eq : t' = t'' := nodup_mem_eq hNodup2 ht' ht''
      (by rw [ht''id, htid, ht1id])
    have hfv : flipRef m'.nodeId ⟨rrt, rfw, rtg⟩ =
        flipRef m.nodeId ⟨rrt, rfw, rtg⟩ := by
      unfold flipRef
      rw [hme]
    rw [hfv, ht''eq]
    refine ht''keep _ hflip ?_ ?_
    · -- the flip is not the deleted forward half at the source
      intro hcontra
      obtain ⟨hcs, hcv⟩ := hcontra
      simp only [flipRef, UAReference.mk.injEq] at hcv
      obtain ⟨he1, he2, he3⟩ := hcv
      -- then the surviving reference was the deleted inverse half
      refine hk2 ⟨he3, ?_⟩
      simp only [UAReference.mk.injEq]
      refine ⟨he1, ?_, by rw [← hcs]; exact ht1id.symm⟩
      rw [← he2, Bool.not_not]
    · -- nor the deleted inverse half at the target
      intro hcontra
      obtain ⟨hcs, hcv⟩ := hcontra
      simp only [flipRef, UAReference.mk.injEq] at hcv
      obtain ⟨he1, he2, he3⟩ := hcv
      refine hk1 ⟨he3, ?_⟩
      simp only [UAReference.mk.injEq]
      refine ⟨he1, ?_, by rw [← hcs]; exact ht1id.symm⟩
      exact Bool.not_inj he2
  · intro m' hm' r hr
    obtain ⟨m, hm, hme, hsurv⟩ := hmemD m' hm'
    obtain ⟨hrm, -, -⟩ := hsurv r hr
    obtain ⟨t1, ht1, ht1id⟩ := hres m hm r hrm
    obtain ⟨t'', ht'', ht''id, -⟩ := himgD t1 ht1
    exact ⟨t'', ht'', by rw [ht''id, ht1id]⟩

theorem applyOp_invariant (s : Server) (op : ServiceOp)
    (hop : retainsDanglingRefs op = false) (hInv : Invariant s) :
    Invariant (applyOp s op) := by
  cases op with
  | addNode p rt req bn cls td dn d ab v wcb =>
    exact addNode_invariant s p rt req bn cls td dn d ab v wcb hInv
  | addReference src rt tgt fwd =>
    exact addReference_invariant s src rt tgt fwd hInv
  | deleteNode id dtr =>
    have hd : dtr = true := by
      simpa [retainsDanglingRefs] using hop
    show Invariant (deleteNode s id dtr).server
    rw [hd]
    exact deleteNode_true_invariant s id hInv
  | deleteReference src rt tgt fwd =>
    exact deleteReference_invariant s src rt tgt fwd hInv

theorem applyOps_invariant : ∀ ops : List ServiceOp,
    (∀ op ∈ ops, retainsDanglingRefs op = false) →
    ∀ s, Invariant s → Invariant (applyOps s ops) := by
  intro ops
  induction ops with
  | nil =>
    intro h s hs
    exact hs
  | cons op rest ih =>
    intro h s hs
    exact ih (fun o ho => h o (List.mem_cons_of_mem _ ho)) (applyOp s op)
      (applyOp_invariant s op (h op (List.mem_cons_self _ _)) hs)

theorem forwardPairInv_of_refPairInv {nodes : List Node}
    (h : RefPairInv nodes) : ForwardPairInv nodes :=
  fun m hm r hr _ t ht htid => h m hm r hr t ht htid

/-- C2 (amended): after every sequence of service operations in which
every DeleteNode purges the references of its targets
(`deleteTargetReferences = true`), every forward reference held by a node
in the store whose target is in the store is answered by the inverse half
at the target.  The unrestricted claim is false: see
`forwardPairInv_counterexample`, where a DeleteNode with
`deleteTargetReferences = false` strands a forward half whose NodeId is
later reused. -/
theorem forward_pair_invariant_ops (ops : List ServiceOp)
    (h : ∀ op ∈ ops, retainsDanglingRefs op = false) :
    ForwardPairInv (applyOps initialServer ops).nodes :=
  forwardPairInv_of_refPairInv
    ((applyOps_invariant ops h initialServer (by decide)).2.2.1)

/-- Witness for C2 (amended): the counterexample's sequence, repaired to
delete with `deleteTargetReferences = true`, keeps the forward-pair
invariant. -/
theorem forward_pair_invariant_ops_witness :
    (∀ op ∈ [ServiceOp.addNode objectsFolderId organizesId (nsZero 600)
        ⟨1, "X"⟩ .object NodeId.null "X" "X" false none false,
      ServiceOp.deleteNode (nsZero 600) true,
      ServiceOp.addNode rootFolderId organizesId (nsZero 600) ⟨1, "X"⟩
        .object NodeId.null "X" "X" false none false],
      retainsDanglingRefs op = false) ∧
    ForwardPairInv (applyOps initialServer
      [ServiceOp.addNode objectsFolderId organizesId (nsZero 600)
        ⟨1, "X"⟩ .object NodeId.null "X" "X" false none false,
      ServiceOp.deleteNode (nsZero 600) true,
      ServiceOp.addNode rootFolderId organizesId (nsZero 600) ⟨1, "X"⟩
        .object NodeId.null "X" "X" false none false]).nodes :=
  ⟨by decide, forward_pair_invariant_ops _ (by decide)⟩
